import Mathlib

/-!
Verification of the heightmap-linking pipeline of `automation/link_heightmaps.py`
(Displacement-MicroMap-Toolkit).

The script is embedded shallowly:

* `pathlib.Path` values are lists of path components (`Path := List String`);
  URI percent-encoding (`urllib.parse.quote`/`unquote`) is a bijection that no
  claim observes, so it is modelled as the identity on path strings.
* Python floats (match scores, scale, bias) are modelled as exact fractions
  (`Frac`, an unnormalized `Int` numerator/denominator pair compared by
  cross-multiplication); comparisons agree with the value order whenever
  denominators are positive, which every score produced by the script has.
* external library routines (the `re` regex engine, `difflib.SequenceMatcher
  .ratio`) are pure functions supplied in an `Env` record, and `os.listdir` is
  a pure function passed to the stages that read the filesystem: the script
  only ever calls them, so every claim holds for all instantiations.
* Python `set` iteration order is unspecified; sets are modelled as
  duplicate-free lists in insertion order.  The only set-iteration order that
  is observable in the script's output is the one leaking into the stale
  `sampler_id` loop variable, which is covered by its own claim.
* `print` diagnostics are not modelled, except for the observable
  `warn_multiple_matches` once-per-document warning counter.
* fallible operations (the `patterrn` NameError in `filterMaterialName`, the
  `ValueError` of `Path.relative_to` for files outside the document directory,
  and the NameError on a never-assigned `sampler_id`) return `Except Unit`.
-/

/-! ### Characters and strings

Kernel-executable character/string helpers used instead of the opaque core
`String` routines. -/

def charLeB (a b : Char) : Bool := Nat.ble a.toNat b.toNat

def charLowerB (c : Char) : Bool := 'a' ≤ c ∧ c ≤ 'z'

/-- ASCII lowercasing, the fragment of Python `str.lower` exercised by names. -/
def charToLowerAscii (c : Char) : Char :=
  if 'A'.toNat ≤ c.toNat ∧ c.toNat ≤ 'Z'.toNat then Char.ofNat (c.toNat + 32) else c

def strToLower (s : String) : String := String.mk (s.data.map charToLowerAscii)

def chLeB : List Char → List Char → Bool
  | [], _ => true
  | _ :: _, [] => false
  | a :: as, b :: bs => if a = b then chLeB as bs else charLeB a b

/-- Lexicographic string order (Python `str` comparison). -/
def strLeB (a b : String) : Bool := chLeB a.data b.data

def splitOnChar (c : Char) : List Char → List (List Char)
  | [] => [[]]
  | a :: as =>
    match splitOnChar c as with
    | [] => [[]]
    | g :: gs => if a = c then [] :: g :: gs else (a :: g) :: gs

/-- Components of a URI path string: split on `/`, dropping empty segments the
way `pathlib` does when parsing `"a//b/"`. -/
def splitUri (u : String) : List String :=
  ((splitOnChar '/' u.data).filter (· ≠ [])).map String.mk

/-- `str(path)` for a relative path: components joined with `/`. -/
def joinPath (l : List String) : String :=
  String.mk ((l.map String.data).intersperse ['/']).flatten

/-- `PurePath.suffix`: the extension from the last dot of the final name,
empty when the dot is leading or trailing (CPython's `0 < i < len-1` rule). -/
def suffixOfName (s : String) : String :=
  match (s.data.reverse).findIdx? (· = '.') with
  | none => ""
  | some r =>
    let i := s.data.length - 1 - r
    if 0 < i ∧ 0 < r then String.mk (s.data.drop i) else ""

/-! ### Paths -/

/-- A `pathlib.Path`, as its list of components. -/
abbrev FsPath := List String

/-- `path.name`. -/
def FsPath.nameOf (p : FsPath) : String := p.getLastD ""

/-- `path.suffix`. -/
def FsPath.suffixOf (p : FsPath) : String := suffixOfName p.nameOf

/-- `path.parent`. -/
def FsPath.parentOf (p : FsPath) : FsPath := p.dropLast

/-- `base / components`. -/
def FsPath.join (base : FsPath) (rel : List String) : FsPath := base ++ rel

def pathUnder : FsPath → FsPath → Bool
  | _, [] => true
  | [], _ :: _ => false
  | a :: as, b :: bs => if a = b then pathUnder as bs else false

/-- `path.relative_to(base)`; raises `ValueError` when `base` is not a lexical
ancestor, hence `Except`. -/
def FsPath.relative_to (p base : FsPath) : Except Unit (List String) :=
  if pathUnder p base then .ok (p.drop base.length) else .error ()

/-- Python list/tuple lexicographic comparison lifted by an element order:
equal heads step, otherwise the element comparison decides. -/
def listLeB {α : Type} [DecidableEq α] (leB : α → α → Bool) : List α → List α → Bool
  | [], _ => true
  | _ :: _, [] => false
  | a :: as, b :: bs => if a = b then listLeB leB as bs else leB a b

/-- `pathlib` path comparison, modelled componentwise. -/
def pathLeB (a b : FsPath) : Bool := listLeB strLeB a b

def natListLeB (a b : List Nat) : Bool := listLeB (fun x y => Nat.ble x y) a b

/-! ### Exact fractions standing for Python floats -/

/-- An unnormalized fraction: Python float values are modelled exactly. -/
structure Frac where
  num : Int
  den : Int
  deriving DecidableEq, Repr

def Frac.ofNat (n : Nat) : Frac := ⟨n, 1⟩

def Frac.add (a b : Frac) : Frac := ⟨a.num * b.den + b.num * a.den, a.den * b.den⟩

def Frac.mul (a b : Frac) : Frac := ⟨a.num * b.num, a.den * b.den⟩

/-- Value comparison by cross-multiplication (agrees with the numeric order
when denominators are positive). -/
def fLtB (a b : Frac) : Bool := decide (a.num * b.den < b.num * a.den)

theorem fLtB_asymm {a b : Frac} (h : fLtB a b = true) : fLtB b a = false := by
  simp only [fLtB, decide_eq_true_eq] at h
  simp only [fLtB, decide_eq_false_iff_not]
  omega

/-! ### Insertion sort (Python `sorted`) -/

def insertSorted {α : Type} (leB : α → α → Bool) (a : α) : List α → List α
  | [] => [a]
  | b :: l => if leB a b then a :: b :: l else b :: insertSorted leB a l

def isort {α : Type} (leB : α → α → Bool) : List α → List α
  | [] => []
  | a :: l => insertSorted leB a (isort leB l)

theorem insertSorted_perm {α : Type} (leB : α → α → Bool) (a : α) (l : List α) :
    (insertSorted leB a l).Perm (a :: l) := by
  induction l with
  | nil => simp [insertSorted]
  | cons b t ih =>
    by_cases h : leB a b = true
    · simp [insertSorted, h]
    · simp only [insertSorted, h, if_false]
      exact (ih.cons b).trans (List.Perm.swap a b t)

theorem isort_perm {α : Type} (leB : α → α → Bool) (l : List α) : (isort leB l).Perm l := by
  induction l with
  | nil => simp [isort]
  | cons a t ih => exact (insertSorted_perm leB a (isort leB t)).trans (ih.cons a)

theorem mem_isort {α : Type} {leB : α → α → Bool} {l : List α} {a : α} :
    a ∈ isort leB l ↔ a ∈ l := (isort_perm leB l).mem_iff

theorem insertSorted_pairwise {α : Type} {leB : α → α → Bool}
    (total : ∀ x y, leB x y = false → leB y x = true)
    (tr : ∀ x y z, leB x y = true → leB y z = true → leB x z = true)
    {a : α} {l : List α} (h : l.Pairwise (fun x y => leB x y = true)) :
    (insertSorted leB a l).Pairwise (fun x y => leB x y = true) := by
  induction l with
  | nil => simp [insertSorted]
  | cons b t ih =>
    rcases h with _ | ⟨hb, ht⟩
    by_cases hab : leB a b = true
    · simp only [insertSorted, hab, if_true]
      refine (List.pairwise_cons).2 ⟨?_, (List.pairwise_cons).2 ⟨hb, ht⟩⟩
      intro x hx
      rcases List.mem_cons.1 hx with hx | hx
      · subst hx; exact hab
      · exact tr a b x hab (hb x hx)
    · simp only [insertSorted, hab, if_false]
      refine (List.pairwise_cons).2 ⟨?_, ih ht⟩
      intro x hx
      have hx2 := (insertSorted_perm leB a t).mem_iff.1 hx
      rcases List.mem_cons.1 hx2 with hx3 | hx3
      · rw [hx3]; exact total a b (by simpa using hab)
      · exact hb x hx3

theorem isort_pairwise {α : Type} {leB : α → α → Bool}
    (total : ∀ x y, leB x y = false → leB y x = true)
    (tr : ∀ x y z, leB x y = true → leB y z = true → leB x z = true)
    (l : List α) : (isort leB l).Pairwise (fun x y => leB x y = true) := by
  induction l with
  | nil => simp [isort]
  | cons a t ih => exact insertSorted_pairwise total tr ih

/-- Two sorted lists that are permutations of each other coincide, provided the
order is antisymmetric on the members involved. -/
theorem sorted_perm_eq {α : Type} {leB : α → α → Bool} :
    ∀ {l₁ l₂ : List α}, l₁.Perm l₂ →
    l₁.Pairwise (fun x y => leB x y = true) →
    l₂.Pairwise (fun x y => leB x y = true) →
    (∀ a ∈ l₁, ∀ b ∈ l₁, leB a b = true → leB b a = true → a = b) →
    l₁ = l₂
  | [], [], _, _, _, _ => rfl
  | [], _ :: _, h, _, _, _ => absurd h.symm (by simp)
  | _ :: _, [], h, _, _, _ => absurd h (by simp)
  | a :: t₁, b :: t₂, h, s₁, s₂, anti => by
    rcases List.pairwise_cons.1 s₁ with ⟨ha, ht₁⟩
    rcases List.pairwise_cons.1 s₂ with ⟨hb, ht₂⟩
    have hab : a = b := by
      have hbmem : b ∈ a :: t₁ := h.mem_iff.2 (by simp)
      have hamem : a ∈ b :: t₂ := h.mem_iff.1 (by simp)
      rcases List.mem_cons.1 hbmem with hba | hbt
      · exact hba.symm
      rcases List.mem_cons.1 hamem with hab | hat
      · exact hab
      have h1 : leB a b = true := ha b hbt
      have h2 : leB b a = true := hb a hat
      exact anti a (by simp) b hbmem h1 h2
    subst hab
    have htail : t₁.Perm t₂ := (List.perm_cons a).1 h
    have : t₁ = t₂ :=
      sorted_perm_eq htail ht₁ ht₂
        (fun x hx y hy => anti x (List.mem_cons_of_mem a hx) y (List.mem_cons_of_mem a hy))
    rw [this]

/-! ### The glTF JSON fragment walked by `find_in_object` / `find_ids`

Materials are JSON objects whose texture-reference slots `find_in_object`
searches with a depth bound of 1: the slot may sit directly on the material
(`normalTexture`) or inside one dict child (`pbrMetallicRoughness`).  A found
value matches a texture id either by integer equality or through a wrapper
object's `index` field.  JSON nodes deeper than this search reach are inert
and collapsed to `other`; JSON nulls are not modelled. -/

inductive JIdxVal where
  | num (n : Int)
  | other
  deriving DecidableEq, Repr

inductive JSlot where
  | num (n : Int)
  | wrap (fields : List (String × JIdxVal))
  | other
  deriving DecidableEq, Repr

inductive JField where
  | slot (v : JSlot)
  | group (fields : List (String × JSlot))
  deriving DecidableEq, Repr

/-- First-match association-list lookup (Python `dict` access in insertion
order). -/
def alookup {κ β : Type} [DecidableEq κ] : List (κ × β) → κ → Option β
  | [], _ => none
  | (k, v) :: rest, key => if k = key then some v else alookup rest key

def firstGroupHit : List (String × JField) → String → Option JField
  | [], _ => none
  | (_, .group gs) :: rest, target =>
    match alookup gs target with
    | some v => some (.slot v)
    | none => firstGroupHit rest target
  | (_, .slot _) :: rest, target => firstGroupHit rest target

/-- `find_in_object(material, target_name, depth=1)`: the direct key first,
then the first hit inside a dict child, in field order. -/
def findInMaterial (fields : List (String × JField)) (target : String) : Option JField :=
  match alookup fields target with
  | some v => some v
  | none => firstGroupHit fields target

/-- The body of `find_ids`: a found value references `target_id` either by
direct equality or through its `index` field. -/
def jfieldMatches (v : JField) (target_id : Int) : Bool :=
  match v with
  | .slot (.num n) => n = target_id
  | .slot (.wrap fs) =>
    match alookup fs "index" with
    | some (.num n) => n = target_id
    | _ => false
  | .slot .other => false
  | .group fs =>
    match alookup fs "index" with
    | some (.num n) => n = target_id
    | _ => false

/-! ### The scene document -/

structure ImageEntry where
  name : Option String
  uri : Option String
  deriving DecidableEq, Repr

structure TextureEntry where
  sampler : Int
  source : Int
  deriving DecidableEq, Repr

/-- The `KHR_materials_displacement` extension value written and read by the
script (well-formed: the three fields the script reads are present). -/
structure DispExt where
  displacementGeometryFactor : Frac
  displacementGeometryOffset : Frac
  displacementGeometryTexture : Int
  deriving DecidableEq, Repr

/-- A material's `extensions` map; extension keys other than
`KHR_materials_displacement` are never read or written by the script. -/
structure ExtMap where
  displacement : Option DispExt
  deriving DecidableEq, Repr

structure Material where
  name : String
  fields : List (String × JField)
  extensions : Option ExtMap
  deriving DecidableEq, Repr

structure Document where
  images : List ImageEntry
  textures : List TextureEntry
  materials : List Material
  deriving DecidableEq, Repr

def defaultMaterial : Material := ⟨"", [], none⟩

/-- A material of the `--copy-from` template document; only its name and
displacement-extension values are ever read. -/
structure TemplateMaterial where
  name : String
  displacement : Option DispExt
  deriving DecidableEq, Repr

/-! ### Configuration and environment -/

structure Config where
  quiet : Bool
  force : Bool
  scale : Frac
  bias : Frac
  extra_paths : List FsPath
  filter : List String
  filter_out : List String
  copy_from : Option (List TemplateMaterial)
  match_one_image : Bool
  match_one_material : Bool
  heightmap_regex : String
  image_name_weight : Frac
  material_name_weight : Frac
  match_materials_only : Bool

/-- External collaborators, pure by construction: `re.search` (as a Boolean),
`re.findall`, `re.sub` with the fixed replacement `'_'`, and
`difflib.SequenceMatcher(None, a, b).ratio()`.  The `os.listdir` capability is
passed separately, to the only stage that reads the filesystem. -/
structure Env where
  reSearch : String → String → Bool
  reFindall : String → String → List String
  reSub : String → String → String
  ratio : String → String → Frac

/-- `heightmapishName`: the filename matches the heightmap regex. -/
def heightmapishName (env : Env) (cfg : Config) (name : String) : Bool :=
  env.reSearch cfg.heightmap_regex name

/-- `find_ids(data, 'textures', ['source'], image_id)`: textures whose `source`
equals the image id, by enumeration index. -/
def find_ids_texturesFrom (n : Nat) (image_id : Int) : List TextureEntry → List Nat
  | [] => []
  | t :: rest =>
    if t.source = image_id then n :: find_ids_texturesFrom (n + 1) image_id rest
    else find_ids_texturesFrom (n + 1) image_id rest

def find_ids_textures (textures : List TextureEntry) (image_id : Int) : List Nat :=
  find_ids_texturesFrom 0 image_id textures

def texture_names : List String :=
  ["baseColorTexture", "metallicRoughnessTexture", "emissiveTexture", "normalTexture",
   "occlusionTexture"]

/-- One material's yields: one per matching slot name. -/
def materialYields (m : Material) (target_id : Int) : List Unit :=
  texture_names.filterMap (fun tn =>
    match findInMaterial m.fields tn with
    | some v => if jfieldMatches v target_id then some () else none
    | none => none)

/-- `find_ids(data, 'materials', texture_names, texture_id)`: one yield per
matching slot name per material, in enumeration order. -/
def find_ids_materialsFrom (n : Nat) (target_id : Int) : List Material → List Nat
  | [] => []
  | m :: rest =>
    (materialYields m target_id).map (fun _ => n) ++
      find_ids_materialsFrom (n + 1) target_id rest

def find_ids_materials (materials : List Material) (target_id : Int) : List Nat :=
  find_ids_materialsFrom 0 target_id materials

/-! ### Stage 1: image registration and the reference graph -/

def imageSuffixesInit : List String := [".png", ".jpg", ".exr", ".bmp"]

/-- Add to a Python `set` modelled as a duplicate-free list in insertion
order. -/
def addNew {α : Type} [DecidableEq α] (l : List α) (a : α) : List α :=
  if a ∈ l then l else l ++ [a]

/-- The image-registration loop: `(id, resolved path)` for every entry whose
`uri` is present and non-empty (`if not uri: continue`); the URI is
percent-decoded (modelled as identity) and resolved against the document
directory. -/
def registerImagesFrom (docdir : FsPath) (n : Nat) : List ImageEntry → List (Nat × FsPath)
  | [] => []
  | e :: rest =>
    match e.uri with
    | none => registerImagesFrom docdir (n + 1) rest
    | some u =>
      if u = "" then registerImagesFrom docdir (n + 1) rest
      else (n, docdir.join (splitUri u)) :: registerImagesFrom docdir (n + 1) rest

def registerImages (docdir : FsPath) (imgs : List ImageEntry) : List (Nat × FsPath) :=
  registerImagesFrom docdir 0 imgs

/-- The `images` set. -/
def imagesListOf (reg : List (Nat × FsPath)) : List FsPath :=
  reg.foldl (fun acc p => addNew acc p.2) []

/-- The `image_ids` dict (later bindings overwrite earlier ones, hence the
reversed first-match lookup). -/
def image_idsOf (reg : List (Nat × FsPath)) : List (FsPath × Nat) :=
  reg.map (fun p => (p.2, p.1))

def lookupId (ids : List (FsPath × Nat)) (p : FsPath) : Option Nat := alookup ids.reverse p

/-- The global `imageSuffixes` set after the registration loop of one
document. -/
def suffixesAfter (base : List String) (reg : List (Nat × FsPath)) : List String :=
  reg.foldl (fun acc p => addNew acc p.2.suffixOf) base

/-- `image_dirs`: the extra search paths plus each image's parent. (The
`image_types` set also built by this loop is never read and is omitted.) -/
def imageDirsOf (extra : List FsPath) (images : List FsPath) : List FsPath :=
  images.foldl (fun acc img => addNew acc img.parentOf) (extra.foldl addNew [])

structure GraphResult where
  pairs : List (FsPath × List Nat)
  lastSampler : Option Int
  deriving DecidableEq, Repr

/-- The `image_material_ids` loop.  For each image with at least one
referencing texture, `sampler_id` is re-assigned once per texture, so after
the whole loop it holds the sampler of the last texture of the last such
image — the stale value later used by every assignment. -/
def buildGraphStep (doc : Document) (ids : List (FsPath × Nat)) (st : GraphResult)
    (image : FsPath) : GraphResult :=
  let image_id : Int := ((lookupId ids image).getD 0 : Nat)
  let texture_ids := find_ids_textures doc.textures image_id
  if texture_ids = [] then st
  else
    let sampler := (doc.textures.getD (texture_ids.getLastD 0) ⟨0, 0⟩).sampler
    let material_ids := texture_ids.flatMap
      (fun tid => find_ids_materials doc.materials (tid : Int))
    if material_ids = [] then { st with lastSampler := some sampler }
    else { pairs := st.pairs ++ [(image, material_ids)], lastSampler := some sampler }

def buildGraph (doc : Document) (images : List FsPath) (ids : List (FsPath × Nat)) :
    GraphResult :=
  images.foldl (buildGraphStep doc ids) ⟨[], none⟩

/-! ### Stage 2: candidate discovery -/

/-- The candidate-discovery loop: files of the search directories whose suffix
is a known image suffix, that are not registered images, and whose name looks
like a heightmap. -/
def discoverCandidates (env : Env) (cfg : Config) (listdir : FsPath → List String)
    (dirs : List FsPath) (suffixes : List String) (images : List FsPath) : List FsPath :=
  dirs.foldl (fun acc dir =>
    (listdir dir).foldl (fun acc2 file =>
      let candidate := dir.join [file]
      if candidate.suffixOf ∈ suffixes ∧ candidate ∉ images ∧ heightmapishName env cfg file
      then addNew acc2 candidate else acc2) acc) []

/-! ### Stage 3: scoring -/

def strJoinDollar (l : List String) : String :=
  String.mk ((l.map String.data).intersperse ['$']).flatten

def fEqB (a b : Frac) : Bool := decide (a.num * b.den = b.num * a.den)

/-- `heightmapMatchMetric`. -/
def heightmapMatchMetric (env : Env) (cfg : Config) (docdir : FsPath)
    (candidate image : FsPath) (material_names : List String) : Except Unit Frac := do
  let rel ← candidate.relative_to docdir
  let candidate_name0 := joinPath rel
  let heightmap_terms := env.reFindall cfg.heightmap_regex candidate_name0
  let candidate_name := env.reSub cfg.heightmap_regex candidate_name0
  let irel ← image.relative_to docdir
  let image_name := joinPath irel
  let image_similarity := env.ratio candidate_name image_name
  let material_similarity :=
    env.ratio (strToLower candidate_name) (strToLower (strJoinDollar material_names))
  .ok (((image_similarity.mul cfg.image_name_weight).add
        (material_similarity.mul cfg.material_name_weight)).add
        (Frac.ofNat heightmap_terms.length))

/-- Ascending order on `(similarity ratio, material id)` pairs (Python tuple
comparison; float values compared exactly). -/
def fracNatLeB (a b : Frac × Nat) : Bool :=
  if fLtB a.1 b.1 then true
  else if fLtB b.1 a.1 then false
  else Nat.ble a.2 b.2

/-- `orderMaterialSimilarity`: material ids in descending order of their
names' similarity to the stripped candidate name. -/
def orderMaterialSimilarity (env : Env) (cfg : Config) (docdir : FsPath)
    (candidate : FsPath) (materials : List Material) (material_ids : List Nat) :
    Except Unit (List Nat) := do
  let rel ← candidate.relative_to docdir
  let candidate_name := env.reSub cfg.heightmap_regex (joinPath rel)
  let sorted_pairs := isort fracNatLeB
    (material_ids.map (fun i => (env.ratio candidate_name (materials.getD i defaultMaterial).name, i)))
  .ok (sorted_pairs.reverse.map (·.2))

/-- `filterMaterialName`.  Line 102's generator binds `patterrn` while its body
reads the unbound name `pattern`: any non-empty `--filter` list raises
`NameError` as soon as the first element is drawn, before any include pattern
is tried.  The `--filter-out` branch is typo-free. -/
def filterMaterialName (env : Env) (cfg : Config) (material_name : String) :
    Except Unit Bool :=
  if cfg.filter ≠ [] then .error ()
  else if cfg.filter_out.any (fun pat => env.reSearch pat material_name) then .ok false
  else .ok true

structure MatchTuple where
  score : Frac
  candidate : FsPath
  image : FsPath
  material_ids : List Nat
  deriving DecidableEq, Repr

/-- The genuine tuples of one candidate: one per reference-graph image. -/
def realMatchesFor (env : Env) (cfg : Config) (docdir : FsPath) (candidate : FsPath)
    (materials : List Material) : List (FsPath × List Nat) → Except Unit (List MatchTuple)
  | [] => .ok []
  | pr :: rest => do
    let material_names := pr.2.map (fun mid => (materials.getD mid defaultMaterial).name)
    let score ← heightmapMatchMetric env cfg docdir candidate pr.1 material_names
    let tail ← realMatchesFor env cfg docdir candidate materials rest
    .ok (⟨score, candidate, pr.1, pr.2⟩ :: tail)

/-- The `--match-materials-only` pseudo-tuples of one candidate: one per
material of the document, against the sentinel `null` image. -/
def fakeMatchesFor (env : Env) (cfg : Config) (docdir : FsPath) (candidate : FsPath)
    (materials : List Material) : List Nat → Except Unit (List MatchTuple)
  | [] => .ok []
  | mid :: rest => do
    let fake_image := docdir.join ["null"]
    let score ← heightmapMatchMetric env cfg docdir candidate fake_image
      [(materials.getD mid defaultMaterial).name]
    let tail ← fakeMatchesFor env cfg docdir candidate materials rest
    .ok (⟨score, candidate, fake_image, [mid]⟩ :: tail)

/-- All tuples contributed by one candidate. -/
def matchesFor (env : Env) (cfg : Config) (docdir : FsPath) (candidate : FsPath)
    (graph : List (FsPath × List Nat)) (materials : List Material) :
    Except Unit (List MatchTuple) := do
  let real ← realMatchesFor env cfg docdir candidate materials graph
  if cfg.match_materials_only then
    let fake ← fakeMatchesFor env cfg docdir candidate materials (List.range materials.length)
    .ok (real ++ fake)
  else .ok real

/-- The `matches` list: all (candidate, graph image) pairs, plus — with
`--match-materials-only` — one pseudo-pair per material against the
sentinel `null` image, grouped by candidate in candidate-set order. -/
def buildMatches (env : Env) (cfg : Config) (docdir : FsPath) (candidates : List FsPath)
    (graph : List (FsPath × List Nat)) (materials : List Material) :
    Except Unit (List MatchTuple) :=
  match candidates with
  | [] => .ok []
  | c :: rest => do
    let block ← matchesFor env cfg docdir c graph materials
    let tail ← buildMatches env cfg docdir rest graph materials
    .ok (block ++ tail)

/-- Python tuple comparison on `(metric, candidate, image, material_ids)`:
float values first, then candidate path, image path, id list. -/
def matchLeB (a b : MatchTuple) : Bool :=
  if fLtB a.score b.score then true
  else if fLtB b.score a.score then false
  else if a.candidate = b.candidate then
    if a.image = b.image then natListLeB a.material_ids b.material_ids
    else pathLeB a.image b.image
  else pathLeB a.candidate b.candidate

/-- `reversed(sorted(matches))`. -/
def sortMatchesDesc (ms : List MatchTuple) : List MatchTuple :=
  (isort matchLeB ms).reverse

/-! ### Stage 4: the greedy assigner -/

structure Job where
  material_id : Nat
  material_name : String
  heightmap : FsPath
  image : FsPath
  sampler : Int
  deriving DecidableEq, Repr

structure AState where
  materials : List Material
  unlinked_heightmaps : List Job
  unlinked_material_ids : List Nat
  best_image : List (String × FsPath)
  warned : Bool
  warnCount : Nat
  deriving DecidableEq, Repr

/-- `if 'extensions' not in material: material['extensions'] = {}` — inserts an
empty extensions map in place. -/
def ensureExtensions (materials : List Material) (mid : Nat) : List Material :=
  match materials.get? mid with
  | none => materials
  | some m =>
    match m.extensions with
    | none => materials.set mid { m with extensions := some ⟨none⟩ }
    | some _ => materials

/-- `'KHR_materials_displacement' in material['extensions']`. -/
def hasDisp (materials : List Material) (mid : Nat) : Bool :=
  match materials.get? mid with
  | some m =>
    match m.extensions with
    | some em => em.displacement.isSome
    | none => false
  | none => false

/-- The inner material loop of the assigner (lines 207–235): claim the id,
ensure the extensions map, skip materials already carrying the extension
(an informational diagnostic, not modelled), otherwise record the job — this
reads `sampler_id`, which raises `NameError` if the builder never assigned
it — and stop after the first job when `--match-one-image` is set. -/
def processMaterials (cfg : Config) (lastSampler : Option Int) (heightmap image : FsPath) :
    List Nat → AState → Except Unit AState
  | [], st => .ok st
  | mid :: rest, st =>
    let st := { st with unlinked_material_ids := addNew st.unlinked_material_ids mid,
                        materials := ensureExtensions st.materials mid }
    if hasDisp st.materials mid then
      processMaterials cfg lastSampler heightmap image rest st
    else
      match lastSampler with
      | none => .error ()
      | some s =>
        let material_name := (st.materials.getD mid defaultMaterial).name
        let st := { st with
          unlinked_heightmaps :=
            st.unlinked_heightmaps ++ [⟨mid, material_name, heightmap, image, s⟩],
          best_image := (heightmap.nameOf, image) :: st.best_image }
        if cfg.match_one_image then .ok st
        else processMaterials cfg lastSampler heightmap image rest st

/-- The outer tuple loop of the assigner (lines 199–235), consuming the sorted
matches in descending order.  A tuple whose candidate filename is already
bound to a different image is skipped under `--match-one-image`, and
otherwise warned about once per document.  The set subtraction
`set(material_ids) - unlinked_material_ids` is modelled by a deduplicated
filtered list; its order is irrelevant because `orderMaterialSimilarity`
re-sorts it by a total order. -/
def processTuples (env : Env) (cfg : Config) (docdir : FsPath) (lastSampler : Option Int) :
    List MatchTuple → AState → Except Unit AState
  | [], st => .ok st
  | t :: rest, st => do
    let bound := alookup st.best_image t.candidate.nameOf
    let skipTuple : Bool :=
      match bound with
      | some img => img ≠ t.image ∧ cfg.match_one_image
      | none => false
    if skipTuple then processTuples env cfg docdir lastSampler rest st
    else
      let st :=
        match bound with
        | some img =>
          if img ≠ t.image ∧ ¬st.warned then
            { st with warned := true, warnCount := st.warnCount + 1 }
          else st
        | none => st
      let remaining := t.material_ids.dedup.filter (fun m => m ∉ st.unlinked_material_ids)
      let ordered ← orderMaterialSimilarity env cfg docdir t.candidate st.materials remaining
      let st2 ← processMaterials cfg lastSampler t.candidate t.image ordered st
      processTuples env cfg docdir lastSampler rest st2

/-! ### Stage 5: the document mutator -/

structure MState where
  images : List ImageEntry
  textures : List TextureEntry
  materials : List Material
  added_texture_map : List (String × Nat)
  heightmaps_added : List Job
  had_changes : Bool
  deriving DecidableEq, Repr

/-- One iteration of the mutator loop (lines 246–283): drop jobs whose
material name fails the name filter; drop (with an error diagnostic, not
modelled) jobs whose material meanwhile carries the extension; otherwise
append one Image/Texture pair per distinct candidate filename — the new
image's URI is the percent-encoded path relative to the document directory,
the new texture's sampler is the job's (stale) `sampler_id` — and attach the
extension block with the configured scale and bias. -/
def mutateJob (env : Env) (cfg : Config) (docdir : FsPath) (st : MState) (job : Job) :
    Except Unit MState := do
  let pass ← filterMaterialName env cfg job.material_name
  if !pass then .ok st
  else
    let st := { st with materials := ensureExtensions st.materials job.material_id }
    if hasDisp st.materials job.material_id then .ok st
    else do
      let st := { st with heightmaps_added := st.heightmaps_added ++ [job],
                          had_changes := true }
      let withTex ←
        match alookup st.added_texture_map job.heightmap.nameOf with
        | some t => .ok (st, t)
        | none => do
          let rel ← job.heightmap.relative_to docdir
          let image_id := st.images.length
          let texture_id := st.textures.length
          .ok ({ st with
                  images := st.images ++ [⟨some job.heightmap.nameOf, some (joinPath rel)⟩],
                  textures := st.textures ++ [⟨job.sampler, (image_id : Int)⟩],
                  added_texture_map :=
                    (job.heightmap.nameOf, texture_id) :: st.added_texture_map },
                texture_id)
      let st := withTex.1
      let m := st.materials.getD job.material_id defaultMaterial
      let em := m.extensions.getD ⟨none⟩
      let newDisp : DispExt := ⟨cfg.scale, cfg.bias, (withTex.2 : Int)⟩
      let m2 := { m with extensions := some { em with displacement := some newDisp } }
      .ok { st with materials := st.materials.set job.material_id m2 }

/-- The mutator loop over the assigner's job list. -/
def mutateJobs (env : Env) (cfg : Config) (docdir : FsPath) :
    List Job → MState → Except Unit MState
  | [], st => .ok st
  | j :: rest, st => do
    let st2 ← mutateJob env cfg docdir st j
    mutateJobs env cfg docdir rest st2

/-! ### The `--copy-from` template pass -/

/-- One material of the copy loop (lines 286–299): for a filter-passing
material already carrying the extension, every same-named template material
with the extension is folded over in order, overwriting scale/bias whenever
the current values differ (Python `!=` on floats compares values, hence
`fEqB`). -/
def copyMaterial (env : Env) (cfg : Config) (tmpl : List TemplateMaterial) (m : Material) :
    Except Unit (Material × Bool) := do
  let pass ← filterMaterialName env cfg m.name
  if !pass then .ok (m, false)
  else
    match m.extensions with
    | none => .ok (m, false)
    | some em =>
      match em.displacement with
      | none => .ok (m, false)
      | some d =>
        let folded := tmpl.foldl (fun (acc : DispExt × Bool) om =>
          match om.displacement with
          | some od =>
            if om.name = m.name then
              if ¬(fEqB acc.1.displacementGeometryFactor od.displacementGeometryFactor) ∨
                 ¬(fEqB acc.1.displacementGeometryOffset od.displacementGeometryOffset) then
                ({ acc.1 with
                    displacementGeometryFactor := od.displacementGeometryFactor,
                    displacementGeometryOffset := od.displacementGeometryOffset }, true)
              else acc
            else acc
          | none => acc) (d, false)
        .ok ({ m with extensions := some { em with displacement := some folded.1 } }, folded.2)

def copyPass (env : Env) (cfg : Config) (tmpl : List TemplateMaterial) :
    List Material → Except Unit (List Material × Bool)
  | [] => .ok ([], false)
  | m :: rest => do
    let r ← copyMaterial env cfg tmpl m
    let tail ← copyPass env cfg tmpl rest
    .ok (r.1 :: tail.1, r.2 || tail.2)

/-! ### The per-document run -/

structure PreData where
  reg : List (Nat × FsPath)
  images : List FsPath
  ids : List (FsPath × Nat)
  suffixes : List String
  dirs : List FsPath
  graph : List (FsPath × List Nat)
  lastSampler : Option Int
  candidates : List FsPath
  deriving DecidableEq, Repr

/-- Stages 1–2 of one document: registration, reference graph, candidate
discovery.  `base` is the incoming global `imageSuffixes` set. -/
def docPre (env : Env) (cfg : Config) (listdir : FsPath → List String) (docdir : FsPath)
    (base : List String) (doc : Document) : PreData :=
  let reg := registerImages docdir doc.images
  let images := imagesListOf reg
  let ids := image_idsOf reg
  let suffixes := suffixesAfter base reg
  let dirs := imageDirsOf cfg.extra_paths images
  let g := buildGraph doc images ids
  let candidates := discoverCandidates env cfg listdir dirs suffixes images
  ⟨reg, images, ids, suffixes, dirs, g.pairs, g.lastSampler, candidates⟩

structure RunOut where
  doc : Document
  had_changes : Bool
  heightmaps_added : List Job
  unlinked_heightmaps : List Job
  warnCount : Nat
  suffixes : List String
  deriving DecidableEq, Repr

/-- One full per-document iteration of the main loop, without the interactive
confirmation (the `doc` of the result is what a confirmed save writes; when
`had_changes` is false the file is skipped before the prompt and never
rewritten). -/
def runDocWithPre (env : Env) (cfg : Config) (docdir : FsPath) (pre : PreData)
    (doc : Document) : Except Unit RunOut := do
  let ms ← buildMatches env cfg docdir pre.candidates pre.graph doc.materials
  let sorted := sortMatchesDesc ms
  let ast ← processTuples env cfg docdir pre.lastSampler sorted
    ⟨doc.materials, [], [], [], false, 0⟩
  let mst ← mutateJobs env cfg docdir ast.unlinked_heightmaps
    ⟨doc.images, doc.textures, ast.materials, [], [], false⟩
  match cfg.copy_from with
  | none =>
    .ok ⟨⟨mst.images, mst.textures, mst.materials⟩, mst.had_changes, mst.heightmaps_added,
         ast.unlinked_heightmaps, ast.warnCount, pre.suffixes⟩
  | some tmpl => do
    let copied ← copyPass env cfg tmpl mst.materials
    .ok ⟨⟨mst.images, mst.textures, copied.1⟩, mst.had_changes || copied.2,
         mst.heightmaps_added, ast.unlinked_heightmaps, ast.warnCount, pre.suffixes⟩

/-- One per-document iteration at the *initial* module state.  The script is
module-level code, so two variables survive a document of the main loop: the
global `imageSuffixes` set, and the graph loop's variable `sampler_id`
(assigned at line 153, read at line 231), which keeps its previous value when
this document's graph loop never assigns it and is unbound before any
document ever assigned it.  `runDoc` is the run of a document at the state
the first document of a batch sees: `base` suffixes carried in and
`sampler_id` still unbound.  (The interactive prompt and the saving of files
are not modelled.) -/
def runDoc (env : Env) (cfg : Config) (listdir : FsPath → List String) (docdir : FsPath)
    (base : List String) (doc : Document) : Except Unit RunOut :=
  runDocWithPre env cfg docdir (docPre env cfg listdir docdir base doc) doc

/-- `sampler_id` after a document's graph loop: the loop's last assignment
when it made one, otherwise the value carried over from the previous
documents (`none` = still unbound, so reading it raises `NameError`). -/
def carrySampler (prev : Option Int) (g : Option Int) : Option Int :=
  match g with
  | some s => some s
  | none => prev

/-- A per-document run at an arbitrary carried module state: `suffixes` is
the accumulated `imageSuffixes` set and `samp` the `sampler_id` left behind
by earlier documents, which the assigner reads whenever this document's own
graph loop never re-assigns it. -/
def runDocState (env : Env) (cfg : Config) (listdir : FsPath → List String)
    (docdir : FsPath) (suffixes : List String) (samp : Option Int)
    (doc : Document) : Except Unit RunOut :=
  let pre := docPre env cfg listdir docdir suffixes doc
  runDocWithPre env cfg docdir
    { pre with lastSampler := carrySampler samp pre.lastSampler } doc

/-- The batch loop over input documents, threading the module state that
survives a document: the global `imageSuffixes` set and the loop variable
`sampler_id`. -/
def runBatch (env : Env) (cfg : Config) (listdir : FsPath → List String) :
    List (FsPath × Document) → List String → Option Int → Except Unit (List RunOut)
  | [], _, _ => .ok []
  | (docdir, doc) :: rest, suffixes, samp => do
    let out ← runDocState env cfg listdir docdir suffixes samp doc
    let outs ← runBatch env cfg listdir rest out.suffixes
      (carrySampler samp (docPre env cfg listdir docdir suffixes doc).lastSampler)
    .ok (out :: outs)

theorem carrySampler_none (g : Option Int) : carrySampler none g = g := by
  cases g <;> rfl

/-- Before any document assigned `sampler_id`, a batch step is exactly the
per-document run the other claims are stated over. -/
theorem runDocState_none (env : Env) (cfg : Config) (listdir : FsPath → List String)
    (docdir : FsPath) (base : List String) (doc : Document) :
    runDocState env cfg listdir docdir base none doc =
      runDoc env cfg listdir docdir base doc := by
  simp only [runDocState, carrySampler_none, runDoc]

/-! ### Concrete instances used by witnesses and counterexamples

The regex engine is instantiated by a literal substring matcher (adequate for
the literal patterns these scenarios use) and `ratio` by the discrete
similarity that is 1 on equal strings and 0 otherwise; both are pure, as
`difflib` and `re` are. -/

def startsSub : List Char → List Char → Bool
  | _, [] => true
  | [], _ :: _ => false
  | a :: as, b :: bs => if a = b then startsSub as bs else false

def hasSub : List Char → List Char → Bool
  | [], [] => true
  | [], _ :: _ => false
  | c :: rest, pat =>
    if startsSub (c :: rest) pat then true else hasSub rest pat

def containsSub (s pat : String) : Bool := hasSub s.data pat.data

def envA : Env :=
  { reSearch := fun pat s => containsSub s pat
    reFindall := fun pat s => if containsSub s pat then [pat] else []
    reSub := fun _ s => s
    ratio := fun a b => if a = b then ⟨1, 1⟩ else ⟨0, 1⟩ }

def listdirA : FsPath → List String :=
  fun d => if d = ["root"] then ["color.png", "color_height.png"] else []

def cfgA : Config :=
  { quiet := true, force := true, scale := ⟨1, 1⟩, bias := ⟨0, 1⟩, extra_paths := []
    filter := [], filter_out := [], copy_from := none, match_one_image := false
    match_one_material := false, heightmap_regex := "height"
    image_name_weight := ⟨1, 1⟩, material_name_weight := ⟨1, 10⟩
    match_materials_only := false }

def woodMat : Material :=
  ⟨"Wood",
   [("pbrMetallicRoughness", .group [("baseColorTexture", .wrap [("index", .num 0)])])],
   none⟩

def docA : Document :=
  { images := [⟨some "color.png", some "color.png"⟩]
    textures := [⟨0, 0⟩]
    materials := [woodMat] }

def matRed : Material :=
  ⟨"Red",
   [("pbrMetallicRoughness", .group [("baseColorTexture", .wrap [("index", .num 0)])])],
   none⟩

def matBlue : Material :=
  ⟨"Blue",
   [("pbrMetallicRoughness", .group [("baseColorTexture", .wrap [("index", .num 1)])])],
   none⟩

/-- Two images referenced through textures with distinct samplers (5 and 7). -/
def docC : Document :=
  { images := [⟨some "red.png", some "red.png"⟩, ⟨some "blue.png", some "blue.png"⟩]
    textures := [⟨5, 0⟩, ⟨7, 1⟩]
    materials := [matRed, matBlue] }

def listdirC : FsPath → List String :=
  fun d => if d = ["root"] then ["red.png", "blue.png", "x_height.png"] else []

/-! ### Claim C5 -/

/-- C5: the claim says the include/exclude name filter excludes materials
before assignment, with exclude patterns checked first and winning over
include patterns.  The code cannot do this: `filterMaterialName` checks the
include list first, runs only in the Document Mutator (stage 5, after
assignment), and — decisively — line 102's generator binds `patterrn` while
its body reads the unbound name `pattern`, so any run with a non-empty
`--filter` list raises `NameError` on the first material it filters.  Here the
code is evaluated at such a failing input. -/
theorem C5_filter_include_crashes :
    filterMaterialName envA { cfgA with filter := ["Wood"] } "Wood" = .error () := rfl

/-! ### Claim C10: supporting lemmas -/

theorem mem_registerImagesFrom {docdir : FsPath} {imgs : List ImageEntry} {n : Nat}
    {pr : Nat × FsPath} :
    pr ∈ registerImagesFrom docdir n imgs ↔
    ∃ k e u, imgs.get? k = some e ∧ e.uri = some u ∧ u ≠ "" ∧
      pr = (n + k, docdir.join (splitUri u)) := by
  induction imgs generalizing n with
  | nil => simp [registerImagesFrom]
  | cons e rest ih =>
    have hR : (∃ k e2 u, (e :: rest).get? k = some e2 ∧ e2.uri = some u ∧ u ≠ "" ∧
          pr = (n + k, docdir.join (splitUri u))) ↔
        ((∃ u, e.uri = some u ∧ u ≠ "" ∧ pr = (n, docdir.join (splitUri u))) ∨
         (∃ k e2 u, rest.get? k = some e2 ∧ e2.uri = some u ∧ u ≠ "" ∧
           pr = (n + 1 + k, docdir.join (splitUri u)))) := by
      constructor
      · rintro ⟨k, e2, u, hget, hu2, hne, hpr⟩
        cases k with
        | zero =>
          left
          simp only [List.get?_cons_zero, Option.some.injEq] at hget
          subst hget
          exact ⟨u, hu2, hne, by simpa using hpr⟩
        | succ k =>
          right
          refine ⟨k, e2, u, by simpa using hget, hu2, hne, ?_⟩
          have harith : n + (k + 1) = n + 1 + k := by omega
          rw [hpr, harith]
      · rintro (⟨u, hu2, hne, hpr⟩ | ⟨k, e2, u, hget, hu2, hne, hpr⟩)
        · exact ⟨0, e, u, by simp, hu2, hne, by simpa using hpr⟩
        · refine ⟨k + 1, e2, u, by simpa using hget, hu2, hne, ?_⟩
          have harith : n + 1 + k = n + (k + 1) := by omega
          rw [hpr, harith]
    rw [hR]
    cases hu : e.uri with
    | none =>
      simp only [registerImagesFrom, hu]
      rw [ih]
      constructor
      · intro h
        exact Or.inr h
      · rintro (⟨u, hu2, _, _⟩ | h)
        · cases hu2
        · exact h
    | some u0 =>
      simp only [registerImagesFrom, hu]
      by_cases hu0 : u0 = ""
      · rw [if_pos hu0, ih]
        constructor
        · intro h
          exact Or.inr h
        · rintro (⟨u, hu2, hne, _⟩ | h)
          · cases hu2
            exact absurd hu0 hne
          · exact h
      · rw [if_neg hu0]
        simp only [List.mem_cons, ih]
        constructor
        · rintro (hpr | h)
          · exact Or.inl ⟨u0, rfl, hu0, by simpa using hpr⟩
          · exact Or.inr h
        · rintro (⟨u, hu2, hne, hpr⟩ | h)
          · cases hu2
            exact Or.inl (by simpa using hpr)
          · exact Or.inr h

/-! ### Inversion and set-fold lemmas -/

theorem exceptBind_ok_iff {ε α β : Type} (e : Except ε α) (f : α → Except ε β) (b : β) :
    (e >>= f) = .ok b ↔ ∃ a, e = .ok a ∧ f a = .ok b := by
  cases e with
  | error err => simp [Bind.bind, Except.bind]
  | ok a => simp [Bind.bind, Except.bind]

theorem mem_addNew {α : Type} [DecidableEq α] {l : List α} {a b : α} :
    b ∈ addNew l a ↔ b ∈ l ∨ b = a := by
  by_cases h : a ∈ l
  · simp only [addNew, if_pos h]
    constructor
    · exact Or.inl
    · rintro (hb | rfl)
      · exact hb
      · exact h
  · simp [addNew, if_neg h]

theorem nodup_addNew {α : Type} [DecidableEq α] {l : List α} (a : α) (h : l.Nodup) :
    (addNew l a).Nodup := by
  by_cases ha : a ∈ l
  · simpa [addNew, if_pos ha]
  · simpa [addNew, if_neg ha, List.nodup_append] using ⟨h, by simpa using ha⟩

theorem mem_foldl_addNew {α β : Type} [DecidableEq α] (f : β → α) :
    ∀ (l : List β) (acc : List α) (x : α),
    (x ∈ l.foldl (fun a p => addNew a (f p)) acc ↔ x ∈ acc ∨ ∃ p ∈ l, f p = x)
  | [], acc, x => by simp
  | b :: t, acc, x => by
    rw [List.foldl_cons, mem_foldl_addNew f t (addNew acc (f b)) x]
    simp only [mem_addNew, List.mem_cons]
    constructor
    · rintro ((hx | hx) | ⟨p, hp, hfp⟩)
      · exact Or.inl hx
      · exact Or.inr ⟨b, Or.inl rfl, hx.symm⟩
      · exact Or.inr ⟨p, Or.inr hp, hfp⟩
    · rintro (hx | ⟨p, hp | hp, hfp⟩)
      · exact Or.inl (Or.inl hx)
      · subst hp; exact Or.inl (Or.inr hfp.symm)
      · exact Or.inr ⟨p, hp, hfp⟩

theorem nodup_foldl_addNew {α β : Type} [DecidableEq α] (f : β → α) :
    ∀ (l : List β) (acc : List α), acc.Nodup →
    (l.foldl (fun a p => addNew a (f p)) acc).Nodup
  | [], _, h => h
  | b :: t, acc, h => by
    rw [List.foldl_cons]
    exact nodup_foldl_addNew f t (addNew acc (f b)) (nodup_addNew (f b) h)

/-! ### Claim C10: supporting lemmas (continued) -/

theorem registerImagesFrom_set_blank {docdir : FsPath} :
    ∀ (imgs : List ImageEntry) (n i : Nat) (e : ImageEntry),
    imgs.get? i = some e → (e.uri = none ∨ e.uri = some "") →
    registerImagesFrom docdir n (imgs.set i ⟨none, none⟩) = registerImagesFrom docdir n imgs
  | [], _, _, _, hget, _ => by cases hget
  | e0 :: rest, n, 0, e, hget, huri => by
    simp only [List.get?_cons_zero, Option.some.injEq] at hget
    subst hget
    rcases huri with hu | hu <;>
      simp [List.set, registerImagesFrom, hu]
  | e0 :: rest, n, i + 1, e, hget, huri => by
    simp only [List.get?_cons_succ] at hget
    have ih := @registerImagesFrom_set_blank docdir rest (n + 1) i e hget huri
    cases hu0 : e0.uri with
    | none => simp [List.set, registerImagesFrom, hu0, ih]
    | some u0 => by_cases h0 : u0 = "" <;> simp [List.set, registerImagesFrom, hu0, h0, ih]

theorem buildGraph_pairs_fst :
    ∀ (images : List FsPath) (doc : Document) (ids : List (FsPath × Nat)) (st : GraphResult),
    ∀ pr ∈ (images.foldl (buildGraphStep doc ids) st).pairs, pr ∈ st.pairs ∨ pr.1 ∈ images
  | [], _, _, _ => fun pr hpr => Or.inl hpr
  | img :: rest, doc, ids, st => by
    intro pr hpr
    rw [List.foldl_cons] at hpr
    rcases buildGraph_pairs_fst rest doc ids (buildGraphStep doc ids st img) pr hpr with h | h
    · simp only [buildGraphStep] at h
      split at h
      · exact Or.inl h
      · split at h
        · exact Or.inl h
        · simp only [List.mem_append, List.mem_singleton] at h
          rcases h with h | h
          · exact Or.inl h
          · subst h
            exact Or.inr (by simp)
    · exact Or.inr (List.mem_cons_of_mem _ h)

theorem realMatchesFor_ok {env : Env} {cfg : Config} {docdir c : FsPath}
    {materials : List Material} :
    ∀ {graph : List (FsPath × List Nat)} {ts : List MatchTuple},
    realMatchesFor env cfg docdir c materials graph = .ok ts →
    ∀ t ∈ ts, t.candidate = c ∧ (∃ pr ∈ graph, t.image = pr.1 ∧ t.material_ids = pr.2) ∧
      heightmapMatchMetric env cfg docdir t.candidate t.image
        (t.material_ids.map (fun mid => (materials.getD mid defaultMaterial).name)) =
        .ok t.score
  | [], ts, h => by
    simp only [realMatchesFor] at h
    cases h
    intro t ht
    cases ht
  | pr :: rest, ts, h => by
    simp only [realMatchesFor, exceptBind_ok_iff] at h
    obtain ⟨sc, hsc, tail, htail, h3⟩ := h
    rw [Except.ok.injEq] at h3
    subst h3
    intro t ht
    rcases List.mem_cons.1 ht with rfl | ht
    · exact ⟨rfl, ⟨pr, by simp, rfl, rfl⟩, hsc⟩
    · have := realMatchesFor_ok htail t ht
      exact ⟨this.1, ⟨this.2.1.choose, List.mem_cons_of_mem _ this.2.1.choose_spec.1,
        this.2.1.choose_spec.2⟩, this.2.2⟩

theorem fakeMatchesFor_ok {env : Env} {cfg : Config} {docdir c : FsPath}
    {materials : List Material} :
    ∀ {mids : List Nat} {ts : List MatchTuple},
    fakeMatchesFor env cfg docdir c materials mids = .ok ts →
    ∀ t ∈ ts, t.candidate = c ∧ t.image = docdir.join ["null"] ∧
      (∃ mid ∈ mids, t.material_ids = [mid]) ∧
      heightmapMatchMetric env cfg docdir t.candidate t.image
        (t.material_ids.map (fun mid => (materials.getD mid defaultMaterial).name)) =
        .ok t.score
  | [], ts, h => by
    simp only [fakeMatchesFor] at h
    cases h
    intro t ht
    cases ht
  | mid :: rest, ts, h => by
    simp only [fakeMatchesFor, exceptBind_ok_iff] at h
    obtain ⟨sc, hsc, tail, htail, h3⟩ := h
    rw [Except.ok.injEq] at h3
    subst h3
    intro t ht
    rcases List.mem_cons.1 ht with rfl | ht
    · exact ⟨rfl, rfl, ⟨mid, by simp, rfl⟩, by simpa using hsc⟩
    · have := fakeMatchesFor_ok htail t ht
      exact ⟨this.1, this.2.1, ⟨this.2.2.1.choose,
        List.mem_cons_of_mem _ this.2.2.1.choose_spec.1, this.2.2.1.choose_spec.2⟩,
        this.2.2.2⟩

theorem matchesFor_ok {env : Env} {cfg : Config} {docdir c : FsPath}
    {materials : List Material} {graph : List (FsPath × List Nat)} {ts : List MatchTuple}
    (h : matchesFor env cfg docdir c graph materials = .ok ts) :
    ∀ t ∈ ts, t.candidate = c ∧
      ((∃ pr ∈ graph, t.image = pr.1 ∧ t.material_ids = pr.2) ∨
        (cfg.match_materials_only = true ∧ t.image = docdir.join ["null"])) ∧
      heightmapMatchMetric env cfg docdir t.candidate t.image
        (t.material_ids.map (fun mid => (materials.getD mid defaultMaterial).name)) =
        .ok t.score := by
  simp only [matchesFor, exceptBind_ok_iff] at h
  obtain ⟨real, hreal, h2⟩ := h
  by_cases hmm : cfg.match_materials_only
  · rw [if_pos hmm, exceptBind_ok_iff] at h2
    obtain ⟨fake, hfake, h3⟩ := h2
    cases h3
    intro t ht
    rcases List.mem_append.1 ht with ht | ht
    · have := realMatchesFor_ok hreal t ht
      exact ⟨this.1, Or.inl this.2.1, this.2.2⟩
    · have := fakeMatchesFor_ok hfake t ht
      exact ⟨this.1, Or.inr ⟨by simpa using hmm, this.2.1⟩, this.2.2.2⟩
  · rw [if_neg hmm] at h2
    cases h2
    intro t ht
    have := realMatchesFor_ok hreal t ht
    exact ⟨this.1, Or.inl this.2.1, this.2.2⟩

theorem buildMatches_ok {env : Env} {cfg : Config} {docdir : FsPath}
    {graph : List (FsPath × List Nat)} {materials : List Material} :
    ∀ {candidates : List FsPath} {ms : List MatchTuple},
    buildMatches env cfg docdir candidates graph materials = .ok ms →
    ∀ t ∈ ms, t.candidate ∈ candidates ∧
      ((∃ pr ∈ graph, t.image = pr.1 ∧ t.material_ids = pr.2) ∨
        (cfg.match_materials_only = true ∧ t.image = docdir.join ["null"])) ∧
      heightmapMatchMetric env cfg docdir t.candidate t.image
        (t.material_ids.map (fun mid => (materials.getD mid defaultMaterial).name)) =
        .ok t.score
  | [], ms, h => by
    simp only [buildMatches] at h
    cases h
    intro t ht
    cases ht
  | c :: rest, ms, h => by
    simp only [buildMatches, exceptBind_ok_iff] at h
    obtain ⟨block, hblock, tail, htail, h3⟩ := h
    rw [Except.ok.injEq] at h3
    subst h3
    intro t ht
    rcases List.mem_append.1 ht with ht | ht
    · have := matchesFor_ok hblock t ht
      exact ⟨this.1 ▸ List.mem_cons_self c rest, this.2.1, this.2.2⟩
    · have := buildMatches_ok htail t ht
      exact ⟨List.mem_cons_of_mem _ this.1, this.2.1, this.2.2⟩

theorem buildGraph_images_irrel (doc : Document) (imgs2 : List ImageEntry)
    (images : List FsPath) (ids : List (FsPath × Nat)) :
    buildGraph { doc with images := imgs2 } images ids = buildGraph doc images ids := rfl

/-! ### Claim C10 -/

/-- C10: an entry of the `images` array with a missing or empty `uri` is
ignored by the pipeline: its index is never registered, its content is
irrelevant to registration, suffix accumulation, directory collection, graph
building and candidate discovery (replacing it by a blank entry changes
nothing), the reference graph maps only registered image paths, and every
match tuple pairs a registered image (or the `--match-materials-only`
sentinel).  No diagnostic mentions such an entry (the registration loop's
only print is commented out in the source). -/
theorem C10_no_uri_image_ignored (env : Env) (cfg : Config) (listdir : FsPath → List String)
    (docdir : FsPath) (base : List String) (doc : Document) (i : Nat) (e : ImageEntry)
    (hget : doc.images.get? i = some e) (huri : e.uri = none ∨ e.uri = some "") :
    (∀ pr ∈ (docPre env cfg listdir docdir base doc).reg, pr.1 ≠ i) ∧
    docPre env cfg listdir docdir base
        { doc with images := doc.images.set i ⟨none, none⟩ } =
      docPre env cfg listdir docdir base doc ∧
    (∀ pr ∈ (docPre env cfg listdir docdir base doc).graph,
        pr.1 ∈ (docPre env cfg listdir docdir base doc).images) ∧
    (∀ ms, buildMatches env cfg docdir (docPre env cfg listdir docdir base doc).candidates
        (docPre env cfg listdir docdir base doc).graph doc.materials = .ok ms →
      ∀ t ∈ ms, t.image ∈ (docPre env cfg listdir docdir base doc).images ∨
        t.image = docdir.join ["null"]) := by
  have hreg1 : ∀ pr ∈ registerImages docdir doc.images, pr.1 ≠ i := by
    intro pr hpr
    rw [registerImages, mem_registerImagesFrom] at hpr
    obtain ⟨k, e2, u, hget2, hu2, hne, hpr2⟩ := hpr
    intro hik
    rw [hpr2] at hik
    simp only [Nat.zero_add] at hik
    rw [hik] at hget2
    rw [hget] at hget2
    cases hget2
    rcases huri with h | h <;> rw [h] at hu2
    · cases hu2
    · cases hu2; exact hne rfl
  have hgr : ∀ pr ∈ (docPre env cfg listdir docdir base doc).graph,
      pr.1 ∈ (docPre env cfg listdir docdir base doc).images := by
    simp only [docPre]
    intro pr hpr
    rcases buildGraph_pairs_fst _ doc _ ⟨[], none⟩ pr hpr with h | h
    · cases h
    · exact h
  refine ⟨by simpa only [docPre] using hreg1, ?_, hgr, ?_⟩
  · have hset : registerImages docdir (doc.images.set i ⟨none, none⟩) =
        registerImages docdir doc.images :=
      @registerImagesFrom_set_blank docdir doc.images 0 i e hget huri
    simp only [docPre, buildGraph_images_irrel, hset]
  · intro ms hms t ht
    rcases (buildMatches_ok hms t ht).2.1 with ⟨pr, hprg, him, _⟩ | ⟨_, him⟩
    · exact Or.inl (him ▸ hgr pr hprg)
    · exact Or.inr him

def docD : Document := { docA with images := docA.images ++ [⟨some "ghost", none⟩] }

theorem C10_no_uri_image_ignored_witness :
    docD.images.get? 1 = some ⟨some "ghost", none⟩ ∧
    docPre envA cfgA listdirA ["root"] imageSuffixesInit
        { docD with images := docD.images.set 1 ⟨none, none⟩ } =
      docPre envA cfgA listdirA ["root"] imageSuffixesInit docD :=
  ⟨rfl, (C10_no_uri_image_ignored envA cfgA listdirA ["root"] imageSuffixesInit docD 1
    ⟨some "ghost", none⟩ (by rfl) (Or.inl rfl)).2.1⟩

/-! ### Inversion of a whole per-document run -/

theorem runDoc_ok_inv {env : Env} {cfg : Config} {listdir : FsPath → List String}
    {docdir : FsPath} {base : List String} {doc : Document} {out : RunOut}
    (h : runDoc env cfg listdir docdir base doc = .ok out) :
    ∃ ms ast mst,
      buildMatches env cfg docdir (docPre env cfg listdir docdir base doc).candidates
        (docPre env cfg listdir docdir base doc).graph doc.materials = .ok ms ∧
      processTuples env cfg docdir (docPre env cfg listdir docdir base doc).lastSampler
        (sortMatchesDesc ms) ⟨doc.materials, [], [], [], false, 0⟩ = .ok ast ∧
      mutateJobs env cfg docdir ast.unlinked_heightmaps
        ⟨doc.images, doc.textures, ast.materials, [], [], false⟩ = .ok mst ∧
      ((cfg.copy_from = none ∧
        out = ⟨⟨mst.images, mst.textures, mst.materials⟩, mst.had_changes,
               mst.heightmaps_added, ast.unlinked_heightmaps, ast.warnCount,
               (docPre env cfg listdir docdir base doc).suffixes⟩) ∨
       (∃ tmpl copied, cfg.copy_from = some tmpl ∧
        copyPass env cfg tmpl mst.materials = .ok copied ∧
        out = ⟨⟨mst.images, mst.textures, copied.1⟩, mst.had_changes || copied.2,
               mst.heightmaps_added, ast.unlinked_heightmaps, ast.warnCount,
               (docPre env cfg listdir docdir base doc).suffixes⟩)) := by
  rw [runDoc, runDocWithPre] at h
  rw [exceptBind_ok_iff] at h
  obtain ⟨ms, hms, h2⟩ := h
  rw [exceptBind_ok_iff] at h2
  obtain ⟨ast, hast, h3⟩ := h2
  rw [exceptBind_ok_iff] at h3
  obtain ⟨mst, hmst, h4⟩ := h3
  refine ⟨ms, ast, mst, hms, hast, hmst, ?_⟩
  cases hcf : cfg.copy_from with
  | none =>
    rw [hcf] at h4
    rw [Except.ok.injEq] at h4
    exact Or.inl ⟨rfl, h4.symm⟩
  | some tmpl =>
    rw [hcf] at h4
    rw [exceptBind_ok_iff] at h4
    obtain ⟨copied, hcp, h5⟩ := h4
    rw [Except.ok.injEq] at h5
    exact Or.inr ⟨tmpl, copied, rfl, hcp, h5.symm⟩

/-! ### Claim C3: the greedy assigner claims each material at most once -/

theorem orderMaterialSimilarity_ok_perm {env : Env} {cfg : Config} {docdir : FsPath}
    {candidate : FsPath} {materials : List Material} {mids out : List Nat}
    (h : orderMaterialSimilarity env cfg docdir candidate materials mids = .ok out) :
    out.Perm mids := by
  simp only [orderMaterialSimilarity, exceptBind_ok_iff] at h
  obtain ⟨rel, _, h2⟩ := h
  rw [Except.ok.injEq] at h2
  subst h2
  have h3 := isort_perm fracNatLeB
    (mids.map (fun i =>
      (env.ratio (env.reSub cfg.heightmap_regex (joinPath rel))
        (materials.getD i defaultMaterial).name, i)))
  have h4 := ((List.reverse_perm _).trans h3).map (fun p : Frac × Nat => p.2)
  rw [List.map_map] at h4
  refine h4.trans ?_
  show (mids.map fun i => i).Perm mids
  simp

/-- The invariant the assigner maintains: recorded jobs target pairwise
distinct materials, all of which are already claimed. -/
def JobsInv (st : AState) : Prop :=
  (st.unlinked_heightmaps.map (·.material_id)).Nodup ∧
  ∀ j ∈ st.unlinked_heightmaps, j.material_id ∈ st.unlinked_material_ids

theorem processMaterials_jobsInv (cfg : Config) (ls : Option Int) (hm img : FsPath) :
    ∀ (ids : List Nat) (st st' : AState),
    processMaterials cfg ls hm img ids st = .ok st' →
    ids.Nodup → (∀ id ∈ ids, id ∉ st.unlinked_material_ids) →
    JobsInv st →
    JobsInv st' ∧ (∀ x ∈ st.unlinked_material_ids, x ∈ st'.unlinked_material_ids)
  | [], st, st', h, _, _, hinv => by
    simp only [processMaterials, Except.ok.injEq] at h
    subst h
    exact ⟨hinv, fun x hx => hx⟩
  | mid :: rest, st, st', h, hnd, hni, hinv => by
    simp only [processMaterials] at h
    rcases List.nodup_cons.1 hnd with ⟨hmid, hndr⟩
    have hmidni := hni mid (by simp)
    have hmono1 : ∀ x ∈ st.unlinked_material_ids, x ∈ addNew st.unlinked_material_ids mid := by
      intro x hx
      exact mem_addNew.2 (Or.inl hx)
    have hinv1 : JobsInv { st with
        unlinked_material_ids := addNew st.unlinked_material_ids mid,
        materials := ensureExtensions st.materials mid } :=
      ⟨hinv.1, fun j hj => hmono1 _ (hinv.2 j hj)⟩
    have hni1 : ∀ id ∈ rest, id ∉ addNew st.unlinked_material_ids mid := by
      intro id hid hmem
      rcases mem_addNew.1 hmem with hc | hc
      · exact hni id (by simp [hid]) hc
      · exact hmid (hc ▸ hid)
    split at h
    · have := processMaterials_jobsInv cfg ls hm img rest _ st' h hndr hni1 hinv1
      exact ⟨this.1, fun x hx => this.2 x (hmono1 x hx)⟩
    · split at h
      next lsv heq => cases h
      next hdisp2 lsv s =>
        have hinvj : JobsInv { st with
            materials := ensureExtensions st.materials mid,
            unlinked_material_ids := addNew st.unlinked_material_ids mid,
            unlinked_heightmaps := st.unlinked_heightmaps ++
              [⟨mid, ((ensureExtensions st.materials mid).getD mid defaultMaterial).name,
                hm, img, s⟩],
            best_image := (hm.nameOf, img) :: st.best_image } := by
          constructor
          · simp only [List.map_append]
            refine List.Nodup.append hinv.1 (by simp) ?_
            intro x hx hx2
            simp only [List.map_cons, List.map_nil, List.mem_singleton] at hx2
            obtain ⟨j, hj, hjx⟩ := List.mem_map.1 hx
            have hjc := hinv.2 j hj
            rw [hjx, hx2] at hjc
            exact hmidni hjc
          · intro j hj
            rcases List.mem_append.1 hj with hj | hj
            · exact hmono1 _ (hinv.2 j hj)
            · simp only [List.mem_singleton] at hj
              subst hj
              exact mem_addNew.2 (Or.inr rfl)
        split at h
        · injection h with hX
          rw [hX] at hinvj
          exact ⟨hinvj, fun x hx => hX ▸ hmono1 x hx⟩
        · have := processMaterials_jobsInv cfg (some s) hm img rest _ st' h hndr
            (fun id hid => hni1 id hid) hinvj
          exact ⟨this.1, fun x hx => this.2 x (hmono1 x hx)⟩

theorem processTuples_jobsInv (env : Env) (cfg : Config) (docdir : FsPath)
    (ls : Option Int) :
    ∀ (ts : List MatchTuple) (st st' : AState),
    processTuples env cfg docdir ls ts st = .ok st' → JobsInv st → JobsInv st'
  | [], st, st', h, hinv => by
    simp only [processTuples, Except.ok.injEq] at h
    subst h
    exact hinv
  | t :: rest, st, st', h, hinv => by
    simp only [processTuples] at h
    split at h
    · exact processTuples_jobsInv env cfg docdir ls rest st st' h hinv
    · rw [exceptBind_ok_iff] at h
      obtain ⟨ordered, hord, h2⟩ := h
      rw [exceptBind_ok_iff] at h2
      obtain ⟨st2, hpm, h3⟩ := h2
      -- the warn update leaves the job and claim fields unchanged
      set stw : AState :=
        (match alookup st.best_image t.candidate.nameOf with
          | some img =>
            if img ≠ t.image ∧ ¬st.warned then
              { st with warned := true, warnCount := st.warnCount + 1 }
            else st
          | none => st) with hstw
      have hw1 : stw.unlinked_heightmaps = st.unlinked_heightmaps := by
        rw [hstw]
        cases alookup st.best_image t.candidate.nameOf with
        | none => rfl
        | some img =>
          dsimp only
          by_cases hc : img ≠ t.image ∧ ¬st.warned = true
          · rw [if_pos hc]
          · rw [if_neg hc]
      have hw2 : stw.unlinked_material_ids = st.unlinked_material_ids := by
        rw [hstw]
        cases alookup st.best_image t.candidate.nameOf with
        | none => rfl
        | some img =>
          dsimp only
          by_cases hc : img ≠ t.image ∧ ¬st.warned = true
          · rw [if_pos hc]
          · rw [if_neg hc]
      have hinvw : JobsInv stw := by
        constructor
        · rw [hw1]; exact hinv.1
        · rw [hw1, hw2]; exact hinv.2
      have hordp := orderMaterialSimilarity_ok_perm hord
      have hrnd : (t.material_ids.dedup.filter
          (fun m => m ∉ stw.unlinked_material_ids)).Nodup :=
        (List.nodup_dedup t.material_ids).filter _
      have hnd : ordered.Nodup := hordp.nodup_iff.2 hrnd
      have hni : ∀ id ∈ ordered, id ∉ stw.unlinked_material_ids := by
        intro id hid
        have := hordp.mem_iff.1 hid
        have := List.of_mem_filter this
        simpa using this
      have := processMaterials_jobsInv cfg ls t.candidate t.image ordered stw st2 hpm
        hnd hni hinvw
      exact processTuples_jobsInv env cfg docdir ls rest st2 st' h3 this.1

/-- C3: within a single run on one document, at most one assignment tuple is
produced per material index: once a material is claimed — by receiving a job
or by being skipped as already carrying the extension — it is subtracted from
every later tuple's material set, so the assigner's job list targets pairwise
distinct materials. -/
theorem C3_one_assignment_per_material {env : Env} {cfg : Config}
    {listdir : FsPath → List String} {docdir : FsPath} {base : List String}
    {doc : Document} {out : RunOut}
    (h : runDoc env cfg listdir docdir base doc = .ok out) :
    (out.unlinked_heightmaps.map (·.material_id)).Nodup := by
  obtain ⟨ms, ast, mst, hms, hast, hmst, hout⟩ := runDoc_ok_inv h
  have hinv := processTuples_jobsInv _ _ _ _ _ _ _ hast ⟨by simp, by simp⟩
  rcases hout with ⟨_, rfl⟩ | ⟨tmpl, copied, _, _, rfl⟩ <;> exact hinv.1

def jobA : Job := ⟨0, "Wood", ["root", "color_height.png"], ["root", "color.png"], 0⟩

/-- The document produced by one linking run on `docA`. -/
def docA2 : Document :=
  { images := [⟨some "color.png", some "color.png"⟩,
               ⟨some "color_height.png", some "color_height.png"⟩]
    textures := [⟨0, 0⟩, ⟨0, 1⟩]
    materials := [{ woodMat with extensions := some ⟨some ⟨⟨1, 1⟩, ⟨0, 1⟩, 1⟩⟩ }] }

def outA : RunOut := ⟨docA2, true, [jobA], [jobA], 0, imageSuffixesInit⟩

theorem runDocA_eq :
    runDoc envA cfgA listdirA ["root"] imageSuffixesInit docA = .ok outA := rfl

theorem C3_one_assignment_per_material_witness :
    runDoc envA cfgA listdirA ["root"] imageSuffixesInit docA = .ok outA ∧
      (outA.unlinked_heightmaps.map (·.material_id)).Nodup :=
  ⟨runDocA_eq, C3_one_assignment_per_material runDocA_eq⟩

/-! ### Claim C2: existing extension values survive a run without a template -/

/-- The displacement extension carried by material `mid`. -/
def dispOf (materials : List Material) (mid : Nat) : Option DispExt :=
  match materials.get? mid with
  | some m =>
    match m.extensions with
    | some em => em.displacement
    | none => none
  | none => none

theorem dispOf_ensureExtensions (materials : List Material) (k mid : Nat) :
    dispOf (ensureExtensions materials k) mid = dispOf materials mid := by
  rw [ensureExtensions]
  cases hk : materials.get? k with
  | none => rfl
  | some m =>
    dsimp only
    cases he : m.extensions with
    | some em => rfl
    | none =>
      by_cases hmk : mid = k
      · subst hmk
        rw [dispOf, dispOf, List.get?_set_eq, hk]
        simp [he]
      · rw [dispOf, dispOf, List.get?_set_ne _ _ (fun h => hmk h.symm)]

theorem hasDisp_iff_dispOf (materials : List Material) (mid : Nat) :
    hasDisp materials mid = true ↔ (dispOf materials mid).isSome := by
  rw [hasDisp, dispOf]
  cases hm : materials.get? mid with
  | none => simp
  | some m =>
    dsimp only
    cases he : m.extensions with
    | none => simp
    | some em => exact Iff.rfl

theorem processMaterials_dispOf (cfg : Config) (ls : Option Int) (hm img : FsPath) :
    ∀ (ids : List Nat) (st st' : AState),
    processMaterials cfg ls hm img ids st = .ok st' →
    ∀ mid, dispOf st'.materials mid = dispOf st.materials mid
  | [], st, st', h, mid => by
    simp only [processMaterials, Except.ok.injEq] at h
    subst h
    rfl
  | i :: rest, st, st', h, mid => by
    simp only [processMaterials] at h
    split at h
    · rw [processMaterials_dispOf cfg ls hm img rest _ st' h mid]
      exact dispOf_ensureExtensions st.materials i mid
    · split at h
      next lsv heq => cases h
      next hdisp2 lsv s =>
        split at h
        · injection h with hX
          rw [← hX]
          exact dispOf_ensureExtensions st.materials i mid
        · rw [processMaterials_dispOf cfg (some s) hm img rest _ st' h mid]
          exact dispOf_ensureExtensions st.materials i mid

theorem processTuples_dispOf (env : Env) (cfg : Config) (docdir : FsPath) (ls : Option Int) :
    ∀ (ts : List MatchTuple) (st st' : AState),
    processTuples env cfg docdir ls ts st = .ok st' →
    ∀ mid, dispOf st'.materials mid = dispOf st.materials mid
  | [], st, st', h, mid => by
    simp only [processTuples, Except.ok.injEq] at h
    subst h
    rfl
  | t :: rest, st, st', h, mid => by
    simp only [processTuples] at h
    split at h
    · exact processTuples_dispOf env cfg docdir ls rest st st' h mid
    · rw [exceptBind_ok_iff] at h
      obtain ⟨ordered, hord, h2⟩ := h
      rw [exceptBind_ok_iff] at h2
      obtain ⟨st2, hpm, h3⟩ := h2
      rw [processTuples_dispOf env cfg docdir ls rest st2 st' h3 mid,
        processMaterials_dispOf cfg ls t.candidate t.image ordered _ st2 hpm mid]
      cases alookup st.best_image t.candidate.nameOf with
      | none => rfl
      | some img =>
        dsimp only
        by_cases hc : img ≠ t.image ∧ ¬st.warned = true
        · rw [if_pos hc]
        · rw [if_neg hc]

theorem dispOf_set_ne_ensure {mats : List Material} {jmid mid : Nat} (hne : jmid ≠ mid)
    (X : Material) :
    dispOf ((ensureExtensions mats jmid).set jmid X) mid = dispOf mats mid := by
  rw [dispOf, List.get?_set_ne _ _ hne]
  have h2 := dispOf_ensureExtensions mats jmid mid
  rw [dispOf] at h2
  exact h2

theorem mutateJob_dispOf_some {env : Env} {cfg : Config} {docdir : FsPath}
    {st : MState} {j : Job} {st' : MState}
    (h : mutateJob env cfg docdir st j = .ok st') {mid : Nat} {d : DispExt}
    (hd : dispOf st.materials mid = some d) : dispOf st'.materials mid = some d := by
  simp only [mutateJob, exceptBind_ok_iff] at h
  obtain ⟨pass, hpass, h2⟩ := h
  by_cases hp : pass
  · rw [if_neg (by simpa using hp)] at h2
    split at h2
    · injection h2 with hX
      rw [← hX]
      rw [dispOf_ensureExtensions]
      exact hd
    next hnd =>
      have hmidne : j.material_id ≠ mid := by
        intro hEq
        rw [hasDisp_iff_dispOf, dispOf_ensureExtensions] at hnd
        rw [← hEq] at hd
        rw [hd] at hnd
        simp at hnd
      rcases hal : alookup st.added_texture_map j.heightmap.nameOf with _ | t
      · rw [hal] at h2
        simp only [exceptBind_ok_iff] at h2
        obtain ⟨rel, hrel, y, hy, h3⟩ := h2
        injection hy with hy
        injection h3 with h3
        rw [← h3, ← hy]
        dsimp only
        rw [dispOf_set_ne_ensure hmidne]
        exact hd
      · rw [hal] at h2
        simp only [exceptBind_ok_iff] at h2
        obtain ⟨y, hy, h3⟩ := h2
        injection hy with hy
        injection h3 with h3
        rw [← h3, ← hy]
        dsimp only
        rw [dispOf_set_ne_ensure hmidne]
        exact hd
  · rw [if_pos (by simpa using hp)] at h2
    injection h2 with hX
    rw [← hX]
    exact hd

theorem mutateJobs_dispOf_some {env : Env} {cfg : Config} {docdir : FsPath} :
    ∀ {jobs : List Job} {st st' : MState},
    mutateJobs env cfg docdir jobs st = .ok st' →
    ∀ {mid : Nat} {d : DispExt},
    dispOf st.materials mid = some d → dispOf st'.materials mid = some d
  | [], st, st', h, mid, d, hd => by
    simp only [mutateJobs, Except.ok.injEq] at h
    subst h
    exact hd
  | j :: rest, st, st', h, mid, d, hd => by
    simp only [mutateJobs, exceptBind_ok_iff] at h
    obtain ⟨st2, hj, h2⟩ := h
    exact mutateJobs_dispOf_some h2 (mutateJob_dispOf_some hj hd)

/-- C2: a material that already carries the `KHR_materials_displacement`
extension at the start of a run keeps its exact extension value — factor,
offset, and texture reference — through a run without `copy_from`: the
assigner skips such materials and the mutator drops their jobs, so the
template-copy pass is the only code path that can change an existing
extension's values. -/
theorem C2_no_overwrite_without_template {env : Env} {cfg : Config}
    {listdir : FsPath → List String} {docdir : FsPath} {base : List String}
    {doc : Document} {out : RunOut}
    (h : runDoc env cfg listdir docdir base doc = .ok out)
    (hcf : cfg.copy_from = none) :
    ∀ mid d, dispOf doc.materials mid = some d → dispOf out.doc.materials mid = some d := by
  obtain ⟨ms, ast, mst, hms, hast, hmst, hout⟩ := runDoc_ok_inv h
  rcases hout with ⟨_, rfl⟩ | ⟨tmpl, copied, hsome, _, _⟩
  · intro mid d hd
    have h1 := processTuples_dispOf _ _ _ _ _ _ _ hast mid
    have h2 : dispOf ast.materials mid = some d := by rw [h1]; exact hd
    exact mutateJobs_dispOf_some hmst h2
  · rw [hcf] at hsome
    cases hsome

theorem C2_no_overwrite_without_template_witness :
    runDoc envA cfgA listdirA ["root"] imageSuffixesInit docA2 =
      .ok ⟨docA2, false, [], [], 0, imageSuffixesInit⟩ ∧
    dispOf docA2.materials 0 = some ⟨⟨1, 1⟩, ⟨0, 1⟩, 1⟩ ∧
    dispOf ((⟨docA2, false, [], [], 0, imageSuffixesInit⟩ : RunOut)).doc.materials 0 =
      some ⟨⟨1, 1⟩, ⟨0, 1⟩, 1⟩ := by
  have hrun : runDoc envA cfgA listdirA ["root"] imageSuffixesInit docA2 =
      .ok ⟨docA2, false, [], [], 0, imageSuffixesInit⟩ := rfl
  exact ⟨hrun, rfl,
    C2_no_overwrite_without_template hrun rfl 0 ⟨⟨1, 1⟩, ⟨0, 1⟩, 1⟩ rfl⟩

/-! ### Claim C4 -/

/-- C4 (counterexample): with `--match-one-image` off, a candidate filename
matched to two different images is *not* resolved to the first image only:
the run on `docC` warns exactly once but records assignments pairing the same
filename `x_height.png` first with `red.png` and then with the different
image `blue.png`, contradicting the claim that the assigner "still accepts
only the first (highest-scoring) image for that filename". -/
theorem C4_second_image_accepted :
    (runDoc envA cfgA listdirC ["root"] imageSuffixesInit docC).map
      (fun out => (out.warnCount,
        out.unlinked_heightmaps.map (fun j => (j.heightmap.nameOf, j.image)))) =
    .ok (1, [("x_height.png", ["root", "red.png"]),
             ("x_height.png", ["root", "blue.png"])]) := rfl

theorem processMaterials_warn (cfg : Config) (ls : Option Int) (hm img : FsPath) :
    ∀ (ids : List Nat) (st st' : AState),
    processMaterials cfg ls hm img ids st = .ok st' →
    st'.warned = st.warned ∧ st'.warnCount = st.warnCount
  | [], st, st', h => by
    simp only [processMaterials, Except.ok.injEq] at h
    subst h
    exact ⟨rfl, rfl⟩
  | i :: rest, st, st', h => by
    simp only [processMaterials] at h
    split at h
    · have := processMaterials_warn cfg ls hm img rest _ st' h
      exact this
    · split at h
      next lsv heq => cases h
      next hdisp2 lsv s =>
        split at h
        · injection h with hX
          rw [← hX]
          exact ⟨rfl, rfl⟩
        · have := processMaterials_warn cfg (some s) hm img rest _ st' h
          exact this

/-- The warning flag and counter stay in lockstep: the counter is the flag's
value, so at most one warning is ever printed per document. -/
def WarnInv (st : AState) : Prop :=
  st.warnCount = (if st.warned then 1 else 0)

theorem processTuples_warnInv (env : Env) (cfg : Config) (docdir : FsPath)
    (ls : Option Int) :
    ∀ (ts : List MatchTuple) (st st' : AState),
    processTuples env cfg docdir ls ts st = .ok st' → WarnInv st → WarnInv st'
  | [], st, st', h, hw => by
    simp only [processTuples, Except.ok.injEq] at h
    subst h
    exact hw
  | t :: rest, st, st', h, hw => by
    simp only [processTuples] at h
    split at h
    · exact processTuples_warnInv env cfg docdir ls rest st st' h hw
    · rw [exceptBind_ok_iff] at h
      obtain ⟨ordered, hord, h2⟩ := h
      rw [exceptBind_ok_iff] at h2
      obtain ⟨st2, hpm, h3⟩ := h2
      have hwmid : WarnInv
          (match alookup st.best_image t.candidate.nameOf with
            | some img =>
              if img ≠ t.image ∧ ¬st.warned = true then
                { st with warned := true, warnCount := st.warnCount + 1 }
              else st
            | none => st) := by
        cases alookup st.best_image t.candidate.nameOf with
        | none => exact hw
        | some img =>
          dsimp only
          by_cases hc : img ≠ t.image ∧ ¬st.warned = true
          · rw [if_pos hc]
            rw [WarnInv]
            dsimp only
            rw [if_pos rfl]
            rw [WarnInv] at hw
            rcases hc with ⟨_, hnw⟩
            have : st.warned = false := by
              cases hb : st.warned
              · rfl
              · rw [hb] at hnw; simp at hnw
            rw [this] at hw
            simp at hw
            omega
          · rw [if_neg hc]
            exact hw
      have h4 := processMaterials_warn cfg ls t.candidate t.image ordered _ st2 hpm
      have hw2 : WarnInv st2 := by
        rw [WarnInv, h4.1, h4.2]
        exact hwmid
      exact processTuples_warnInv env cfg docdir ls rest st2 st' h3 hw2

/-- With `--match-one-image` on, every recorded job's filename is bound in
`best_image` to that job's image. -/
def BestInv (st : AState) : Prop :=
  ∀ j ∈ st.unlinked_heightmaps,
    alookup st.best_image j.heightmap.nameOf = some j.image

theorem processMaterials_bestInv {cfg : Config} (hmoi : cfg.match_one_image = true)
    (ls : Option Int) (hm img : FsPath) :
    ∀ (ids : List Nat) (st st' : AState),
    processMaterials cfg ls hm img ids st = .ok st' →
    (alookup st.best_image hm.nameOf = none ∨
      alookup st.best_image hm.nameOf = some img) →
    BestInv st → BestInv st'
  | [], st, st', h, _, hb => by
    simp only [processMaterials, Except.ok.injEq] at h
    subst h
    exact hb
  | i :: rest, st, st', h, hbound, hb => by
    simp only [processMaterials] at h
    split at h
    · exact processMaterials_bestInv hmoi ls hm img rest _ st' h hbound hb
    · split at h
      next lsv heq => cases h
      next hdisp2 lsv s =>
        injection h with hX
        rw [← hX]
        intro j hj
        rcases List.mem_append.1 hj with hj | hj
        · have hbj := hb j hj
          dsimp only [alookup]
          by_cases hn : hm.nameOf = j.heightmap.nameOf
          · rw [if_pos hn]
            rw [← hn] at hbj
            rcases hbound with hc | hc
            · rw [hc] at hbj; cases hbj
            · rw [hc] at hbj
              injection hbj with hbj
              rw [hbj]
          · rw [if_neg hn]
            exact hbj
        · simp only [List.mem_singleton] at hj
          subst hj
          dsimp only [alookup]
          rw [if_pos rfl]

theorem processTuples_bestInv (env : Env) {cfg : Config} (docdir : FsPath)
    (ls : Option Int) (hmoi : cfg.match_one_image = true) :
    ∀ (ts : List MatchTuple) (st st' : AState),
    processTuples env cfg docdir ls ts st = .ok st' → BestInv st → BestInv st'
  | [], st, st', h, hb => by
    simp only [processTuples, Except.ok.injEq] at h
    subst h
    exact hb
  | t :: rest, st, st', h, hb => by
    simp only [processTuples] at h
    split at h
    · exact processTuples_bestInv env docdir ls hmoi rest st st' h hb
    next hskip =>
      rw [exceptBind_ok_iff] at h
      obtain ⟨ordered, hord, h2⟩ := h
      rw [exceptBind_ok_iff] at h2
      obtain ⟨st2, hpm, h3⟩ := h2
      have hbound : alookup st.best_image t.candidate.nameOf = none ∨
          alookup st.best_image t.candidate.nameOf = some t.image := by
        cases hal : alookup st.best_image t.candidate.nameOf with
        | none => exact Or.inl rfl
        | some img =>
          right
          rw [hal] at hskip
          by_cases he : img = t.image
          · rw [he]
          · exfalso
            apply hskip
            simp only [decide_eq_true_eq]
            exact ⟨he, hmoi⟩
      have hwarnsame :
          (match alookup st.best_image t.candidate.nameOf with
            | some img =>
              if img ≠ t.image ∧ ¬st.warned = true then
                { st with warned := true, warnCount := st.warnCount + 1 }
              else st
            | none => st) = st ∨
          (match alookup st.best_image t.candidate.nameOf with
            | some img =>
              if img ≠ t.image ∧ ¬st.warned = true then
                { st with warned := true, warnCount := st.warnCount + 1 }
              else st
            | none => st) = { st with warned := true, warnCount := st.warnCount + 1 } := by
        cases alookup st.best_image t.candidate.nameOf with
        | none => exact Or.inl rfl
        | some img =>
          dsimp only
          by_cases hc : img ≠ t.image ∧ ¬st.warned = true
          · rw [if_pos hc]; exact Or.inr rfl
          · rw [if_neg hc]; exact Or.inl rfl
      have hbmid : BestInv
          (match alookup st.best_image t.candidate.nameOf with
            | some img =>
              if img ≠ t.image ∧ ¬st.warned = true then
                { st with warned := true, warnCount := st.warnCount + 1 }
              else st
            | none => st) := by
        rcases hwarnsame with hs | hs <;> rw [hs] <;> exact hb
      have hboundmid : alookup
          (match alookup st.best_image t.candidate.nameOf with
            | some img =>
              if img ≠ t.image ∧ ¬st.warned = true then
                { st with warned := true, warnCount := st.warnCount + 1 }
              else st
            | none => st).best_image t.candidate.nameOf = none ∨ alookup
          (match alookup st.best_image t.candidate.nameOf with
            | some img =>
              if img ≠ t.image ∧ ¬st.warned = true then
                { st with warned := true, warnCount := st.warnCount + 1 }
              else st
            | none => st).best_image t.candidate.nameOf = some t.image := by
        rcases hwarnsame with hs | hs <;> rw [hs] <;> exact hbound
      have hb2 := processMaterials_bestInv hmoi ls t.candidate t.image ordered _ st2 hpm
        hboundmid hbmid
      exact processTuples_bestInv env docdir ls hmoi rest st2 st' h3 hb2

/-- C4 (amended): the once-per-document warning holds — `warnCount ≤ 1` for
every run — but with the one-image-per-filename constraint relaxed
(`--match-one-image` off) the assigner accepts later tuples pairing the same
filename with a *different* image, recording assignments for them (see the
counterexample).  First-image-wins holds only when `--match-one-image` is on:
then all jobs sharing a candidate filename share one image. -/
theorem C4_one_warning_and_flagged_first_image_wins {env : Env} {cfg : Config}
    {listdir : FsPath → List String} {docdir : FsPath} {base : List String}
    {doc : Document} {out : RunOut}
    (h : runDoc env cfg listdir docdir base doc = .ok out) :
    out.warnCount ≤ 1 ∧
    (cfg.match_one_image = true →
      ∀ j1 ∈ out.unlinked_heightmaps, ∀ j2 ∈ out.unlinked_heightmaps,
        j1.heightmap.nameOf = j2.heightmap.nameOf → j1.image = j2.image) := by
  obtain ⟨ms, ast, mst, hms, hast, hmst, hout⟩ := runDoc_ok_inv h
  have hwarn : ast.warnCount ≤ 1 := by
    have := processTuples_warnInv _ _ _ _ _ _ _ hast (by rfl)
    rw [WarnInv] at this
    rw [this]
    split <;> omega
  have hbest : cfg.match_one_image = true →
      ∀ j1 ∈ ast.unlinked_heightmaps, ∀ j2 ∈ ast.unlinked_heightmaps,
        j1.heightmap.nameOf = j2.heightmap.nameOf → j1.image = j2.image := by
    intro hmoi j1 hj1 j2 hj2 hname
    have hbi := processTuples_bestInv env docdir _ hmoi _ _ _ hast
      (by intro j hj; cases hj)
    have h1 := hbi j1 hj1
    have h2 := hbi j2 hj2
    rw [hname] at h1
    exact Option.some.inj (h1.symm.trans h2)
  rcases hout with ⟨_, rfl⟩ | ⟨tmpl, copied, _, _, rfl⟩ <;> exact ⟨hwarn, hbest⟩

def cfgMOI : Config := { cfgA with match_one_image := true }

def jobRed : Job := ⟨0, "Red", ["root", "x_height.png"], ["root", "red.png"], 7⟩

/-- The document produced by the `--match-one-image` run on `docC`. -/
def docC3 : Document :=
  { images := [⟨some "red.png", some "red.png"⟩, ⟨some "blue.png", some "blue.png"⟩,
               ⟨some "x_height.png", some "x_height.png"⟩]
    textures := [⟨5, 0⟩, ⟨7, 1⟩, ⟨7, 2⟩]
    materials := [{ matRed with extensions := some ⟨some ⟨⟨1, 1⟩, ⟨0, 1⟩, 2⟩⟩ }, matBlue] }

def outC3 : RunOut := ⟨docC3, true, [jobRed], [jobRed], 0, imageSuffixesInit⟩

theorem C4_one_warning_and_flagged_first_image_wins_witness :
    runDoc envA cfgMOI listdirC ["root"] imageSuffixesInit docC = .ok outC3 ∧
    (outC3.warnCount ≤ 1 ∧
      (cfgMOI.match_one_image = true →
        ∀ j1 ∈ outC3.unlinked_heightmaps, ∀ j2 ∈ outC3.unlinked_heightmaps,
          j1.heightmap.nameOf = j2.heightmap.nameOf → j1.image = j2.image)) := by
  have hrun : runDoc envA cfgMOI listdirC ["root"] imageSuffixesInit docC = .ok outC3 := rfl
  exact ⟨hrun, C4_one_warning_and_flagged_first_image_wins hrun⟩

/-! ### Claim C6 -/

/-- C6: the claim says the appended texture's sampler equals the sampler of
the existing texture that triggered the match.  The code instead reads the
stale loop variable `sampler_id` left over from the reference-graph loop
(line 153), which after that loop holds the sampler of the *last* texture of
the last image with textures.  On `docC` the job triggered by `red.png` —
whose referencing texture is texture 0 with sampler 5 — is recorded and
realized with sampler 7 (texture 1's sampler, the stale value), and the
appended texture is `{sampler 7, source 2}`, not sampler 5; whichever way the
image set is enumerated, the two realized jobs both carry one stale sampler
while their triggering textures have samplers 5 and 7.  This contradicts the
claim and its own spec sentence; the intent (copy the triggering texture's
sampler) makes it a code bug. -/
theorem C6_sampler_is_stale_loop_variable :
    find_ids_textures docC.textures 0 = [0] ∧
    (docC.textures.getD 0 ⟨0, 0⟩).sampler = 5 ∧
    (runDoc envA cfgA listdirC ["root"] imageSuffixesInit docC).map
      (fun out => (out.heightmaps_added.map (fun j => (j.image, j.sampler)),
                   out.doc.textures)) =
    .ok ([(["root", "red.png"], 7), (["root", "blue.png"], 7)],
         [⟨5, 0⟩, ⟨7, 1⟩, ⟨7, 2⟩]) :=
  ⟨rfl, rfl, rfl⟩

/-! ### Claim C8 -/

/-- C8 (counterexample): stage 4 is not pure.  On `docA` with
`--filter-out Wood`, the assigner claims the material and inserts an empty
`extensions` map (lines 212–213) before the mutator's name filter drops the
job: the run realizes no assignment and reports no changes, yet the material
object is no longer structurally identical to its input form. -/
theorem C8_assigner_inserts_extensions_map :
    (runDoc envA { cfgA with filter_out := ["Wood"] } listdirA ["root"]
        imageSuffixesInit docA).map
      (fun out => (out.had_changes, out.heightmaps_added, out.doc.materials)) =
    .ok (false, [], [{ woodMat with extensions := some ⟨none⟩ }]) ∧
    ({ woodMat with extensions := some ⟨none⟩ } : Material) ≠ woodMat :=
  ⟨rfl, by decide⟩

/-- Materials before/after differ at most by insertion of an empty
`extensions` map. -/
def MatsRel (a b : List Material) : Prop :=
  ∀ i, b.get? i = a.get? i ∨
    ∃ m, a.get? i = some m ∧ m.extensions = none ∧
      b.get? i = some { m with extensions := some ⟨none⟩ }

theorem matsRel_refl (a : List Material) : MatsRel a a := fun _ => Or.inl rfl

theorem matsRel_trans {a b c : List Material} (h1 : MatsRel a b) (h2 : MatsRel b c) :
    MatsRel a c := by
  intro i
  rcases h2 i with h2i | ⟨m, hbm, hme, hcm⟩
  · rw [h2i]
    exact h1 i
  · rcases h1 i with h1i | ⟨m2, ham, hme2, hbm2⟩
    · rw [hbm] at h1i
      exact Or.inr ⟨m, h1i.symm, hme, hcm⟩
    · rw [hbm2] at hbm
      injection hbm with hbm
      rw [← hbm] at hme
      simp at hme
  -- a material that just gained an empty map cannot be extension-free again

theorem matsRel_ensure (mats : List Material) (k : Nat) :
    MatsRel mats (ensureExtensions mats k) := by
  intro i
  rw [ensureExtensions]
  cases hk : mats.get? k with
  | none => exact Or.inl rfl
  | some m =>
    dsimp only
    cases he : m.extensions with
    | some em => exact Or.inl rfl
    | none =>
      by_cases hik : i = k
      · subst hik
        refine Or.inr ⟨m, hk, he, ?_⟩
        rw [List.get?_set_eq, hk]
        rfl
      · rw [List.get?_set_ne _ _ (fun hEq => hik hEq.symm)]
        exact Or.inl rfl

theorem processMaterials_matsRel (cfg : Config) (ls : Option Int) (hm img : FsPath) :
    ∀ (ids : List Nat) (st st' : AState),
    processMaterials cfg ls hm img ids st = .ok st' →
    MatsRel st.materials st'.materials
  | [], st, st', h => by
    simp only [processMaterials, Except.ok.injEq] at h
    subst h
    exact matsRel_refl _
  | i :: rest, st, st', h => by
    simp only [processMaterials] at h
    split at h
    · exact matsRel_trans (matsRel_ensure st.materials i)
        (processMaterials_matsRel cfg ls hm img rest _ st' h)
    · split at h
      next lsv heq => cases h
      next hdisp2 lsv s =>
        split at h
        · injection h with hX
          rw [← hX]
          exact matsRel_ensure st.materials i
        · exact matsRel_trans (matsRel_ensure st.materials i)
            (processMaterials_matsRel cfg (some s) hm img rest _ st' h)

theorem processTuples_matsRel (env : Env) (cfg : Config) (docdir : FsPath)
    (ls : Option Int) :
    ∀ (ts : List MatchTuple) (st st' : AState),
    processTuples env cfg docdir ls ts st = .ok st' →
    MatsRel st.materials st'.materials
  | [], st, st', h => by
    simp only [processTuples, Except.ok.injEq] at h
    subst h
    exact matsRel_refl _
  | t :: rest, st, st', h => by
    simp only [processTuples] at h
    split at h
    · exact processTuples_matsRel env cfg docdir ls rest st st' h
    · rw [exceptBind_ok_iff] at h
      obtain ⟨ordered, hord, h2⟩ := h
      rw [exceptBind_ok_iff] at h2
      obtain ⟨st2, hpm, h3⟩ := h2
      have hmid : MatsRel st.materials st2.materials := by
        have hrel := processMaterials_matsRel cfg ls t.candidate t.image ordered _ st2 hpm
        have hsame :
            (match alookup st.best_image t.candidate.nameOf with
              | some img =>
                if img ≠ t.image ∧ ¬st.warned = true then
                  { st with warned := true, warnCount := st.warnCount + 1 }
                else st
              | none => st).materials = st.materials := by
          cases alookup st.best_image t.candidate.nameOf with
          | none => rfl
          | some img =>
            dsimp only
            by_cases hc : img ≠ t.image ∧ ¬st.warned = true
            · rw [if_pos hc]
            · rw [if_neg hc]
        rw [hsame] at hrel
        exact hrel
      exact matsRel_trans hmid (processTuples_matsRel env cfg docdir ls rest st2 st' h3)

theorem mutateJob_shape {env : Env} {cfg : Config} {docdir : FsPath}
    {st : MState} {j : Job} {st' : MState}
    (h : mutateJob env cfg docdir st j = .ok st') :
    (st'.heightmaps_added = st.heightmaps_added ++ [j] ∧ st'.had_changes = true) ∨
    (st'.heightmaps_added = st.heightmaps_added ∧ st'.images = st.images ∧
      st'.textures = st.textures ∧ st'.had_changes = st.had_changes ∧
      st'.added_texture_map = st.added_texture_map ∧
      MatsRel st.materials st'.materials) := by
  simp only [mutateJob, exceptBind_ok_iff] at h
  obtain ⟨pass, hpass, h2⟩ := h
  by_cases hp : pass
  · rw [if_neg (by simpa using hp)] at h2
    split at h2
    · injection h2 with hX
      rw [← hX]
      exact Or.inr ⟨rfl, rfl, rfl, rfl, rfl, matsRel_ensure _ _⟩
    next hnd =>
      rcases hal : alookup st.added_texture_map j.heightmap.nameOf with _ | t
      · rw [hal] at h2
        simp only [exceptBind_ok_iff] at h2
        obtain ⟨rel, hrel, y, hy, h3⟩ := h2
        injection hy with hy
        injection h3 with h3
        rw [← h3, ← hy]
        exact Or.inl ⟨rfl, rfl⟩
      · rw [hal] at h2
        simp only [exceptBind_ok_iff] at h2
        obtain ⟨y, hy, h3⟩ := h2
        injection hy with hy
        injection h3 with h3
        rw [← h3, ← hy]
        exact Or.inl ⟨rfl, rfl⟩
  · rw [if_pos (by simpa using hp)] at h2
    injection h2 with hX
    rw [← hX]
    exact Or.inr ⟨rfl, rfl, rfl, rfl, rfl, matsRel_refl _⟩

theorem mutateJobs_added_extends {env : Env} {cfg : Config} {docdir : FsPath} :
    ∀ {jobs : List Job} {st st' : MState},
    mutateJobs env cfg docdir jobs st = .ok st' →
    ∃ suf, st'.heightmaps_added = st.heightmaps_added ++ suf
  | [], st, st', h => by
    simp only [mutateJobs, Except.ok.injEq] at h
    subst h
    exact ⟨[], by simp⟩
  | j :: rest, st, st', h => by
    simp only [mutateJobs, exceptBind_ok_iff] at h
    obtain ⟨st2, hj, h2⟩ := h
    obtain ⟨suf, hsuf⟩ := mutateJobs_added_extends h2
    rcases mutateJob_shape hj with ⟨ha, _⟩ | ⟨ha, _⟩
    · exact ⟨[j] ++ suf, by rw [hsuf, ha, List.append_assoc]⟩
    · exact ⟨suf, by rw [hsuf, ha]⟩

theorem mutateJobs_no_realized {env : Env} {cfg : Config} {docdir : FsPath} :
    ∀ {jobs : List Job} {st st' : MState},
    mutateJobs env cfg docdir jobs st = .ok st' →
    st'.heightmaps_added = st.heightmaps_added →
    st'.images = st.images ∧ st'.textures = st.textures ∧
    st'.had_changes = st.had_changes ∧ MatsRel st.materials st'.materials
  | [], st, st', h, _ => by
    simp only [mutateJobs, Except.ok.injEq] at h
    subst h
    exact ⟨rfl, rfl, rfl, matsRel_refl _⟩
  | j :: rest, st, st', h, hsame => by
    simp only [mutateJobs, exceptBind_ok_iff] at h
    obtain ⟨st2, hj, h2⟩ := h
    obtain ⟨suf, hsuf⟩ := mutateJobs_added_extends h2
    rcases mutateJob_shape hj with ⟨ha, _⟩ | ⟨ha, hi, ht, hc, _, hm⟩
    · exfalso
      rw [hsuf, ha, List.append_assoc] at hsame
      have : st.heightmaps_added.length = (st.heightmaps_added ++ ([j] ++ suf)).length := by
        rw [hsame]
      simp at this
    · have hrec := mutateJobs_no_realized h2 (hsame.trans ha.symm)
      exact ⟨hrec.1.trans hi, hrec.2.1.trans ht, hrec.2.2.1.trans hc,
        matsRel_trans hm hrec.2.2.2⟩

/-- C8 (amended): stages 1–3 build only transient data, and the only document
mutation stages 1–4 ever perform is the greedy assigner's insertion of an
empty `extensions` map into materials it visits (the counterexample shows
this insertion is real).  Only stage 5 appends to the `images` and `textures`
arrays and writes extension blocks, so a run without a template that realizes
no assignment leaves the document unchanged except that some materials may
have gained an empty `extensions` map, and reports no changes. -/
theorem C8_stage_purity_up_to_extensions_map {env : Env} {cfg : Config}
    {listdir : FsPath → List String} {docdir : FsPath} {base : List String}
    {doc : Document} {out : RunOut}
    (h : runDoc env cfg listdir docdir base doc = .ok out)
    (hcf : cfg.copy_from = none)
    (hreal : out.heightmaps_added = []) :
    out.doc.images = doc.images ∧ out.doc.textures = doc.textures ∧
    out.had_changes = false ∧ MatsRel doc.materials out.doc.materials := by
  obtain ⟨ms, ast, mst, hms, hast, hmst, hout⟩ := runDoc_ok_inv h
  rcases hout with ⟨_, ho⟩ | ⟨tmpl, copied, hsome, _, _⟩
  · subst ho
    simp only at hreal
    have hfix := mutateJobs_no_realized hmst (by rw [hreal])
    have hasg := processTuples_matsRel _ _ _ _ _ _ _ hast
    exact ⟨hfix.1, hfix.2.1, hfix.2.2.1,
      matsRel_trans hasg hfix.2.2.2⟩
  · rw [hcf] at hsome
    cases hsome

theorem C8_stage_purity_up_to_extensions_map_witness :
    runDoc envA { cfgA with filter_out := ["Wood"] } listdirA ["root"]
        imageSuffixesInit docA =
      .ok ⟨⟨docA.images, docA.textures, [{ woodMat with extensions := some ⟨none⟩ }]⟩,
           false, [],
           [⟨0, "Wood", ["root", "color_height.png"], ["root", "color.png"], 0⟩],
           0, imageSuffixesInit⟩ ∧
    (⟨⟨docA.images, docA.textures, [{ woodMat with extensions := some ⟨none⟩ }]⟩,
       false, [],
       [⟨0, "Wood", ["root", "color_height.png"], ["root", "color.png"], 0⟩],
       0, imageSuffixesInit⟩ : RunOut).had_changes = false := by
  have hrun : runDoc envA { cfgA with filter_out := ["Wood"] } listdirA ["root"]
      imageSuffixesInit docA =
      .ok ⟨⟨docA.images, docA.textures, [{ woodMat with extensions := some ⟨none⟩ }]⟩,
           false, [],
           [⟨0, "Wood", ["root", "color_height.png"], ["root", "color.png"], 0⟩],
           0, imageSuffixesInit⟩ := rfl
  exact ⟨hrun, (C8_stage_purity_up_to_extensions_map hrun rfl rfl).2.2.1⟩

/-! ### Claim C9 -/

def doc1 : Document :=
  { images := [⟨some "x.tga", some "x.tga"⟩], textures := [], materials := [] }

def doc2 : Document :=
  { images := [⟨some "a.png", some "a.png"⟩]
    textures := [⟨0, 0⟩]
    materials := [⟨"Mat",
      [("pbrMetallicRoughness", .group [("baseColorTexture", .wrap [("index", .num 0)])])],
      none⟩] }

def listdir9 : FsPath → List String :=
  fun d => if d = ["two"] then ["a.png", "h_height.tga"] else []

def cfgMMO : Config := { cfgA with match_materials_only := true }

/-- A document whose only image is referenced by no texture: its graph loop
runs but never executes the `sampler_id` assignment of line 153. -/
def docM : Document :=
  { images := [⟨some "m.png", some "m.png"⟩], textures := [], materials := [woodMat] }

def listdirM : FsPath → List String :=
  fun d => if d = ["m"] then ["m.png", "z_height.png"]
    else if d = ["root"] then ["color.png", "color_height.png"] else []

/-- C9 (counterexample): two pieces of module-level state leak from one
document into the next.  (1) The global `imageSuffixes` set: processing
`doc2` first finds no candidate (`.tga` is not a known suffix) and changes
nothing; processing it after `doc1` — whose only image has suffix `.tga` —
the same document yields the candidate `h_height.tga` and a mutation.
(2) The graph loop's variable `sampler_id`: under `--match-materials-only`,
`docM` (no textured image, so its own graph loop never assigns the variable)
crashes with `NameError` at line 231 when processed first, but processed
after `docA` it succeeds and records its assignment with `docA`'s sampler 0.
So candidate sets, scores, assignments — and even success — are not
independent of the preceding documents. -/
theorem C9_suffix_state_leaks_across_documents :
    (runBatch envA cfgA listdir9 [(["two"], doc2)] imageSuffixesInit none).map
      (fun outs => outs.map (·.had_changes)) = .ok [false] ∧
    (runBatch envA cfgA listdir9 [(["one"], doc1), (["two"], doc2)]
        imageSuffixesInit none).map
      (fun outs => outs.map (·.had_changes)) = .ok [false, true] ∧
    (docPre envA cfgA listdir9 ["two"] imageSuffixesInit doc2).candidates = [] ∧
    (docPre envA cfgA listdir9 ["two"] (imageSuffixesInit ++ [".tga"]) doc2).candidates =
      [["two", "h_height.tga"]] ∧
    runBatch envA cfgMMO listdirM [(["m"], docM)] imageSuffixesInit none = .error () ∧
    (runBatch envA cfgMMO listdirM [(["root"], docA), (["m"], docM)]
        imageSuffixesInit none).map
      (fun outs => outs.map (fun o => (o.had_changes, o.heightmaps_added.map (·.sampler)))) =
      .ok [(true, [0]), (true, [0])] :=
  ⟨rfl, rfl, rfl, rfl, rfl, rfl⟩

theorem discoverInner_congr (env : Env) (cfg : Config) (dir : FsPath)
    (S1 S2 : List String) (images : List FsPath) :
    ∀ (files : List String) (acc : List FsPath),
    (∀ f ∈ files, ((dir.join [f]).suffixOf ∈ S1 ↔ (dir.join [f]).suffixOf ∈ S2)) →
    files.foldl (fun acc2 file =>
      if (dir.join [file]).suffixOf ∈ S1 ∧ dir.join [file] ∉ images ∧
          heightmapishName env cfg file
      then addNew acc2 (dir.join [file]) else acc2) acc =
    files.foldl (fun acc2 file =>
      if (dir.join [file]).suffixOf ∈ S2 ∧ dir.join [file] ∉ images ∧
          heightmapishName env cfg file
      then addNew acc2 (dir.join [file]) else acc2) acc
  | [], acc, _ => rfl
  | f :: rest, acc, hf => by
    rw [List.foldl_cons, List.foldl_cons]
    have hstep :
        (if (dir.join [f]).suffixOf ∈ S1 ∧ dir.join [f] ∉ images ∧
            heightmapishName env cfg f
         then addNew acc (dir.join [f]) else acc) =
        (if (dir.join [f]).suffixOf ∈ S2 ∧ dir.join [f] ∉ images ∧
            heightmapishName env cfg f
         then addNew acc (dir.join [f]) else acc) := by
      refine if_congr ?_ rfl rfl
      rw [hf f (by simp)]
    rw [hstep]
    exact discoverInner_congr env cfg dir S1 S2 images rest _
      (fun g hg => hf g (by simp [hg]))

theorem discoverCandidates_suffix_congr (env : Env) (cfg : Config)
    (listdir : FsPath → List String) (S1 S2 : List String) (images : List FsPath) :
    ∀ (dirs : List FsPath) (acc : List FsPath),
    (∀ dir ∈ dirs, ∀ f ∈ listdir dir,
      ((dir.join [f]).suffixOf ∈ S1 ↔ (dir.join [f]).suffixOf ∈ S2)) →
    dirs.foldl (fun acc dir =>
      (listdir dir).foldl (fun acc2 file =>
        let candidate := dir.join [file]
        if candidate.suffixOf ∈ S1 ∧ candidate ∉ images ∧ heightmapishName env cfg file
        then addNew acc2 candidate else acc2) acc) acc =
    dirs.foldl (fun acc dir =>
      (listdir dir).foldl (fun acc2 file =>
        let candidate := dir.join [file]
        if candidate.suffixOf ∈ S2 ∧ candidate ∉ images ∧ heightmapishName env cfg file
        then addNew acc2 candidate else acc2) acc) acc
  | [], acc, _ => rfl
  | dir :: rest, acc, h => by
    rw [List.foldl_cons, List.foldl_cons]
    rw [discoverInner_congr env cfg dir S1 S2 images (listdir dir) acc
      (fun f hf => h dir (by simp) f hf)]
    exact discoverCandidates_suffix_congr env cfg listdir S1 S2 images rest _
      (fun d hd f hf => h d (by simp [hd]) f hf)

theorem runDocWithPre_suffixes (env : Env) (cfg : Config) (docdir : FsPath)
    (pre : PreData) (S : List String) (doc : Document) :
    runDocWithPre env cfg docdir { pre with suffixes := S } doc =
    (runDocWithPre env cfg docdir pre doc).map (fun o => { o with suffixes := S }) := by
  rw [runDocWithPre, runDocWithPre]
  cases hms : buildMatches env cfg docdir pre.candidates pre.graph doc.materials with
  | error e => simp [hms, Bind.bind, Except.bind, Except.map]
  | ok ms =>
    simp only [Bind.bind, Except.bind]
    cases hast : processTuples env cfg docdir pre.lastSampler (sortMatchesDesc ms)
        ⟨doc.materials, [], [], [], false, 0⟩ with
    | error e => simp [hast, Except.map]
    | ok ast =>
      cases hmst : mutateJobs env cfg docdir ast.unlinked_heightmaps
          ⟨doc.images, doc.textures, ast.materials, [], [], false⟩ with
      | error e => simp [hast, hmst, Except.map]
      | ok mst =>
        cases hcf : cfg.copy_from with
        | none => simp [hast, hmst, hcf, Except.map]
        | some tmpl =>
          cases hcp : copyPass env cfg tmpl mst.materials with
          | error e => simp [hast, hmst, hcf, hcp, Bind.bind, Except.bind, Except.map]
          | ok copied => simp [hast, hmst, hcf, hcp, Bind.bind, Except.bind, Except.map]

/-- C9 (amended): the mutable state carried from one document to the next is
exactly the pair of the global `imageSuffixes` set and the graph loop's
`sampler_id` variable (besides the read-only configuration and template).
Whenever the carried suffix set unlocks no file in this document's search
directories beyond what a fresh run would admit, and the carried sampler is
masked — because this document's own graph loop re-assigns `sampler_id`, or
nothing was carried — processing the document later in a batch yields exactly
the first-document candidates and run output, up to the recorded suffix set
itself. -/
theorem C9_only_suffixes_and_sampler_carry_over {env : Env} {cfg : Config}
    {listdir : FsPath → List String} {docdir : FsPath} {doc : Document}
    (carried : List String) (samp : Option Int)
    (hbase : ∀ s ∈ imageSuffixesInit, s ∈ carried)
    (hnoextra : ∀ dir ∈ (docPre env cfg listdir docdir imageSuffixesInit doc).dirs,
      ∀ f ∈ listdir dir,
        (FsPath.join dir [f]).suffixOf ∈
          suffixesAfter carried (registerImages docdir doc.images) →
        (FsPath.join dir [f]).suffixOf ∈
          (docPre env cfg listdir docdir imageSuffixesInit doc).suffixes)
    (hsamp : (docPre env cfg listdir docdir imageSuffixesInit doc).lastSampler ≠ none ∨
      samp = none) :
    (docPre env cfg listdir docdir carried doc).candidates =
      (docPre env cfg listdir docdir imageSuffixesInit doc).candidates ∧
    runDocState env cfg listdir docdir carried samp doc =
      (runDoc env cfg listdir docdir imageSuffixesInit doc).map
        (fun o => { o with
          suffixes := suffixesAfter carried (registerImages docdir doc.images) }) := by
  have hiff : ∀ dir ∈ (docPre env cfg listdir docdir imageSuffixesInit doc).dirs,
      ∀ f ∈ listdir dir,
      ((FsPath.join dir [f]).suffixOf ∈
          suffixesAfter carried (registerImages docdir doc.images) ↔
        (FsPath.join dir [f]).suffixOf ∈
          suffixesAfter imageSuffixesInit (registerImages docdir doc.images)) := by
    intro dir hdir f hf
    constructor
    · exact hnoextra dir hdir f hf
    · intro hmem
      rw [suffixesAfter] at hmem ⊢
      rw [mem_foldl_addNew (fun p : Nat × FsPath => p.2.suffixOf)] at hmem ⊢
      rcases hmem with hmem | hmem
      · exact Or.inl (hbase _ hmem)
      · exact Or.inr hmem
  have hcand : (docPre env cfg listdir docdir carried doc).candidates =
      (docPre env cfg listdir docdir imageSuffixesInit doc).candidates := by
    simp only [docPre, discoverCandidates]
    exact discoverCandidates_suffix_congr env cfg listdir _ _ _ _ [] (by
      intro dir hdir f hf
      exact hiff dir (by simpa only [docPre] using hdir) f hf)
  refine ⟨hcand, ?_⟩
  have hpre : docPre env cfg listdir docdir carried doc =
      { docPre env cfg listdir docdir imageSuffixesInit doc with
        suffixes := suffixesAfter carried (registerImages docdir doc.images) } := by
    have h2 := hcand
    simp only [docPre] at h2 ⊢
    rw [h2]
  have hsampeq : carrySampler samp (docPre env cfg listdir docdir carried doc).lastSampler =
      (docPre env cfg listdir docdir carried doc).lastSampler := by
    rcases hsamp with h | rfl
    · have hls : (docPre env cfg listdir docdir carried doc).lastSampler =
          (docPre env cfg listdir docdir imageSuffixesInit doc).lastSampler := rfl
      rw [hls]
      cases hg : (docPre env cfg listdir docdir imageSuffixesInit doc).lastSampler with
      | none => exact absurd hg h
      | some s => rfl
    · exact carrySampler_none _
  have hpre2 : { docPre env cfg listdir docdir carried doc with
      lastSampler := carrySampler samp (docPre env cfg listdir docdir carried doc).lastSampler } =
      { docPre env cfg listdir docdir imageSuffixesInit doc with
        suffixes := suffixesAfter carried (registerImages docdir doc.images) } := by
    rw [hsampeq, hpre]
  simp only [runDocState]
  rw [hpre2, runDoc, runDocWithPre_suffixes]

def carriedTga : List String := imageSuffixesInit ++ [".tga"]

def suffixesWitness : List String :=
  suffixesAfter carriedTga (registerImages ["root"] docA.images)

theorem C9_only_suffixes_and_sampler_carry_over_witness :
    (docPre envA cfgA listdirA ["root"] carriedTga docA).candidates =
      (docPre envA cfgA listdirA ["root"] imageSuffixesInit docA).candidates ∧
    runDocState envA cfgA listdirA ["root"] carriedTga (some 7) docA =
      (runDoc envA cfgA listdirA ["root"] imageSuffixesInit docA).map
        (fun o => { o with suffixes := suffixesWitness }) :=
  C9_only_suffixes_and_sampler_carry_over carriedTga (some 7) (by decide) (by decide)
    (Or.inl (by decide))

/-! ### Claim C7: order theory for the match sort

`matchLeB` is the Python tuple comparison `sorted(matches)` uses.  It is
total; on tuples whose score denominators are positive it is transitive; and
two tuples below each other agree on candidate, image and material ids, so on
the scorer's output — where the score is a function of those components — it
is antisymmetric. -/

theorem nat_ble_total {x y : Nat} (h : Nat.ble x y = false) : Nat.ble y x = true := by
  have h1 : ¬ x ≤ y := by rw [← Nat.ble_eq]; simp [h]
  rw [Nat.ble_eq]
  omega

theorem nat_ble_antisymm {x y : Nat} (h1 : Nat.ble x y = true) (h2 : Nat.ble y x = true) :
    x = y := by
  rw [Nat.ble_eq] at h1 h2
  omega

theorem nat_ble_trans {x y z : Nat} (h1 : Nat.ble x y = true) (h2 : Nat.ble y z = true) :
    Nat.ble x z = true := by
  rw [Nat.ble_eq] at h1 h2 ⊢
  omega

theorem charLeB_total {a b : Char} (h : charLeB a b = false) : charLeB b a = true :=
  nat_ble_total h

theorem charLeB_antisymm {a b : Char} (h1 : charLeB a b = true)
    (h2 : charLeB b a = true) : a = b := by
  simp only [charLeB, Nat.ble_eq] at h1 h2
  exact Char.eq_of_val_eq (UInt32.ext (Nat.le_antisymm h1 h2))

theorem charLeB_trans {a b c : Char} (h1 : charLeB a b = true)
    (h2 : charLeB b c = true) : charLeB a c = true :=
  nat_ble_trans h1 h2

theorem chLeB_total : ∀ {a b : List Char}, chLeB a b = false → chLeB b a = true
  | [], _, h => by simp [chLeB] at h
  | _ :: _, [], _ => rfl
  | x :: xs, y :: ys, h => by
    simp only [chLeB] at h ⊢
    by_cases hxy : x = y
    · subst hxy
      rw [if_pos rfl] at h ⊢
      exact chLeB_total h
    · rw [if_neg hxy] at h
      rw [if_neg (fun hyx => hxy hyx.symm)]
      exact charLeB_total h

theorem chLeB_antisymm : ∀ {a b : List Char}, chLeB a b = true → chLeB b a = true → a = b
  | [], [], _, _ => rfl
  | [], _ :: _, _, h2 => by simp [chLeB] at h2
  | _ :: _, [], h1, _ => by simp [chLeB] at h1
  | x :: xs, y :: ys, h1, h2 => by
    simp only [chLeB] at h1 h2
    by_cases hxy : x = y
    · subst hxy
      rw [if_pos rfl] at h1 h2
      rw [chLeB_antisymm h1 h2]
    · rw [if_neg hxy] at h1
      rw [if_neg (fun hyx => hxy hyx.symm)] at h2
      exact absurd (charLeB_antisymm h1 h2) hxy

theorem chLeB_trans : ∀ {a b c : List Char}, chLeB a b = true → chLeB b c = true →
    chLeB a c = true
  | [], _, _, _, _ => rfl
  | _ :: _, [], _, h1, _ => by simp [chLeB] at h1
  | _ :: _, _ :: _, [], _, h2 => by simp [chLeB] at h2
  | x :: xs, y :: ys, z :: zs, h1, h2 => by
    simp only [chLeB] at h1 h2 ⊢
    by_cases hxy : x = y
    · subst hxy
      rw [if_pos rfl] at h1
      by_cases hxz : x = z
      · subst hxz
        rw [if_pos rfl] at h2 ⊢
        exact chLeB_trans h1 h2
      · rw [if_neg hxz] at h2 ⊢
        exact h2
    · rw [if_neg hxy] at h1
      by_cases hyz : y = z
      · subst hyz
        rw [if_pos rfl] at h2
        rw [if_neg hxy]
        exact h1
      · rw [if_neg hyz] at h2
        by_cases hxz : x = z
        · rw [← hxz] at h2
          exact absurd (charLeB_antisymm h1 h2) hxy
        · rw [if_neg hxz]
          exact charLeB_trans h1 h2

theorem strLeB_total {a b : String} (h : strLeB a b = false) : strLeB b a = true :=
  chLeB_total h

theorem strLeB_antisymm {a b : String} (h1 : strLeB a b = true)
    (h2 : strLeB b a = true) : a = b := by
  simp only [strLeB] at h1 h2
  cases a
  cases b
  exact congrArg String.mk (chLeB_antisymm h1 h2)

theorem strLeB_trans {a b c : String} (h1 : strLeB a b = true)
    (h2 : strLeB b c = true) : strLeB a c = true :=
  chLeB_trans h1 h2

theorem listLeB_total {α : Type} [DecidableEq α] {leB : α → α → Bool}
    (hTot : ∀ x y, leB x y = false → leB y x = true) :
    ∀ {a b : List α}, listLeB leB a b = false → listLeB leB b a = true
  | [], _, h => by simp [listLeB] at h
  | _ :: _, [], _ => rfl
  | x :: xs, y :: ys, h => by
    simp only [listLeB] at h ⊢
    by_cases hxy : x = y
    · subst hxy
      rw [if_pos rfl] at h ⊢
      exact listLeB_total hTot h
    · rw [if_neg hxy] at h
      rw [if_neg (fun hyx => hxy hyx.symm)]
      exact hTot x y h

theorem listLeB_antisymm {α : Type} [DecidableEq α] {leB : α → α → Bool}
    (hAnti : ∀ x y, leB x y = true → leB y x = true → x = y) :
    ∀ {a b : List α}, listLeB leB a b = true → listLeB leB b a = true → a = b
  | [], [], _, _ => rfl
  | [], _ :: _, _, h2 => by simp [listLeB] at h2
  | _ :: _, [], h1, _ => by simp [listLeB] at h1
  | x :: xs, y :: ys, h1, h2 => by
    simp only [listLeB] at h1 h2
    by_cases hxy : x = y
    · subst hxy
      rw [if_pos rfl] at h1 h2
      rw [listLeB_antisymm hAnti h1 h2]
    · rw [if_neg hxy] at h1
      rw [if_neg (fun hyx => hxy hyx.symm)] at h2
      exact absurd (hAnti x y h1 h2) hxy

theorem listLeB_trans {α : Type} [DecidableEq α] {leB : α → α → Bool}
    (hAnti : ∀ x y, leB x y = true → leB y x = true → x = y)
    (hTr : ∀ x y z, leB x y = true → leB y z = true → leB x z = true) :
    ∀ {a b c : List α}, listLeB leB a b = true → listLeB leB b c = true →
    listLeB leB a c = true
  | [], _, _, _, _ => rfl
  | _ :: _, [], _, h1, _ => by simp [listLeB] at h1
  | _ :: _, _ :: _, [], _, h2 => by simp [listLeB] at h2
  | x :: xs, y :: ys, z :: zs, h1, h2 => by
    simp only [listLeB] at h1 h2 ⊢
    by_cases hxy : x = y
    · subst hxy
      rw [if_pos rfl] at h1
      by_cases hxz : x = z
      · subst hxz
        rw [if_pos rfl] at h2 ⊢
        exact listLeB_trans hAnti hTr h1 h2
      · rw [if_neg hxz] at h2 ⊢
        exact h2
    · rw [if_neg hxy] at h1
      by_cases hyz : y = z
      · subst hyz
        rw [if_pos rfl] at h2
        rw [if_neg hxy]
        exact h1
      · rw [if_neg hyz] at h2
        by_cases hxz : x = z
        · rw [← hxz] at h2
          exact absurd (hAnti x y h1 h2) hxy
        · rw [if_neg hxz]
          exact hTr x y z h1 h2

theorem pathLeB_total {a b : FsPath} (h : pathLeB a b = false) : pathLeB b a = true :=
  listLeB_total (fun _ _ hf => strLeB_total hf) h

theorem pathLeB_antisymm {a b : FsPath} (h1 : pathLeB a b = true)
    (h2 : pathLeB b a = true) : a = b :=
  listLeB_antisymm (fun _ _ g1 g2 => strLeB_antisymm g1 g2) h1 h2

theorem pathLeB_trans {a b c : FsPath} (h1 : pathLeB a b = true)
    (h2 : pathLeB b c = true) : pathLeB a c = true :=
  listLeB_trans (fun _ _ g1 g2 => strLeB_antisymm g1 g2)
    (fun _ _ _ g1 g2 => strLeB_trans g1 g2) h1 h2

theorem natListLeB_total {a b : List Nat} (h : natListLeB a b = false) :
    natListLeB b a = true := by
  simp only [natListLeB] at h ⊢
  exact listLeB_total (fun _ _ hf => nat_ble_total hf) h

theorem natListLeB_antisymm {a b : List Nat} (h1 : natListLeB a b = true)
    (h2 : natListLeB b a = true) : a = b := by
  simp only [natListLeB] at h1 h2
  exact listLeB_antisymm (fun _ _ g1 g2 => nat_ble_antisymm g1 g2) h1 h2

theorem natListLeB_trans {a b c : List Nat} (h1 : natListLeB a b = true)
    (h2 : natListLeB b c = true) : natListLeB a c = true := by
  simp only [natListLeB] at h1 h2 ⊢
  exact listLeB_trans (fun _ _ g1 g2 => nat_ble_antisymm g1 g2)
    (fun _ _ _ g1 g2 => nat_ble_trans g1 g2) h1 h2

theorem fLtB_eq_of_not {a b : Frac} (h1 : fLtB a b = false) (h2 : fLtB b a = false) :
    a.num * b.den = b.num * a.den := by
  simp only [fLtB, decide_eq_false_iff_not] at h1 h2
  omega

theorem fLtB_trans_pos {a b c : Frac} (ha : 0 < a.den) (hb : 0 < b.den) (hc : 0 < c.den)
    (h1 : fLtB a b = true) (h2 : fLtB b c = true) : fLtB a c = true := by
  simp only [fLtB, decide_eq_true_eq] at h1 h2 ⊢
  nlinarith

theorem fLtB_lt_of_eq_lt {a b c : Frac} (ha : 0 < a.den) (hb : 0 < b.den) (hc : 0 < c.den)
    (h1 : a.num * b.den = b.num * a.den) (h2 : fLtB b c = true) : fLtB a c = true := by
  simp only [fLtB, decide_eq_true_eq] at h2 ⊢
  nlinarith

theorem fLtB_lt_of_lt_eq {a b c : Frac} (ha : 0 < a.den) (hb : 0 < b.den) (hc : 0 < c.den)
    (h1 : fLtB a b = true) (h2 : b.num * c.den = c.num * b.den) : fLtB a c = true := by
  simp only [fLtB, decide_eq_true_eq] at h1 ⊢
  nlinarith

theorem fcross_trans {a b c : Frac} (ha : 0 < a.den) (hb : 0 < b.den) (hc : 0 < c.den)
    (h1 : a.num * b.den = b.num * a.den) (h2 : b.num * c.den = c.num * b.den) :
    a.num * c.den = c.num * a.den := by
  nlinarith

theorem matchLeB_total : ∀ (x y : MatchTuple), matchLeB x y = false → matchLeB y x = true := by
  intro x y h
  simp only [matchLeB] at h ⊢
  by_cases h1 : fLtB x.score y.score = true
  · rw [if_pos h1] at h
    cases h
  · rw [if_neg h1] at h
    by_cases h2 : fLtB y.score x.score = true
    · rw [if_pos h2]
    · rw [if_neg h2] at h
      rw [if_neg h2, if_neg h1]
      by_cases hc : x.candidate = y.candidate
      · rw [if_pos hc] at h
        rw [if_pos hc.symm]
        by_cases hi : x.image = y.image
        · rw [if_pos hi] at h
          rw [if_pos hi.symm]
          exact natListLeB_total h
        · rw [if_neg hi] at h
          rw [if_neg (fun he => hi he.symm)]
          exact pathLeB_total h
      · rw [if_neg hc] at h
        rw [if_neg (fun he => hc he.symm)]
        exact pathLeB_total h

theorem matchLeB_trans_pos {x y z : MatchTuple} (hx : 0 < x.score.den)
    (hy : 0 < y.score.den) (hz : 0 < z.score.den) (h1 : matchLeB x y = true)
    (h2 : matchLeB y z = true) : matchLeB x z = true := by
  simp only [matchLeB] at h1 h2 ⊢
  by_cases a1 : fLtB x.score y.score = true
  · by_cases a2 : fLtB y.score z.score = true
    · rw [if_pos (fLtB_trans_pos hx hy hz a1 a2)]
    · rw [if_neg a2] at h2
      by_cases a3 : fLtB z.score y.score = true
      · rw [if_pos a3] at h2
        cases h2
      · have he := fLtB_eq_of_not (Bool.not_eq_true _ ▸ a2) (Bool.not_eq_true _ ▸ a3)
        rw [if_pos (fLtB_lt_of_lt_eq hx hy hz a1 he)]
  · rw [if_neg a1] at h1
    by_cases a0 : fLtB y.score x.score = true
    · rw [if_pos a0] at h1
      cases h1
    · rw [if_neg a0] at h1
      have hexy := fLtB_eq_of_not (Bool.not_eq_true _ ▸ a1) (Bool.not_eq_true _ ▸ a0)
      by_cases a2 : fLtB y.score z.score = true
      · rw [if_pos (fLtB_lt_of_eq_lt hx hy hz hexy a2)]
      · rw [if_neg a2] at h2
        by_cases a3 : fLtB z.score y.score = true
        · rw [if_pos a3] at h2
          cases h2
        · rw [if_neg a3] at h2
          have heyz := fLtB_eq_of_not (Bool.not_eq_true _ ▸ a2) (Bool.not_eq_true _ ▸ a3)
          have hexz := fcross_trans hx hy hz hexy heyz
          have b1 : ¬ fLtB x.score z.score = true := by
            simp only [fLtB, decide_eq_true_eq]
            omega
          have b2 : ¬ fLtB z.score x.score = true := by
            simp only [fLtB, decide_eq_true_eq]
            omega
          rw [if_neg b1, if_neg b2]
          by_cases hc1 : x.candidate = y.candidate
          · rw [if_pos hc1] at h1
            by_cases hc2 : y.candidate = z.candidate
            · rw [if_pos hc2] at h2
              rw [if_pos (hc1.trans hc2)]
              by_cases hi1 : x.image = y.image
              · rw [if_pos hi1] at h1
                by_cases hi2 : y.image = z.image
                · rw [if_pos hi2] at h2
                  rw [if_pos (hi1.trans hi2)]
                  exact natListLeB_trans h1 h2
                · rw [if_neg hi2] at h2
                  rw [if_neg (fun he => hi2 (hi1 ▸ he)), hi1]
                  exact h2
              · rw [if_neg hi1] at h1
                by_cases hi2 : y.image = z.image
                · rw [if_pos hi2] at h2
                  rw [if_neg (fun he => hi1 (he.trans hi2.symm)), ← hi2]
                  exact h1
                · rw [if_neg hi2] at h2
                  by_cases hixz : x.image = z.image
                  · rw [← hixz] at h2
                    exact absurd (pathLeB_antisymm h1 h2) hi1
                  · rw [if_neg hixz]
                    exact pathLeB_trans h1 h2
            · rw [if_neg hc2] at h2
              rw [if_neg (fun he => hc2 (hc1 ▸ he)), hc1]
              exact h2
          · rw [if_neg hc1] at h1
            by_cases hc2 : y.candidate = z.candidate
            · rw [if_pos hc2] at h2
              rw [if_neg (fun he => hc1 (he.trans hc2.symm)), ← hc2]
              exact h1
            · rw [if_neg hc2] at h2
              by_cases hcxz : x.candidate = z.candidate
              · rw [← hcxz] at h2
                exact absurd (pathLeB_antisymm h1 h2) hc1
              · rw [if_neg hcxz]
                exact pathLeB_trans h1 h2

theorem matchLeB_antisymm_components {x y : MatchTuple} (h1 : matchLeB x y = true)
    (h2 : matchLeB y x = true) :
    x.candidate = y.candidate ∧ x.image = y.image ∧ x.material_ids = y.material_ids := by
  simp only [matchLeB] at h1 h2
  by_cases a1 : fLtB x.score y.score = true
  · rw [if_neg (fun hh => by rw [fLtB_asymm a1] at hh; cases hh), if_pos a1] at h2
    cases h2
  · rw [if_neg a1] at h1
    by_cases a2 : fLtB y.score x.score = true
    · rw [if_pos a2] at h1
      cases h1
    · rw [if_neg a2] at h1
      rw [if_neg a2, if_neg a1] at h2
      by_cases hc : x.candidate = y.candidate
      · rw [if_pos hc] at h1
        rw [if_pos hc.symm] at h2
        refine ⟨hc, ?_⟩
        by_cases hi : x.image = y.image
        · rw [if_pos hi] at h1
          rw [if_pos hi.symm] at h2
          exact ⟨hi, natListLeB_antisymm h1 h2⟩
        · rw [if_neg hi] at h1
          rw [if_neg (fun he => hi he.symm)] at h2
          exact absurd (pathLeB_antisymm h1 h2) hi
      · rw [if_neg hc] at h1
        rw [if_neg (fun he => hc he.symm)] at h2
        exact absurd (pathLeB_antisymm h1 h2) hc

theorem insertSorted_pairwise_mem {α : Type} {leB : α → α → Bool} {P : α → Prop}
    (total : ∀ x y, leB x y = false → leB y x = true)
    (tr : ∀ x y z, P x → P y → P z → leB x y = true → leB y z = true → leB x z = true)
    {a : α} {l : List α} (hPa : P a) (hPl : ∀ x ∈ l, P x)
    (h : l.Pairwise (fun x y => leB x y = true)) :
    (insertSorted leB a l).Pairwise (fun x y => leB x y = true) := by
  induction l with
  | nil => simp [insertSorted]
  | cons b t ih =>
    rcases h with _ | ⟨hb, ht⟩
    have hPb : P b := hPl b (by simp)
    have hPt : ∀ x ∈ t, P x := fun x hx => hPl x (List.mem_cons_of_mem _ hx)
    by_cases hab : leB a b = true
    · simp only [insertSorted, hab, if_true]
      refine List.pairwise_cons.2 ⟨?_, List.pairwise_cons.2 ⟨hb, ht⟩⟩
      intro x hx
      rcases List.mem_cons.1 hx with rfl | hx
      · exact hab
      · exact tr a b x hPa hPb (hPt x hx) hab (hb x hx)
    · simp only [insertSorted, hab, if_false]
      refine List.pairwise_cons.2 ⟨?_, ih hPt ht⟩
      intro x hx
      rcases List.mem_cons.1 ((insertSorted_perm leB a t).mem_iff.1 hx) with hx3 | hx3
      · rw [hx3]
        exact total a b (by simpa using hab)
      · exact hb x hx3

theorem isort_pairwise_mem {α : Type} {leB : α → α → Bool} {P : α → Prop}
    (total : ∀ x y, leB x y = false → leB y x = true)
    (tr : ∀ x y z, P x → P y → P z → leB x y = true → leB y z = true → leB x z = true) :
    ∀ {l : List α}, (∀ x ∈ l, P x) →
    (isort leB l).Pairwise (fun x y => leB x y = true)
  | [], _ => by simp [isort]
  | a :: t, hP => by
    simp only [isort]
    exact insertSorted_pairwise_mem total tr (hP a (by simp))
      (fun x hx => hP x (List.mem_cons_of_mem _ (mem_isort.1 hx)))
      (isort_pairwise_mem total tr (fun x hx => hP x (List.mem_cons_of_mem _ hx)))

/-! ### Claim C7: the candidate set under a reordered directory listing -/

/-- The body of the candidate-discovery loop for one directory entry. -/
def discInner (env : Env) (cfg : Config) (suffixes : List String) (images : List FsPath)
    (dir : FsPath) (acc2 : List FsPath) (file : String) : List FsPath :=
  if (FsPath.join dir [file]).suffixOf ∈ suffixes ∧ FsPath.join dir [file] ∉ images ∧
      heightmapishName env cfg file
  then addNew acc2 (FsPath.join dir [file]) else acc2

theorem discoverCandidates_eq (env : Env) (cfg : Config) (listdir : FsPath → List String)
    (dirs : List FsPath) (suffixes : List String) (images : List FsPath) :
    discoverCandidates env cfg listdir dirs suffixes images =
      dirs.foldl (fun acc dir =>
        (listdir dir).foldl (discInner env cfg suffixes images dir) acc) [] := rfl

theorem discInner_foldl_nodup (env : Env) (cfg : Config) (suffixes : List String)
    (images : List FsPath) (dir : FsPath) :
    ∀ (files : List String) (acc : List FsPath), acc.Nodup →
    (files.foldl (discInner env cfg suffixes images dir) acc).Nodup
  | [], _, hacc => hacc
  | f :: rest, acc, hacc => by
    rw [List.foldl_cons]
    refine discInner_foldl_nodup env cfg suffixes images dir rest _ ?_
    simp only [discInner]
    split
    · exact nodup_addNew _ hacc
    · exact hacc

theorem discOuter_foldl_nodup (env : Env) (cfg : Config) (listdir : FsPath → List String)
    (suffixes : List String) (images : List FsPath) :
    ∀ (dirs : List FsPath) (acc : List FsPath), acc.Nodup →
    (dirs.foldl (fun acc dir =>
      (listdir dir).foldl (discInner env cfg suffixes images dir) acc) acc).Nodup
  | [], _, hacc => hacc
  | d :: rest, acc, hacc => by
    rw [List.foldl_cons]
    exact discOuter_foldl_nodup env cfg listdir suffixes images rest _
      (discInner_foldl_nodup env cfg suffixes images d (listdir d) acc hacc)

theorem discoverCandidates_nodup (env : Env) (cfg : Config)
    (listdir : FsPath → List String) (dirs : List FsPath) (suffixes : List String)
    (images : List FsPath) :
    (discoverCandidates env cfg listdir dirs suffixes images).Nodup := by
  rw [discoverCandidates_eq]
  exact discOuter_foldl_nodup env cfg listdir suffixes images dirs [] List.nodup_nil

theorem mem_discInner_foldl (env : Env) (cfg : Config) (suffixes : List String)
    (images : List FsPath) (dir : FsPath) :
    ∀ (files : List String) (acc : List FsPath) (x : FsPath),
    (x ∈ files.foldl (discInner env cfg suffixes images dir) acc ↔
      x ∈ acc ∨ ∃ f ∈ files, x = FsPath.join dir [f] ∧
        (FsPath.join dir [f]).suffixOf ∈ suffixes ∧ FsPath.join dir [f] ∉ images ∧
        heightmapishName env cfg f = true)
  | [], acc, x => by simp
  | f :: rest, acc, x => by
    rw [List.foldl_cons]
    rw [mem_discInner_foldl env cfg suffixes images dir rest _ x]
    simp only [discInner]
    constructor
    · rintro (hx | ⟨g, hg, hxg, hcond⟩)
      · split at hx
        · next hcond =>
          rcases mem_addNew.1 hx with hx | rfl
          · exact Or.inl hx
          · exact Or.inr ⟨f, by simp, rfl, by simpa using hcond⟩
        · exact Or.inl hx
      · exact Or.inr ⟨g, List.mem_cons_of_mem _ hg, hxg, hcond⟩
    · rintro (hx | ⟨g, hg, hxg, hcond⟩)
      · left
        split
        · exact mem_addNew.2 (Or.inl hx)
        · exact hx
      · rcases List.mem_cons.1 hg with rfl | hg
        · left
          rw [if_pos (by simpa using hcond)]
          exact mem_addNew.2 (Or.inr hxg)
        · exact Or.inr ⟨g, hg, hxg, hcond⟩

theorem mem_discOuter_foldl (env : Env) (cfg : Config) (listdir : FsPath → List String)
    (suffixes : List String) (images : List FsPath) :
    ∀ (dirs : List FsPath) (acc : List FsPath) (x : FsPath),
    (x ∈ dirs.foldl (fun acc dir =>
        (listdir dir).foldl (discInner env cfg suffixes images dir) acc) acc ↔
      x ∈ acc ∨ ∃ d ∈ dirs, ∃ f ∈ listdir d, x = FsPath.join d [f] ∧
        (FsPath.join d [f]).suffixOf ∈ suffixes ∧ FsPath.join d [f] ∉ images ∧
        heightmapishName env cfg f = true)
  | [], acc, x => by simp
  | d :: rest, acc, x => by
    rw [List.foldl_cons]
    rw [mem_discOuter_foldl env cfg listdir suffixes images rest _ x]
    rw [mem_discInner_foldl env cfg suffixes images d (listdir d) acc x]
    constructor
    · rintro ((hx | ⟨f, hf, hrest⟩) | ⟨d2, hd2, f, hf, hrest⟩)
      · exact Or.inl hx
      · exact Or.inr ⟨d, by simp, f, hf, hrest⟩
      · exact Or.inr ⟨d2, List.mem_cons_of_mem _ hd2, f, hf, hrest⟩
    · rintro (hx | ⟨d2, hd2, f, hf, hrest⟩)
      · exact Or.inl (Or.inl hx)
      · rcases List.mem_cons.1 hd2 with rfl | hd2
        · exact Or.inl (Or.inr ⟨f, hf, hrest⟩)
        · exact Or.inr ⟨d2, hd2, f, hf, hrest⟩

theorem mem_discoverCandidates (env : Env) (cfg : Config)
    (listdir : FsPath → List String) (dirs : List FsPath) (suffixes : List String)
    (images : List FsPath) (x : FsPath) :
    x ∈ discoverCandidates env cfg listdir dirs suffixes images ↔
      ∃ d ∈ dirs, ∃ f ∈ listdir d, x = FsPath.join d [f] ∧
        (FsPath.join d [f]).suffixOf ∈ suffixes ∧ FsPath.join d [f] ∉ images ∧
        heightmapishName env cfg f = true := by
  rw [discoverCandidates_eq]
  rw [mem_discOuter_foldl env cfg listdir suffixes images dirs [] x]
  simp

theorem discoverCandidates_perm (env : Env) (cfg : Config)
    {listdir₁ listdir₂ : FsPath → List String}
    (hperm : ∀ d, (listdir₁ d).Perm (listdir₂ d)) (dirs : List FsPath)
    (suffixes : List String) (images : List FsPath) :
    (discoverCandidates env cfg listdir₁ dirs suffixes images).Perm
      (discoverCandidates env cfg listdir₂ dirs suffixes images) := by
  refine (List.perm_ext_iff_of_nodup
    (discoverCandidates_nodup env cfg listdir₁ dirs suffixes images)
    (discoverCandidates_nodup env cfg listdir₂ dirs suffixes images)).2 ?_
  intro x
  rw [mem_discoverCandidates, mem_discoverCandidates]
  constructor
  · rintro ⟨d, hd, f, hf, hrest⟩
    exact ⟨d, hd, f, (hperm d).mem_iff.1 hf, hrest⟩
  · rintro ⟨d, hd, f, hf, hrest⟩
    exact ⟨d, hd, f, (hperm d).mem_iff.2 hf, hrest⟩

/-! ### Claim C7: the match list as a function of the candidate set -/

/-- The block of tuples one candidate contributes (empty if scoring fails). -/
def blockOf (env : Env) (cfg : Config) (docdir : FsPath)
    (graph : List (FsPath × List Nat)) (materials : List Material) (c : FsPath) :
    List MatchTuple :=
  match matchesFor env cfg docdir c graph materials with
  | .ok b => b
  | .error _ => []

theorem buildMatches_elem_ok {env : Env} {cfg : Config} {docdir : FsPath}
    {graph : List (FsPath × List Nat)} {materials : List Material} :
    ∀ {cs : List FsPath} {ms : List MatchTuple},
    buildMatches env cfg docdir cs graph materials = .ok ms →
    ∀ c ∈ cs, ∃ b, matchesFor env cfg docdir c graph materials = .ok b
  | [], _, _ => by
    intro c hc
    cases hc
  | c0 :: rest, ms, h => by
    simp only [buildMatches, exceptBind_ok_iff] at h
    obtain ⟨block, hblock, tail, htail, h3⟩ := h
    intro c hc
    rcases List.mem_cons.1 hc with rfl | hc
    · exact ⟨block, hblock⟩
    · exact buildMatches_elem_ok htail c hc

theorem buildMatches_flatMap {env : Env} {cfg : Config} {docdir : FsPath}
    {graph : List (FsPath × List Nat)} {materials : List Material} :
    ∀ {cs : List FsPath} {ms : List MatchTuple},
    buildMatches env cfg docdir cs graph materials = .ok ms →
    ms = cs.flatMap (blockOf env cfg docdir graph materials)
  | [], ms, h => by
    simp only [buildMatches] at h
    injection h with h
    rw [← h]
    rfl
  | c0 :: rest, ms, h => by
    simp only [buildMatches, exceptBind_ok_iff] at h
    obtain ⟨block, hblock, tail, htail, h3⟩ := h
    injection h3 with h3
    rw [← h3, List.flatMap_cons, ← buildMatches_flatMap htail]
    have hb : blockOf env cfg docdir graph materials c0 = block := by
      simp only [blockOf, hblock]
    rw [hb]

theorem buildMatches_of_forall_ok {env : Env} {cfg : Config} {docdir : FsPath}
    {graph : List (FsPath × List Nat)} {materials : List Material} :
    ∀ (cs : List FsPath),
    (∀ c ∈ cs, ∃ b, matchesFor env cfg docdir c graph materials = .ok b) →
    buildMatches env cfg docdir cs graph materials =
      .ok (cs.flatMap (blockOf env cfg docdir graph materials))
  | [], _ => rfl
  | c0 :: rest, hok => by
    obtain ⟨b, hb⟩ := hok c0 (by simp)
    have htail := buildMatches_of_forall_ok rest
      (fun c hc => hok c (List.mem_cons_of_mem _ hc))
    simp only [buildMatches, hb, htail, List.flatMap_cons, Bind.bind, Except.bind]
    have hbo : blockOf env cfg docdir graph materials c0 = b := by
      simp only [blockOf, hb]
    rw [hbo]

/-! ### Claim C7: score denominators are positive -/

theorem heightmapMatchMetric_den_pos {env : Env} {cfg : Config} {docdir c img : FsPath}
    {names : List String} {s : Frac}
    (hr : ∀ a b, 0 < (env.ratio a b).den)
    (hw1 : 0 < cfg.image_name_weight.den) (hw2 : 0 < cfg.material_name_weight.den)
    (h : heightmapMatchMetric env cfg docdir c img names = .ok s) : 0 < s.den := by
  simp only [heightmapMatchMetric, exceptBind_ok_iff] at h
  obtain ⟨rel, hrel, irel, hirel, h2⟩ := h
  injection h2 with h2
  rw [← h2]
  simp only [Frac.add, Frac.mul, Frac.ofNat]
  have p1 := hr (env.reSub cfg.heightmap_regex (joinPath rel)) (joinPath irel)
  have p2 := hr (strToLower (env.reSub cfg.heightmap_regex (joinPath rel)))
    (strToLower (strJoinDollar names))
  positivity

/-! ### Claim C7: the run depends on the candidate set only through the
sorted match queue -/

theorem runDocWithPre_candidates_irrel (env : Env) (cfg : Config) (docdir : FsPath)
    (pre : PreData) (cand2 : List FsPath) (doc : Document) {ms1 ms2 : List MatchTuple}
    (hms1 : buildMatches env cfg docdir pre.candidates pre.graph doc.materials = .ok ms1)
    (hms2 : buildMatches env cfg docdir cand2 pre.graph doc.materials = .ok ms2)
    (hs : sortMatchesDesc ms2 = sortMatchesDesc ms1) :
    runDocWithPre env cfg docdir { pre with candidates := cand2 } doc =
      runDocWithPre env cfg docdir pre doc := by
  rw [runDocWithPre, runDocWithPre]
  simp only [hms1, hms2, Bind.bind, Except.bind, hs]

/-- C7: with a fixed document, fixed directory contents and fixed
configuration, the run is invariant under a reordering of the filesystem's
directory listings: the second listing yields the very same output — in
particular the same ordered assignment list — and the two score-tuple lists
are multiset-equal and sort to the same descending queue.  The hypotheses ask
that the similarity ratios and the configured weights are genuine float
values (positive denominators), which makes the Python tuple comparison
total and transitive, and on scorer output — whose score is a function of
the tuple's remaining components — antisymmetric, so `reversed(sorted(...))`
does not depend on the discovery order. -/
theorem C7_determinism_under_listing_order {env : Env} {cfg : Config}
    {ld1 ld2 : FsPath → List String} {docdir : FsPath} {base : List String}
    {doc : Document} {out : RunOut}
    (hperm : ∀ d, (ld1 d).Perm (ld2 d))
    (hr : ∀ a b, 0 < (env.ratio a b).den)
    (hw1 : 0 < cfg.image_name_weight.den) (hw2 : 0 < cfg.material_name_weight.den)
    (h1 : runDoc env cfg ld1 docdir base doc = .ok out) :
    runDoc env cfg ld2 docdir base doc = .ok out ∧
    ∃ ms1 ms2,
      buildMatches env cfg docdir (docPre env cfg ld1 docdir base doc).candidates
        (docPre env cfg ld1 docdir base doc).graph doc.materials = .ok ms1 ∧
      buildMatches env cfg docdir (docPre env cfg ld2 docdir base doc).candidates
        (docPre env cfg ld2 docdir base doc).graph doc.materials = .ok ms2 ∧
      ms1.Perm ms2 ∧ sortMatchesDesc ms1 = sortMatchesDesc ms2 := by
  have h1' := h1
  rw [runDoc] at h1'
  simp only [runDocWithPre, exceptBind_ok_iff] at h1'
  obtain ⟨ms1, hms1, hrest⟩ := h1'
  have hpre2 : docPre env cfg ld2 docdir base doc =
      { docPre env cfg ld1 docdir base doc with
        candidates := discoverCandidates env cfg ld2
          (docPre env cfg ld1 docdir base doc).dirs
          (docPre env cfg ld1 docdir base doc).suffixes
          (docPre env cfg ld1 docdir base doc).images } := rfl
  have hcperm : (docPre env cfg ld1 docdir base doc).candidates.Perm
      (docPre env cfg ld2 docdir base doc).candidates := by
    rw [hpre2]
    exact discoverCandidates_perm env cfg hperm _ _ _
  have hok2 : ∀ c ∈ (docPre env cfg ld2 docdir base doc).candidates,
      ∃ b, matchesFor env cfg docdir c (docPre env cfg ld1 docdir base doc).graph
        doc.materials = .ok b :=
    fun c hc => buildMatches_elem_ok hms1 c (hcperm.mem_iff.2 hc)
  have hms2 : buildMatches env cfg docdir (docPre env cfg ld2 docdir base doc).candidates
      (docPre env cfg ld1 docdir base doc).graph doc.materials =
      .ok ((docPre env cfg ld2 docdir base doc).candidates.flatMap
        (blockOf env cfg docdir (docPre env cfg ld1 docdir base doc).graph
          doc.materials)) :=
    buildMatches_of_forall_ok _ hok2
  have hmsperm : ms1.Perm ((docPre env cfg ld2 docdir base doc).candidates.flatMap
      (blockOf env cfg docdir (docPre env cfg ld1 docdir base doc).graph
        doc.materials)) := by
    rw [buildMatches_flatMap hms1]
    exact hcperm.flatMap_right _
  have hden1 : ∀ t ∈ ms1, 0 < t.score.den := fun t ht =>
    heightmapMatchMetric_den_pos hr hw1 hw2 (buildMatches_ok hms1 t ht).2.2
  have hden2 : ∀ t ∈ (docPre env cfg ld2 docdir base doc).candidates.flatMap
      (blockOf env cfg docdir (docPre env cfg ld1 docdir base doc).graph
        doc.materials), 0 < t.score.den := fun t ht =>
    heightmapMatchMetric_den_pos hr hw1 hw2 (buildMatches_ok hms2 t ht).2.2
  have hpair1 := isort_pairwise_mem matchLeB_total
    (fun x y z px py pz hxy hyz => matchLeB_trans_pos px py pz hxy hyz) hden1
  have hpair2 := isort_pairwise_mem matchLeB_total
    (fun x y z px py pz hxy hyz => matchLeB_trans_pos px py pz hxy hyz) hden2
  have hperm' := ((isort_perm matchLeB ms1).trans hmsperm).trans
    (isort_perm matchLeB ((docPre env cfg ld2 docdir base doc).candidates.flatMap
      (blockOf env cfg docdir (docPre env cfg ld1 docdir base doc).graph
        doc.materials))).symm
  have hanti : ∀ a ∈ isort matchLeB ms1, ∀ b ∈ isort matchLeB ms1,
      matchLeB a b = true → matchLeB b a = true → a = b := by
    intro a ha b hb hab hba
    have ha' := mem_isort.1 ha
    have hb' := mem_isort.1 hb
    obtain ⟨hc, hi, hm⟩ := matchLeB_antisymm_components hab hba
    have sa := (buildMatches_ok hms1 a ha').2.2
    have sb := (buildMatches_ok hms1 b hb').2.2
    rw [hc, hi, hm, sb] at sa
    injection sa with sa
    cases a
    cases b
    simp only [MatchTuple.mk.injEq]
    exact ⟨sa.symm, hc, hi, hm⟩
  have hsorteq : isort matchLeB ms1 =
      isort matchLeB ((docPre env cfg ld2 docdir base doc).candidates.flatMap
        (blockOf env cfg docdir (docPre env cfg ld1 docdir base doc).graph
          doc.materials)) :=
    sorted_perm_eq hperm' hpair1 hpair2 hanti
  have hs : sortMatchesDesc ms1 =
      sortMatchesDesc ((docPre env cfg ld2 docdir base doc).candidates.flatMap
        (blockOf env cfg docdir (docPre env cfg ld1 docdir base doc).graph
          doc.materials)) := by
    rw [sortMatchesDesc, sortMatchesDesc, hsorteq]
  have hrun2 : runDoc env cfg ld2 docdir base doc = runDoc env cfg ld1 docdir base doc := by
    rw [runDoc, runDoc, hpre2]
    exact runDocWithPre_candidates_irrel env cfg docdir _ _ doc hms1 hms2 hs.symm
  exact ⟨hrun2.trans h1, ms1, _, hms1, hms2, hmsperm, hs⟩

/-- `listdirA` with the directory entries returned in the opposite order. -/
def listdirA2 : FsPath → List String :=
  fun d => if d = ["root"] then ["color_height.png", "color.png"] else []

theorem C7_determinism_under_listing_order_witness :
    runDoc envA cfgA listdirA2 ["root"] imageSuffixesInit docA = .ok outA ∧
    ∃ ms1 ms2,
      buildMatches envA cfgA ["root"]
        (docPre envA cfgA listdirA ["root"] imageSuffixesInit docA).candidates
        (docPre envA cfgA listdirA ["root"] imageSuffixesInit docA).graph
        docA.materials = .ok ms1 ∧
      buildMatches envA cfgA ["root"]
        (docPre envA cfgA listdirA2 ["root"] imageSuffixesInit docA).candidates
        (docPre envA cfgA listdirA2 ["root"] imageSuffixesInit docA).graph
        docA.materials = .ok ms2 ∧
      ms1.Perm ms2 ∧ sortMatchesDesc ms1 = sortMatchesDesc ms2 :=
  C7_determinism_under_listing_order
    (fun d => by
      by_cases h : d = ["root"]
      · subst h
        simp only [listdirA, listdirA2, if_pos rfl]
        decide
      · simp only [listdirA, listdirA2, if_neg h]
        exact List.Perm.refl [])
    (fun a b => by
      simp only [envA]
      split <;> decide)
    (by decide) (by decide) runDocA_eq

/-! ### Claim C1 -/

def matE0 : Material :=
  ⟨"Red",
   [("pbrMetallicRoughness", .group [("baseColorTexture", .wrap [("index", .num 0)])])],
   none⟩

def matE1 : Material :=
  ⟨"Blue",
   [("pbrMetallicRoughness", .group [("baseColorTexture", .wrap [("index", .num 1)])])],
   none⟩

/-- Two images in distinct subdirectories, and a heightmap file of the same
basename `x_height.png` next to each of them. -/
def docE : Document :=
  { images := [⟨some "red.png", some "a/red.png"⟩, ⟨some "blue.png", some "b/blue.png"⟩]
    textures := [⟨5, 0⟩, ⟨7, 1⟩]
    materials := [matE0, matE1] }

def listdirE : FsPath → List String :=
  fun d =>
    if d = ["root", "a"] then ["red.png", "x_height.png"]
    else if d = ["root", "b"] then ["blue.png", "x_height.png"]
    else []

def jobE : Job :=
  ⟨1, "Blue", ["root", "b", "x_height.png"], ["root", "b", "blue.png"], 7⟩

/-- What the first run produces: only `Blue` is linked — the `b/` tuple sorts
first, binds the basename to `b/blue.png`, and `--match-one-image` then skips
every tuple naming a different image, leaving `Red` untouched. -/
def docE2 : Document :=
  { images := [⟨some "red.png", some "a/red.png"⟩, ⟨some "blue.png", some "b/blue.png"⟩,
               ⟨some "x_height.png", some "b/x_height.png"⟩]
    textures := [⟨5, 0⟩, ⟨7, 1⟩, ⟨7, 2⟩]
    materials := [matE0, { matE1 with extensions := some ⟨some ⟨⟨1, 1⟩, ⟨0, 1⟩, 2⟩⟩ }] }

def outE1 : RunOut := ⟨docE2, true, [jobE], [jobE], 0, imageSuffixesInit⟩

/-- C1 (counterexample): the pipeline is not idempotent.  With
`--match-one-image` set and two candidate files sharing a basename, the first
run links only material `Blue`; the unlinked `a/x_height.png` is still a
candidate of the second run, whose fresh `best_image` table no longer blocks
it, so the second run records a new assignment for `Red` and mutates the
already-processed document again (`had_changes` is true once more). -/
theorem C1_second_run_links_again :
    runDoc envA cfgMOI listdirE ["root"] imageSuffixesInit docE = .ok outE1 ∧
    (runDoc envA cfgMOI listdirE ["root"] imageSuffixesInit docE2).map
      (fun o => (o.had_changes, o.heightmaps_added.map (·.material_id))) =
      .ok (true, [0]) :=
  ⟨rfl, rfl⟩

/-! ### Claim C1: path components survive the URI round trip

A heightmap linked by the mutator is written back as a `/`-joined relative
URI; the next run's registration splits that URI again.  For component lists
whose entries are nonempty and slash-free the round trip is the identity. -/

/-- A path component a directory listing can actually produce: nonempty and
without a separator. -/
def cleanComp (s : String) : Bool := decide (s.data ≠ [] ∧ '/' ∉ s.data)

theorem splitOnChar_ne_nil (c : Char) : ∀ l, splitOnChar c l ≠ []
  | [] => by simp [splitOnChar]
  | a :: as => by
    simp only [splitOnChar]
    cases h : splitOnChar c as with
    | nil => simp
    | cons g gs =>
      dsimp only
      split <;> simp

theorem splitOnChar_cons_self (c : Char) (l : List Char) :
    splitOnChar c (c :: l) = [] :: splitOnChar c l := by
  simp only [splitOnChar]
  cases h : splitOnChar c l with
  | nil => exact absurd h (splitOnChar_ne_nil c l)
  | cons g gs =>
    dsimp only
    simp

theorem splitOnChar_append_no (c : Char) :
    ∀ (u v : List Char), c ∉ u → ∀ g gs, splitOnChar c v = g :: gs →
    splitOnChar c (u ++ v) = (u ++ g) :: gs
  | [], v, _ => by
    intro g gs h
    simpa using h
  | a :: u', v, hnotin => by
    intro g gs h
    have ha : a ≠ c := fun he => hnotin (he ▸ List.mem_cons_self a u')
    simp only [List.cons_append, splitOnChar, List.append_eq]
    rw [splitOnChar_append_no c u' v (fun hm => hnotin (List.mem_cons_of_mem a hm)) g gs h]
    dsimp only
    rw [if_neg ha]

theorem splitOnChar_no (c : Char) (u : List Char) (h : c ∉ u) : splitOnChar c u = [u] := by
  have h2 := splitOnChar_append_no c u [] h [] [] rfl
  simpa using h2

theorem mem_splitOnChar_not_mem (c : Char) :
    ∀ (l : List Char) (g : List Char), g ∈ splitOnChar c l → c ∉ g
  | [], g, hg => by
    simp only [splitOnChar, List.mem_singleton] at hg
    subst hg
    simp
  | a :: as, g, hg => by
    simp only [splitOnChar] at hg
    cases h : splitOnChar c as with
    | nil => exact absurd h (splitOnChar_ne_nil c as)
    | cons g0 gs =>
      rw [h] at hg
      dsimp only at hg
      by_cases hac : a = c
      · rw [if_pos hac] at hg
        rcases List.mem_cons.1 hg with rfl | hg
        · simp
        · exact mem_splitOnChar_not_mem c as g (h ▸ hg)
      · rw [if_neg hac] at hg
        rcases List.mem_cons.1 hg with rfl | hg
        · intro hc
          rcases List.mem_cons.1 hc with rfl | hc
          · exact hac rfl
          · exact mem_splitOnChar_not_mem c as g0 (h ▸ List.mem_cons_self g0 gs) hc
        · exact mem_splitOnChar_not_mem c as g (h ▸ List.mem_cons_of_mem g0 hg)

theorem splitUri_clean (u : String) : ∀ s ∈ splitUri u, cleanComp s = true := by
  intro s hs
  simp only [splitUri, List.mem_map, List.mem_filter] at hs
  obtain ⟨g, ⟨hg, hne⟩, rfl⟩ := hs
  simp only [cleanComp, decide_eq_true_eq]
  exact ⟨by simpa using hne, mem_splitOnChar_not_mem '/' u.data g hg⟩

theorem joinPath_data_cons (s r : String) (t : List String) :
    (joinPath (s :: r :: t)).data = s.data ++ '/' :: (joinPath (r :: t)).data := by
  simp [joinPath, List.intersperse]

theorem splitUri_joinPath : ∀ (l : List String), (∀ s ∈ l, cleanComp s = true) →
    splitUri (joinPath l) = l
  | [], _ => rfl
  | [s], h => by
    have hs := h s (by simp)
    simp only [cleanComp, decide_eq_true_eq] at hs
    show ((splitOnChar '/' (joinPath [s]).data).filter (· ≠ [])).map String.mk = [s]
    have hd : (joinPath [s]).data = s.data := by
      simp [joinPath]
    rw [hd, splitOnChar_no '/' s.data hs.2]
    simp [hs.1]
  | s :: r :: t, h => by
    have hs := h s (by simp)
    simp only [cleanComp, decide_eq_true_eq] at hs
    have ih := splitUri_joinPath (r :: t) (fun x hx => h x (List.mem_cons_of_mem s hx))
    show ((splitOnChar '/' (joinPath (s :: r :: t)).data).filter (· ≠ [])).map String.mk =
      s :: r :: t
    rw [joinPath_data_cons]
    rw [splitOnChar_append_no '/' s.data ('/' :: (joinPath (r :: t)).data) hs.2 []
      (splitOnChar '/' (joinPath (r :: t)).data) (splitOnChar_cons_self '/' _)]
    rw [List.append_nil]
    rw [List.filter_cons]
    rw [if_pos (by simpa using hs.1)]
    rw [List.map_cons]
    have ih2 : List.map String.mk
        (List.filter (fun x => decide (x ≠ [])) (splitOnChar '/' (joinPath (r :: t)).data)) =
        r :: t := ih
    rw [ih2]

theorem splitUri_empty : splitUri "" = [] := rfl

theorem joinPath_ne_empty (l : List String) (hne : l ≠ [])
    (h : ∀ s ∈ l, cleanComp s = true) : joinPath l ≠ "" := by
  intro he
  have h2 := splitUri_joinPath l h
  rw [he, splitUri_empty] at h2
  exact hne h2.symm

theorem pathUnder_decomp : ∀ {p base : FsPath}, pathUnder p base = true →
    p = base ++ p.drop base.length
  | p, [], _ => by simp
  | [], b :: bs, h => by cases h
  | a :: as, b :: bs, h => by
    simp only [pathUnder] at h
    by_cases hab : a = b
    · rw [if_pos hab] at h
      have ih := pathUnder_decomp h
      subst hab
      simp only [List.cons_append, List.length_cons, List.drop_succ_cons]
      rw [← ih]
    · rw [if_neg hab] at h
      cases h

theorem relative_to_ok {p base : FsPath} {rel : List String}
    (h : FsPath.relative_to p base = .ok rel) :
    rel = p.drop base.length ∧ p = base ++ rel := by
  rw [FsPath.relative_to] at h
  split at h
  · next hp =>
    injection h with h
    subst h
    exact ⟨rfl, pathUnder_decomp hp⟩
  · cases h

/-! ### Claim C1: the pipeline never touches a material's name or fields

Every material write of the pipeline — the assigner's empty-map insertion,
the mutator's extension block, the template copy — rebuilds only the
`extensions` entry.  Names and texture-reference fields are untouched, so the
reference graph and all similarity names of a later run are unchanged. -/

def extOnly (m m' : Material) : Prop := m'.name = m.name ∧ m'.fields = m.fields

def ExtOnlyRel (a b : List Material) : Prop := List.Forall₂ extOnly a b

theorem extOnlyRel_refl (a : List Material) : ExtOnlyRel a a :=
  List.forall₂_same.2 (fun _ _ => ⟨rfl, rfl⟩)

theorem extOnlyRel_trans : ∀ {a b c : List Material}, ExtOnlyRel a b → ExtOnlyRel b c →
    ExtOnlyRel a c := by
  intro a b c h1 h2
  induction h1 generalizing c with
  | nil =>
    cases h2
    exact List.Forall₂.nil
  | cons hab htail ih =>
    cases h2 with
    | cons hbc h2tail =>
      exact List.Forall₂.cons ⟨hbc.1.trans hab.1, hbc.2.trans hab.2⟩ (ih h2tail)

theorem extOnlyRel_of_matsRel : ∀ {a b : List Material}, MatsRel a b → ExtOnlyRel a b
  | [], [], _ => List.Forall₂.nil
  | [], _ :: _, h => by
    rcases h 0 with h0 | ⟨m2, ha, _, _⟩
    · simp at h0
    · simp at ha
  | _ :: _, [], h => by
    rcases h 0 with h0 | ⟨m2, _, _, hb⟩
    · simp at h0
    · simp at hb
  | ma :: a', mb :: b', h => by
    have htail : MatsRel a' b' := fun i => by
      have h2 := h (i + 1)
      simpa using h2
    refine List.Forall₂.cons ?_ (extOnlyRel_of_matsRel htail)
    rcases h 0 with h0 | ⟨m, ham, _, hbm⟩
    · have h0' : some mb = some ma := h0
      injection h0' with h0'
      rw [h0']
      exact ⟨rfl, rfl⟩
    · have ham' : some ma = some m := ham
      have hbm' : some mb = some { m with extensions := some ⟨none⟩ } := hbm
      injection ham' with ham'
      injection hbm' with hbm'
      rw [hbm', ham']
      exact ⟨rfl, rfl⟩

theorem materialYields_congr {m m' : Material} (hf : m'.fields = m.fields) (tid : Int) :
    materialYields m' tid = materialYields m tid := by
  rw [materialYields, materialYields, hf]

theorem find_ids_materialsFrom_congr : ∀ {a b : List Material}, ExtOnlyRel a b →
    ∀ (n : Nat) (tid : Int), find_ids_materialsFrom n tid b = find_ids_materialsFrom n tid a := by
  intro a b h
  induction h with
  | nil => intro n tid; rfl
  | cons hab htail ih =>
    intro n tid
    simp only [find_ids_materialsFrom]
    rw [materialYields_congr hab.2, ih]

theorem find_ids_materials_congr {a b : List Material} (h : ExtOnlyRel a b) (tid : Int) :
    find_ids_materials b tid = find_ids_materials a tid :=
  find_ids_materialsFrom_congr h 0 tid

theorem extOnlyRel_getD_name {a b : List Material} (h : ExtOnlyRel a b) :
    ∀ i, (b.getD i defaultMaterial).name = (a.getD i defaultMaterial).name := by
  induction h with
  | nil => intro i; rfl
  | cons hab htail ih =>
    intro i
    cases i with
    | zero => simp [hab.1]
    | succ j => simp only [List.getD_cons_succ]; exact ih j

theorem extOnlyRel_set {mats : List Material} {m' : Material} :
    ∀ {k : Nat}, (∀ m, mats.get? k = some m → extOnly m m') →
    ExtOnlyRel mats (mats.set k m') := by
  induction mats with
  | nil => intro k _; exact List.Forall₂.nil
  | cons m0 rest ih =>
    intro k h
    cases k with
    | zero =>
      rw [List.set_cons_zero]
      exact List.Forall₂.cons (h m0 rfl) (extOnlyRel_refl rest)
    | succ j =>
      rw [List.set_cons_succ]
      exact List.Forall₂.cons ⟨rfl, rfl⟩ (ih (fun m hm => h m hm))

theorem extOnlyRel_ensure (mats : List Material) (k : Nat) :
    ExtOnlyRel mats (ensureExtensions mats k) :=
  extOnlyRel_of_matsRel (matsRel_ensure mats k)

theorem mutateJob_extOnly {env : Env} {cfg : Config} {docdir : FsPath}
    {st : MState} {j : Job} {st' : MState}
    (h : mutateJob env cfg docdir st j = .ok st') :
    ExtOnlyRel st.materials st'.materials := by
  simp only [mutateJob, exceptBind_ok_iff] at h
  obtain ⟨pass, hpass, h2⟩ := h
  by_cases hp : pass
  · rw [if_neg (by simpa using hp)] at h2
    split at h2
    · injection h2 with hX
      rw [← hX]
      exact extOnlyRel_ensure _ _
    next hnd =>
      have hsetOk : ∀ (X : Material), X.name =
          ((ensureExtensions st.materials j.material_id).getD j.material_id
            defaultMaterial).name →
          X.fields = ((ensureExtensions st.materials j.material_id).getD j.material_id
            defaultMaterial).fields →
          ExtOnlyRel st.materials
            ((ensureExtensions st.materials j.material_id).set j.material_id X) := by
        intro X hn hf
        refine extOnlyRel_trans (extOnlyRel_ensure st.materials j.material_id) ?_
        refine extOnlyRel_set ?_
        intro m hm
        have hg : (ensureExtensions st.materials j.material_id).getD j.material_id
            defaultMaterial = m := by
          rw [List.getD_eq_getElem?_getD, ← List.get?_eq_getElem?, hm]
          rfl
        rw [hg] at hn hf
        exact ⟨hn, hf⟩
      rcases hal : alookup st.added_texture_map j.heightmap.nameOf with _ | t
      · rw [hal] at h2
        simp only [exceptBind_ok_iff] at h2
        obtain ⟨rel, hrel, y, hy, h3⟩ := h2
        injection hy with hy
        injection h3 with h3
        rw [← h3, ← hy]
        exact hsetOk _ rfl rfl
      · rw [hal] at h2
        simp only [exceptBind_ok_iff] at h2
        obtain ⟨y, hy, h3⟩ := h2
        injection hy with hy
        injection h3 with h3
        rw [← h3, ← hy]
        exact hsetOk _ rfl rfl
  · rw [if_pos (by simpa using hp)] at h2
    injection h2 with hX
    rw [← hX]
    exact extOnlyRel_refl _

theorem mutateJobs_extOnly {env : Env} {cfg : Config} {docdir : FsPath} :
    ∀ {jobs : List Job} {st st' : MState},
    mutateJobs env cfg docdir jobs st = .ok st' →
    ExtOnlyRel st.materials st'.materials
  | [], st, st', h => by
    simp only [mutateJobs, Except.ok.injEq] at h
    subst h
    exact extOnlyRel_refl _
  | j :: rest, st, st', h => by
    simp only [mutateJobs, exceptBind_ok_iff] at h
    obtain ⟨st2, hj, h2⟩ := h
    exact extOnlyRel_trans (mutateJob_extOnly hj) (mutateJobs_extOnly h2)

theorem copyMaterial_extOnly {env : Env} {cfg : Config} {tmpl : List TemplateMaterial}
    {m : Material} {r : Material × Bool}
    (h : copyMaterial env cfg tmpl m = .ok r) : extOnly m r.1 := by
  simp only [copyMaterial, exceptBind_ok_iff] at h
  obtain ⟨pass, hpass, h2⟩ := h
  by_cases hp : pass
  · rw [if_neg (by simpa using hp)] at h2
    split at h2
    · injection h2 with hX
      rw [← hX]
      exact ⟨rfl, rfl⟩
    · split at h2
      · injection h2 with hX
        rw [← hX]
        exact ⟨rfl, rfl⟩
      · injection h2 with hX
        rw [← hX]
        exact ⟨rfl, rfl⟩
  · rw [if_pos (by simpa using hp)] at h2
    injection h2 with hX
    rw [← hX]
    exact ⟨rfl, rfl⟩

theorem copyPass_extOnly {env : Env} {cfg : Config} {tmpl : List TemplateMaterial} :
    ∀ {mats : List Material} {out : List Material × Bool},
    copyPass env cfg tmpl mats = .ok out → ExtOnlyRel mats out.1
  | [], out, h => by
    simp only [copyPass, Except.ok.injEq] at h
    subst h
    exact List.Forall₂.nil
  | m :: rest, out, h => by
    simp only [copyPass, exceptBind_ok_iff] at h
    obtain ⟨r, hr, tail, htail, h3⟩ := h
    injection h3 with h3
    rw [← h3]
    exact List.Forall₂.cons (copyMaterial_extOnly hr) (copyPass_extOnly htail)

theorem runDoc_extOnly {env : Env} {cfg : Config} {listdir : FsPath → List String}
    {docdir : FsPath} {base : List String} {doc : Document} {out : RunOut}
    (h : runDoc env cfg listdir docdir base doc = .ok out) :
    ExtOnlyRel doc.materials out.doc.materials := by
  obtain ⟨ms, ast, mst, hms, hast, hmst, hout⟩ := runDoc_ok_inv h
  have h1 := extOnlyRel_of_matsRel (processTuples_matsRel _ _ _ _ _ _ _ hast)
  have h2 := mutateJobs_extOnly hmst
  rcases hout with ⟨_, rfl⟩ | ⟨tmpl, copied, _, hcp, rfl⟩
  · exact extOnlyRel_trans h1 h2
  · exact extOnlyRel_trans (extOnlyRel_trans h1 h2) (copyPass_extOnly hcp)

/-! ### Claim C1: the exact shape of the mutator's appends -/

theorem filterMaterialName_pass {env : Env} {cfg : Config} (hfi : cfg.filter = [])
    (hfo : cfg.filter_out = []) (name : String) :
    filterMaterialName env cfg name = .ok true := by
  simp [filterMaterialName, hfi, hfo]

/-- The material update the mutator performs when it links `mid` to texture
`texIdx`. -/
def linkMaterial (cfg : Config) (mats : List Material) (mid : Nat) (texIdx : Nat) :
    List Material :=
  mats.set mid
    { mats.getD mid defaultMaterial with
      extensions := some
        { (mats.getD mid defaultMaterial).extensions.getD ⟨none⟩ with
          displacement := some ⟨cfg.scale, cfg.bias, (texIdx : Int)⟩ } }

theorem mutateJob_cases {env : Env} {cfg : Config} {docdir : FsPath}
    {st : MState} {j : Job} {st' : MState}
    (hfi : cfg.filter = []) (hfo : cfg.filter_out = [])
    (h : mutateJob env cfg docdir st j = .ok st') :
    (hasDisp (ensureExtensions st.materials j.material_id) j.material_id = true ∧
      st' = { st with materials := ensureExtensions st.materials j.material_id }) ∨
    (∃ t, hasDisp (ensureExtensions st.materials j.material_id) j.material_id = false ∧
      alookup st.added_texture_map j.heightmap.nameOf = some t ∧
      st' = { st with
        materials := linkMaterial cfg (ensureExtensions st.materials j.material_id)
          j.material_id t,
        heightmaps_added := st.heightmaps_added ++ [j],
        had_changes := true }) ∨
    (∃ rel, hasDisp (ensureExtensions st.materials j.material_id) j.material_id = false ∧
      alookup st.added_texture_map j.heightmap.nameOf = none ∧
      FsPath.relative_to j.heightmap docdir = .ok rel ∧
      st' = { images := st.images ++ [⟨some j.heightmap.nameOf, some (joinPath rel)⟩],
              textures := st.textures ++ [⟨j.sampler, (st.images.length : Int)⟩],
              materials := linkMaterial cfg (ensureExtensions st.materials j.material_id)
                j.material_id st.textures.length,
              added_texture_map :=
                (j.heightmap.nameOf, st.textures.length) :: st.added_texture_map,
              heightmaps_added := st.heightmaps_added ++ [j],
              had_changes := true }) := by
  simp only [mutateJob, exceptBind_ok_iff] at h
  obtain ⟨pass, hpass, h2⟩ := h
  rw [filterMaterialName_pass hfi hfo] at hpass
  injection hpass with hpass
  rw [← hpass] at h2
  rw [if_neg (by simp)] at h2
  split at h2
  · next hd =>
    injection h2 with hX
    exact Or.inl ⟨hd, hX.symm⟩
  · next hnd =>
    have hd : hasDisp (ensureExtensions st.materials j.material_id) j.material_id = false :=
      by simpa using hnd
    rcases hal : alookup st.added_texture_map j.heightmap.nameOf with _ | t
    · rw [hal] at h2
      simp only [exceptBind_ok_iff] at h2
      obtain ⟨rel, hrel, y, hy, h3⟩ := h2
      injection hy with hy
      injection h3 with h3
      refine Or.inr (Or.inr ⟨rel, hd, rfl, hrel, ?_⟩)
      rw [← h3, ← hy]
      rfl
    · rw [hal] at h2
      simp only [exceptBind_ok_iff] at h2
      obtain ⟨y, hy, h3⟩ := h2
      injection hy with hy
      injection h3 with h3
      refine Or.inr (Or.inl ⟨t, hd, rfl, ?_⟩)
      rw [← h3, ← hy]
      rfl

/-- One image/texture pair the mutator appended: the linked heightmap, its
path relative to the document directory, and the (stale) sampler written. -/
structure NewLink where
  hm : FsPath
  rel : List String
  sampler : Int

def newImgEntry (n : NewLink) : ImageEntry := ⟨some n.hm.nameOf, some (joinPath n.rel)⟩

def newTexsFrom (base : Nat) : List NewLink → List TextureEntry
  | [] => []
  | n :: rest => ⟨n.sampler, (base : Int)⟩ :: newTexsFrom (base + 1) rest

theorem newTexsFrom_append (base : Nat) :
    ∀ (l : List NewLink) (n : NewLink),
    newTexsFrom base (l ++ [n]) =
      newTexsFrom base l ++ [⟨n.sampler, ((base + l.length : Nat) : Int)⟩]
  | [], n => by simp [newTexsFrom]
  | x :: rest, n => by
    simp only [List.cons_append, newTexsFrom, List.append_eq,
      newTexsFrom_append (base + 1) rest n]
    have h : base + 1 + rest.length = base + (x :: rest).length := by
      simp only [List.length_cons]
      omega
    rw [h]

theorem alookup_none_not_mem_keys {κ β : Type} [DecidableEq κ] :
    ∀ {l : List (κ × β)} {k : κ}, alookup l k = none → k ∉ l.map Prod.fst
  | [], k, _ => by simp
  | (k0, v) :: rest, k, h => by
    simp only [alookup] at h
    by_cases hk : k0 = k
    · rw [if_pos hk] at h
      cases h
    · rw [if_neg hk] at h
      simp only [List.map_cons, List.mem_cons]
      rintro (hc | hc)
      · exact hk hc.symm
      · exact alookup_none_not_mem_keys h hc

/-- The mutator's running state relative to its input arrays: everything it
has appended so far, with full provenance. -/
def MutShape (img0 : List ImageEntry) (tex0 : List TextureEntry) (J : List Job)
    (docdir : FsPath) (st : MState) : Prop :=
  ∃ news : List NewLink,
    st.images = img0 ++ news.map newImgEntry ∧
    st.textures = tex0 ++ newTexsFrom img0.length news ∧
    (∀ n ∈ news, ∃ j ∈ J, n.hm = j.heightmap ∧
      FsPath.relative_to j.heightmap docdir = .ok n.rel) ∧
    st.added_texture_map.map Prod.fst = (news.map (·.hm.nameOf)).reverse ∧
    (news.map (·.hm.nameOf)).Nodup

theorem mutateJobs_mutShape {env : Env} {cfg : Config} {docdir : FsPath}
    (hfi : cfg.filter = []) (hfo : cfg.filter_out = [])
    {img0 : List ImageEntry} {tex0 : List TextureEntry} {J : List Job} :
    ∀ {jobs : List Job} {st st' : MState},
    mutateJobs env cfg docdir jobs st = .ok st' →
    (∀ j ∈ jobs, j ∈ J) →
    MutShape img0 tex0 J docdir st → MutShape img0 tex0 J docdir st'
  | [], st, st', h, _, hsh => by
    simp only [mutateJobs, Except.ok.injEq] at h
    subst h
    exact hsh
  | j :: rest, st, st', h, hJ, hsh => by
    simp only [mutateJobs, exceptBind_ok_iff] at h
    obtain ⟨st2, hj, h2⟩ := h
    refine mutateJobs_mutShape hfi hfo h2 (fun x hx => hJ x (List.mem_cons_of_mem _ hx)) ?_
    obtain ⟨news, h1, h2t, h3, h4, h5⟩ := hsh
    rcases mutateJob_cases hfi hfo hj with ⟨_, rfl⟩ | ⟨t, _, hal, rfl⟩ | ⟨rel, _, hal, hrel, rfl⟩
    · exact ⟨news, h1, h2t, h3, h4, h5⟩
    · exact ⟨news, h1, h2t, h3, h4, h5⟩
    · refine ⟨news ++ [⟨j.heightmap, rel, j.sampler⟩], ?_, ?_, ?_, ?_, ?_⟩
      · simp only [List.map_append, List.map_cons, List.map_nil]
        rw [h1, List.append_assoc]
        rfl
      · simp only [newTexsFrom_append]
        rw [h2t, h1, List.append_assoc]
        simp
      · intro n hn
        rcases List.mem_append.1 hn with hn | hn
        · exact h3 n hn
        · simp only [List.mem_singleton] at hn
          subst hn
          exact ⟨j, hJ j (by simp), rfl, hrel⟩
      · simp only [List.map_cons, h4, List.map_append, List.map_cons, List.map_nil,
          List.reverse_append]
        rfl
      · have hfresh : j.heightmap.nameOf ∉ news.map (·.hm.nameOf) := by
          have h6 := alookup_none_not_mem_keys hal
          rw [h4] at h6
          simpa using h6
        simp only [List.map_append, List.map_cons, List.map_nil]
        rw [List.nodup_append]
        refine ⟨h5, by simp, ?_⟩
        intro x hx hx2
        simp only [List.mem_singleton] at hx2
        exact hfresh (hx2 ▸ hx)

/-! ### Claim C1: how a second run registers the mutator's appends -/

theorem registerImagesFrom_append (docdir : FsPath) :
    ∀ (l1 l2 : List ImageEntry) (k : Nat),
    registerImagesFrom docdir k (l1 ++ l2) =
      registerImagesFrom docdir k l1 ++ registerImagesFrom docdir (k + l1.length) l2
  | [], l2, k => by simp [registerImagesFrom]
  | e :: rest, l2, k => by
    have harith : k + 1 + rest.length = k + (rest.length + 1) := by omega
    cases hu : e.uri with
    | none =>
      simp only [List.cons_append, registerImagesFrom, hu, List.append_eq,
        registerImagesFrom_append docdir rest l2 (k + 1), List.length_cons, harith]
    | some u =>
      by_cases h0 : u = ""
      · simp only [List.cons_append, registerImagesFrom, hu, if_pos h0, List.append_eq,
          registerImagesFrom_append docdir rest l2 (k + 1), List.length_cons, harith]
      · simp only [List.cons_append, registerImagesFrom, hu, if_neg h0, List.append_eq,
          registerImagesFrom_append docdir rest l2 (k + 1), List.length_cons, harith,
          List.cons_append]

/-- The registration entries the appended images produce. -/
def regNews (k : Nat) : List NewLink → List (Nat × FsPath)
  | [] => []
  | n :: rest => (k, n.hm) :: regNews (k + 1) rest

/-- Cleanliness of an appended link: its relative path survives the URI round
trip back to the original heightmap path. -/
def CleanLink (docdir : FsPath) (n : NewLink) : Prop :=
  (∀ s ∈ n.rel, cleanComp s = true) ∧ n.rel ≠ [] ∧ docdir ++ n.rel = n.hm

theorem registerImagesFrom_news (docdir : FsPath) :
    ∀ (news : List NewLink), (∀ n ∈ news, CleanLink docdir n) →
    ∀ (k : Nat), registerImagesFrom docdir k (news.map newImgEntry) = regNews k news
  | [], _, k => rfl
  | n :: rest, hc, k => by
    obtain ⟨hclean, hne, hjoin⟩ := hc n (by simp)
    have hu : joinPath n.rel ≠ "" := joinPath_ne_empty n.rel hne hclean
    simp only [List.map_cons, registerImagesFrom, newImgEntry, if_neg hu, regNews]
    rw [splitUri_joinPath n.rel hclean]
    rw [registerImagesFrom_news docdir rest (fun x hx => hc x (List.mem_cons_of_mem _ hx))
      (k + 1)]
    rw [show FsPath.join docdir n.rel = n.hm from hjoin]

theorem regNews_map_snd : ∀ (k : Nat) (news : List NewLink),
    (regNews k news).map Prod.snd = news.map (·.hm)
  | _, [] => rfl
  | k, n :: rest => by
    simp only [regNews, List.map_cons, regNews_map_snd (k + 1) rest]

theorem mem_regNews_fst : ∀ {k : Nat} {news : List NewLink} {pr : Nat × FsPath},
    pr ∈ regNews k news → k ≤ pr.1 ∧ pr.2 ∈ news.map (·.hm)
  | k, [], pr, h => by cases h
  | k, n :: rest, pr, h => by
    rcases List.mem_cons.1 h with rfl | h
    · exact ⟨le_refl k, by simp⟩
    · have ih := mem_regNews_fst h
      exact ⟨by omega, by simp only [List.map_cons, List.mem_cons]; exact Or.inr ih.2⟩

theorem mem_registerImages_bounds {docdir : FsPath} {imgs : List ImageEntry}
    {pr : Nat × FsPath} (h : pr ∈ registerImages docdir imgs) : pr.1 < imgs.length := by
  rw [registerImages, mem_registerImagesFrom] at h
  obtain ⟨k, e, u, hget, _, _, hpr⟩ := h
  have hk := List.get?_eq_some.1 hget
  rw [hpr]
  simpa using hk.1

/-! ### Claim C1: fold helpers for the set-typed accumulators -/

theorem foldl_addNew_noop {α β : Type} [DecidableEq α] (f : β → α) :
    ∀ (l : List β) (acc : List α), (∀ x ∈ l, f x ∈ acc) →
    l.foldl (fun a p => addNew a (f p)) acc = acc
  | [], _, _ => rfl
  | b :: t, acc, h => by
    rw [List.foldl_cons]
    have hb : addNew acc (f b) = acc := by
      rw [addNew, if_pos (h b (by simp))]
    rw [hb]
    exact foldl_addNew_noop f t acc (fun x hx => h x (List.mem_cons_of_mem _ hx))

theorem foldl_addNew_fresh {α β : Type} [DecidableEq α] (f : β → α) :
    ∀ (l : List β) (acc : List α), (l.map f).Nodup → (∀ x ∈ l, f x ∉ acc) →
    l.foldl (fun a p => addNew a (f p)) acc = acc ++ l.map f
  | [], acc, _, _ => by simp
  | b :: t, acc, hnd, hni => by
    rw [List.foldl_cons]
    have hb : addNew acc (f b) = acc ++ [f b] := by
      rw [addNew, if_neg (hni b (by simp))]
    rw [hb]
    obtain ⟨hbt, hndt⟩ : (∀ x ∈ t, ¬f x = f b) ∧ (t.map f).Nodup := by simpa using hnd
    rw [foldl_addNew_fresh f t (acc ++ [f b]) hndt ?_]
    · simp
    · intro x hx hmem
      rcases List.mem_append.1 hmem with hc | hc
      · exact hni x (List.mem_cons_of_mem _ hx) hc
      · exact hbt x hx (by simpa using hc)

/-! ### Claim C1: image-id lookups survive the appended entries -/

theorem alookup_append {κ β : Type} [DecidableEq κ] :
    ∀ (a b : List (κ × β)) (k : κ),
    alookup (a ++ b) k = match alookup a k with
      | some v => some v
      | none => alookup b k
  | [], b, k => rfl
  | (k0, v0) :: rest, b, k => by
    simp only [List.cons_append, alookup]
    by_cases hk : k0 = k
    · rw [if_pos hk, if_pos hk]
    · rw [if_neg hk, if_neg hk]
      exact alookup_append rest b k

theorem alookup_none_of_not_mem_keys {κ β : Type} [DecidableEq κ] :
    ∀ {l : List (κ × β)} {k : κ}, k ∉ l.map Prod.fst → alookup l k = none
  | [], _, _ => rfl
  | (k0, v0) :: rest, k, h => by
    simp only [List.map_cons, List.mem_cons] at h
    rw [alookup, if_neg (fun he => h (Or.inl he.symm))]
    exact alookup_none_of_not_mem_keys (fun hc => h (Or.inr hc))

theorem alookup_isSome_of_mem_keys {κ β : Type} [DecidableEq κ] :
    ∀ {l : List (κ × β)} {k : κ}, k ∈ l.map Prod.fst → (alookup l k).isSome
  | [], _, h => by cases h
  | (k0, v0) :: rest, k, h => by
    rw [alookup]
    by_cases hk : k0 = k
    · rw [if_pos hk]
      rfl
    · rw [if_neg hk]
      rcases List.mem_cons.1 h with hc | hc
      · exact absurd hc.symm hk
      · exact alookup_isSome_of_mem_keys hc

theorem mem_of_alookup_some {κ β : Type} [DecidableEq κ] :
    ∀ {l : List (κ × β)} {k : κ} {v : β}, alookup l k = some v → (k, v) ∈ l
  | [], _, _, h => by cases h
  | (k0, v0) :: rest, k, v, h => by
    rw [alookup] at h
    by_cases hk : k0 = k
    · rw [if_pos hk] at h
      injection h with h
      subst hk
      subst h
      exact List.mem_cons_self _ _
    · rw [if_neg hk] at h
      exact List.mem_cons_of_mem _ (mem_of_alookup_some h)

theorem lookupId_append_old {ids1 ids2 : List (FsPath × Nat)} {p : FsPath}
    (hfresh : p ∉ ids2.map Prod.fst) :
    lookupId (ids1 ++ ids2) p = lookupId ids1 p := by
  rw [lookupId, lookupId, List.reverse_append, alookup_append]
  rw [alookup_none_of_not_mem_keys (by simpa using hfresh)]

/-! ### Claim C1: texture references to and from the appended entries -/

theorem find_ids_texturesFrom_append (image_id : Int) :
    ∀ (a b : List TextureEntry) (k : Nat),
    find_ids_texturesFrom k image_id (a ++ b) =
      find_ids_texturesFrom k image_id a ++ find_ids_texturesFrom (k + a.length) image_id b
  | [], b, k => by simp [find_ids_texturesFrom]
  | t :: rest, b, k => by
    have harith : k + 1 + rest.length = k + (rest.length + 1) := by omega
    by_cases hs : t.source = image_id
    · simp only [List.cons_append, find_ids_texturesFrom, if_pos hs, List.append_eq,
        find_ids_texturesFrom_append image_id rest b (k + 1), List.length_cons, harith,
        List.cons_append]
    · simp only [List.cons_append, find_ids_texturesFrom, if_neg hs, List.append_eq,
        find_ids_texturesFrom_append image_id rest b (k + 1), List.length_cons, harith]

theorem find_ids_texturesFrom_nil (image_id : Int) :
    ∀ (l : List TextureEntry) (k : Nat), (∀ te ∈ l, te.source ≠ image_id) →
    find_ids_texturesFrom k image_id l = []
  | [], _, _ => rfl
  | t :: rest, k, h => by
    rw [find_ids_texturesFrom, if_neg (h t (by simp))]
    exact find_ids_texturesFrom_nil image_id rest (k + 1)
      (fun te hte => h te (List.mem_cons_of_mem _ hte))

theorem mem_find_ids_texturesFrom_ge (image_id : Int) :
    ∀ {l : List TextureEntry} {k : Nat} {x : Nat},
    x ∈ find_ids_texturesFrom k image_id l → k ≤ x
  | [], _, _, h => by cases h
  | t :: rest, k, x, h => by
    rw [find_ids_texturesFrom] at h
    by_cases hs : t.source = image_id
    · rw [if_pos hs] at h
      rcases List.mem_cons.1 h with hx | h
      · omega
      · have := mem_find_ids_texturesFrom_ge image_id h
        omega
    · rw [if_neg hs] at h
      have := mem_find_ids_texturesFrom_ge image_id h
      omega

theorem newTexsFrom_source_ge (base0 : Nat) :
    ∀ {base : Nat} {l : List NewLink} {te : TextureEntry}, base0 ≤ base →
    te ∈ newTexsFrom base l → (base0 : Int) ≤ te.source
  | base, [], te, _, h => by cases h
  | base, n :: rest, te, hle, h => by
    rcases List.mem_cons.1 h with rfl | h
    · simp only [Int.ofNat_le]
      omega
    · exact newTexsFrom_source_ge base0 (by omega) h

theorem find_ids_materialsFrom_nil (tid : Int) :
    ∀ (mats : List Material) (k : Nat), (∀ m ∈ mats, materialYields m tid = []) →
    find_ids_materialsFrom k tid mats = []
  | [], _, _ => rfl
  | m :: rest, k, h => by
    rw [find_ids_materialsFrom, h m (by simp)]
    simp only [List.map_nil, List.nil_append]
    exact find_ids_materialsFrom_nil tid rest (k + 1)
      (fun x hx => h x (List.mem_cons_of_mem _ hx))

/-! ### Claim C1: the reference graph of the second run -/

/-- The pairs one image contributes to the reference graph. -/
def pairsOfImg (doc : Document) (ids : List (FsPath × Nat)) (image : FsPath) :
    List (FsPath × List Nat) :=
  let image_id : Int := ((lookupId ids image).getD 0 : Nat)
  let texture_ids := find_ids_textures doc.textures image_id
  if texture_ids = [] then []
  else if texture_ids.flatMap (fun tid => find_ids_materials doc.materials (tid : Int)) = []
  then []
  else [(image, texture_ids.flatMap (fun tid => find_ids_materials doc.materials (tid : Int)))]

theorem buildGraphStep_pairs (doc : Document) (ids : List (FsPath × Nat))
    (st : GraphResult) (image : FsPath) :
    (buildGraphStep doc ids st image).pairs = st.pairs ++ pairsOfImg doc ids image := by
  simp only [buildGraphStep, pairsOfImg]
  split
  · simp
  · split
    · simp
    · rfl

theorem foldl_graph_pairs (doc : Document) (ids : List (FsPath × Nat)) :
    ∀ (l : List FsPath) (st : GraphResult),
    (l.foldl (buildGraphStep doc ids) st).pairs = st.pairs ++ l.flatMap (pairsOfImg doc ids)
  | [], st => by simp
  | img :: rest, st => by
    rw [List.foldl_cons, foldl_graph_pairs doc ids rest _, buildGraphStep_pairs]
    simp [List.flatMap_cons, List.append_assoc]

theorem buildGraph_pairs_flat (doc : Document) (images : List FsPath)
    (ids : List (FsPath × Nat)) :
    (buildGraph doc images ids).pairs = images.flatMap (pairsOfImg doc ids) := by
  rw [buildGraph, foldl_graph_pairs]
  rfl

theorem flatMap_nil_of {α β : Type} (f : α → List β) :
    ∀ (l : List α), (∀ x ∈ l, f x = []) → l.flatMap f = []
  | [], _ => rfl
  | a :: rest, h => by
    rw [List.flatMap_cons, h a (by simp), List.nil_append]
    exact flatMap_nil_of f rest (fun x hx => h x (List.mem_cons_of_mem _ hx))

theorem flatMap_congr_of {α β : Type} (f g : α → List β) :
    ∀ (l : List α), (∀ x ∈ l, f x = g x) → l.flatMap f = l.flatMap g
  | [], _ => rfl
  | a :: rest, h => by
    rw [List.flatMap_cons, List.flatMap_cons, h a (by simp)]
    rw [flatMap_congr_of f g rest (fun x hx => h x (List.mem_cons_of_mem _ hx))]

theorem pairsOfImg_congr {doc doc2 : Document} {ids1 ids2 : List (FsPath × Nat)}
    {img : FsPath}
    (htex : ∀ id : Int, 0 ≤ id → id < (doc.images.length : Int) →
      find_ids_textures doc2.textures id = find_ids_textures doc.textures id)
    (hmats : ∀ tid : Int,
      find_ids_materials doc2.materials tid = find_ids_materials doc.materials tid)
    (hid : lookupId ids2 img = lookupId ids1 img)
    (hscope : ∀ i, lookupId ids1 img = some i → i < doc.images.length)
    (hlsome : (lookupId ids1 img).isSome) :
    pairsOfImg doc2 ids2 img = pairsOfImg doc ids1 img := by
  obtain ⟨i, hi⟩ := Option.isSome_iff_exists.1 hlsome
  have hb := hscope i hi
  simp only [pairsOfImg, hid, hi, Option.getD_some]
  rw [htex (i : Int) (by omega) (by exact_mod_cast hb)]
  rw [flatMap_congr_of (fun tid : Nat => find_ids_materials doc2.materials (tid : Int))
    (fun tid : Nat => find_ids_materials doc.materials (tid : Int))
    (find_ids_textures doc.textures ((i : Nat) : Int)) (fun tid _ => hmats (tid : Int))]

theorem pairsOfImg_nil {doc2 : Document} {ids2 : List (FsPath × Nat)} {img : FsPath}
    {L T : Nat}
    (hid : ∀ i, lookupId ids2 img = some i → L ≤ i)
    (hsome : (lookupId ids2 img).isSome)
    (htexhi : ∀ id : Int, (L : Int) ≤ id →
      ∀ x ∈ find_ids_textures doc2.textures id, T ≤ x)
    (hmats : ∀ tid : Nat, T ≤ tid → find_ids_materials doc2.materials (tid : Int) = []) :
    pairsOfImg doc2 ids2 img = [] := by
  obtain ⟨i, hi⟩ := Option.isSome_iff_exists.1 hsome
  have hL := hid i hi
  simp only [pairsOfImg, hi, Option.getD_some]
  by_cases hte : find_ids_textures doc2.textures ((i : Nat) : Int) = []
  · rw [if_pos hte]
  · rw [if_neg hte]
    have hflat : (find_ids_textures doc2.textures ((i : Nat) : Int)).flatMap
        (fun tid => find_ids_materials doc2.materials (tid : Int)) = [] := by
      refine flatMap_nil_of _ _ ?_
      intro x hx
      exact hmats x (htexhi ((i : Nat) : Int) (by exact_mod_cast hL) x hx)
    rw [if_pos hflat]

theorem find_ids_textures_second_low (doc : Document) (news : List NewLink) (id : Int)
    (hhi : id < (doc.images.length : Int)) :
    find_ids_textures (doc.textures ++ newTexsFrom doc.images.length news) id =
      find_ids_textures doc.textures id := by
  rw [find_ids_textures, find_ids_texturesFrom_append]
  rw [find_ids_texturesFrom_nil id (newTexsFrom doc.images.length news) _ ?_]
  · rw [List.append_nil]
    rfl
  · intro te hte
    have hge := newTexsFrom_source_ge doc.images.length (le_refl _) hte
    omega

theorem find_ids_textures_second_high (doc : Document) (news : List NewLink)
    (hbt : ∀ te ∈ doc.textures, te.source < (doc.images.length : Int)) (id : Int)
    (hid : (doc.images.length : Int) ≤ id) :
    ∀ x ∈ find_ids_textures (doc.textures ++ newTexsFrom doc.images.length news) id,
      doc.textures.length ≤ x := by
  intro x hx
  rw [find_ids_textures, find_ids_texturesFrom_append] at hx
  rw [find_ids_texturesFrom_nil id doc.textures 0 ?_] at hx
  · simp only [List.nil_append] at hx
    have := mem_find_ids_texturesFrom_ge id hx
    omega
  · intro te hte
    have := hbt te hte
    omega

theorem find_ids_materials_second_high {doc : Document} {mats2 : List Material}
    (hrel2 : ExtOnlyRel doc.materials mats2)
    (hbm : ∀ m ∈ doc.materials, ∀ tid : Int, (doc.textures.length : Int) ≤ tid →
      materialYields m tid = [])
    (tid : Nat) (h : doc.textures.length ≤ tid) :
    find_ids_materials mats2 ((tid : Nat) : Int) = [] := by
  rw [find_ids_materials_congr hrel2]
  rw [find_ids_materials]
  exact find_ids_materialsFrom_nil _ _ 0
    (fun m hm => hbm m hm _ (by exact_mod_cast Nat.cast_le.2 h))

theorem mem_imagesListOf {reg : List (Nat × FsPath)} {x : FsPath} :
    x ∈ imagesListOf reg ↔ ∃ p ∈ reg, p.2 = x := by
  rw [imagesListOf]
  have h := mem_foldl_addNew (fun p : Nat × FsPath => p.2) reg [] x
  simpa using h

theorem image_idsOf_keys (reg : List (Nat × FsPath)) :
    (image_idsOf reg).map Prod.fst = reg.map Prod.snd := by
  rw [image_idsOf, List.map_map]
  rfl

theorem lookupId_isSome_of_mem {ids : List (FsPath × Nat)} {p : FsPath}
    (h : p ∈ ids.map Prod.fst) : (lookupId ids p).isSome := by
  rw [lookupId]
  exact alookup_isSome_of_mem_keys (by rw [List.map_reverse]; exact List.mem_reverse.2 h)

theorem lookupId_some_mem {ids : List (FsPath × Nat)} {p : FsPath} {i : Nat}
    (h : lookupId ids p = some i) : (p, i) ∈ ids := by
  rw [lookupId] at h
  exact List.mem_reverse.1 (mem_of_alookup_some h)

theorem docPre_second_run (env : Env) (cfg : Config) (listdir : FsPath → List String)
    (docdir : FsPath) (base : List String) (doc doc2 : Document) (news : List NewLink)
    (h2i : doc2.images = doc.images ++ news.map newImgEntry)
    (h2t : doc2.textures = doc.textures ++ newTexsFrom doc.images.length news)
    (hrel2 : ExtOnlyRel doc.materials doc2.materials)
    (hcleanL : ∀ n ∈ news, CleanLink docdir n)
    (hnodup : (news.map (·.hm.nameOf)).Nodup)
    (hfresh : ∀ n ∈ news, n.hm ∉ imagesListOf (registerImages docdir doc.images))
    (hsuf : ∀ n ∈ news, n.hm.suffixOf ∈
      suffixesAfter base (registerImages docdir doc.images))
    (hdirs : ∀ n ∈ news, n.hm.parentOf ∈
      imageDirsOf cfg.extra_paths (imagesListOf (registerImages docdir doc.images)))
    (hbt : ∀ te ∈ doc.textures, te.source < (doc.images.length : Int))
    (hbm : ∀ m ∈ doc.materials, ∀ tid : Int, (doc.textures.length : Int) ≤ tid →
      materialYields m tid = []) :
    (docPre env cfg listdir docdir base doc2).suffixes =
      (docPre env cfg listdir docdir base doc).suffixes ∧
    (docPre env cfg listdir docdir base doc2).dirs =
      (docPre env cfg listdir docdir base doc).dirs ∧
    (docPre env cfg listdir docdir base doc2).graph =
      (docPre env cfg listdir docdir base doc).graph ∧
    ∀ c, c ∈ (docPre env cfg listdir docdir base doc2).candidates ↔
      (c ∈ (docPre env cfg listdir docdir base doc).candidates ∧
        c ∉ news.map (·.hm)) := by
  have hreg2 : registerImages docdir doc2.images =
      registerImages docdir doc.images ++ regNews doc.images.length news := by
    rw [registerImages, registerImages, h2i, registerImagesFrom_append,
      registerImagesFrom_news docdir news hcleanL, Nat.zero_add]
  have hnodupPaths : (news.map (·.hm)).Nodup := by
    refine List.Nodup.of_map FsPath.nameOf ?_
    rw [List.map_map]
    simpa [Function.comp] using hnodup
  have hfreshPaths : ∀ p ∈ news.map (·.hm),
      p ∉ imagesListOf (registerImages docdir doc.images) := by
    intro p hp
    obtain ⟨n, hn, rfl⟩ := List.mem_map.1 hp
    exact hfresh n hn
  have hsndNews : (regNews doc.images.length news).map (fun p : Nat × FsPath => p.2) =
      news.map (·.hm) := regNews_map_snd doc.images.length news
  have himglist : imagesListOf (registerImages docdir doc2.images) =
      imagesListOf (registerImages docdir doc.images) ++ news.map (·.hm) := by
    rw [hreg2, imagesListOf, List.foldl_append]
    have hstep := foldl_addNew_fresh (fun p : Nat × FsPath => p.2)
      (regNews doc.images.length news)
      (imagesListOf (registerImages docdir doc.images))
      (by rw [hsndNews]; exact hnodupPaths)
      (by
        intro p hp hmem
        exact hfreshPaths p.2 (by rw [← hsndNews]; exact List.mem_map_of_mem _ hp) hmem)
    rw [show (registerImages docdir doc.images).foldl
        (fun acc p => addNew acc p.2) ([] : List FsPath) =
        imagesListOf (registerImages docdir doc.images) from rfl]
    rw [hstep, hsndNews]
  have hsuffixes : suffixesAfter base (registerImages docdir doc2.images) =
      suffixesAfter base (registerImages docdir doc.images) := by
    rw [hreg2, suffixesAfter, List.foldl_append]
    have hstep := foldl_addNew_noop (fun p : Nat × FsPath => p.2.suffixOf)
      (regNews doc.images.length news)
      (suffixesAfter base (registerImages docdir doc.images))
      (by
        intro p hp
        have hd := mem_regNews_fst hp
        obtain ⟨n, hn, heq⟩ := List.mem_map.1 hd.2
        show p.2.suffixOf ∈ suffixesAfter base (registerImages docdir doc.images)
        rw [← heq]
        exact hsuf n hn)
    rw [show (registerImages docdir doc.images).foldl
        (fun acc p => addNew acc p.2.suffixOf) base =
        suffixesAfter base (registerImages docdir doc.images) from rfl]
    rw [hstep]
  have hdirs2 : imageDirsOf cfg.extra_paths
      (imagesListOf (registerImages docdir doc2.images)) =
      imageDirsOf cfg.extra_paths (imagesListOf (registerImages docdir doc.images)) := by
    rw [himglist, imageDirsOf, List.foldl_append]
    have hstep := foldl_addNew_noop (fun img : FsPath => img.parentOf)
      (news.map (·.hm))
      (imageDirsOf cfg.extra_paths (imagesListOf (registerImages docdir doc.images)))
      (by
        intro p hp
        obtain ⟨n, hn, rfl⟩ := List.mem_map.1 hp
        exact hdirs n hn)
    rw [show (imagesListOf (registerImages docdir doc.images)).foldl
        (fun acc img => addNew acc img.parentOf)
        (cfg.extra_paths.foldl addNew []) =
        imageDirsOf cfg.extra_paths (imagesListOf (registerImages docdir doc.images))
        from rfl]
    rw [hstep]
  have hids2 : image_idsOf (registerImages docdir doc2.images) =
      image_idsOf (registerImages docdir doc.images) ++
        image_idsOf (regNews doc.images.length news) := by
    rw [hreg2, image_idsOf, image_idsOf, image_idsOf, List.map_append]
  have hnewKeys : (image_idsOf (regNews doc.images.length news)).map Prod.fst =
      news.map (·.hm) := by
    rw [image_idsOf_keys]
    exact hsndNews
  have hpairs : (buildGraph doc2 (imagesListOf (registerImages docdir doc2.images))
        (image_idsOf (registerImages docdir doc2.images))).pairs =
      (buildGraph doc (imagesListOf (registerImages docdir doc.images))
        (image_idsOf (registerImages docdir doc.images))).pairs := by
    rw [buildGraph_pairs_flat, buildGraph_pairs_flat, himglist, List.flatMap_append]
    have hold : ∀ img ∈ imagesListOf (registerImages docdir doc.images),
        pairsOfImg doc2 (image_idsOf (registerImages docdir doc2.images)) img =
        pairsOfImg doc (image_idsOf (registerImages docdir doc.images)) img := by
      intro img himg
      have himgkey : img ∈ (image_idsOf (registerImages docdir doc.images)).map Prod.fst := by
        rw [image_idsOf_keys]
        obtain ⟨p, hp, hpe⟩ := mem_imagesListOf.1 himg
        rw [← hpe]
        exact List.mem_map_of_mem _ hp
      refine pairsOfImg_congr ?_ ?_ ?_ ?_ (lookupId_isSome_of_mem himgkey)
      · intro id hlo hhi
        rw [h2t]
        exact find_ids_textures_second_low doc news id hhi
      · intro tid
        exact find_ids_materials_congr hrel2 tid
      · rw [hids2]
        refine lookupId_append_old ?_
        rw [hnewKeys]
        intro hc
        exact hfreshPaths img hc himg
      · intro i hi
        have hmem := lookupId_some_mem hi
        rw [image_idsOf, List.mem_map] at hmem
        obtain ⟨p, hp, hpe⟩ := hmem
        have hb := mem_registerImages_bounds hp
        have : p.1 = i := congrArg Prod.snd hpe
        omega
    have hnew : ∀ img ∈ news.map (·.hm),
        pairsOfImg doc2 (image_idsOf (registerImages docdir doc2.images)) img = [] := by
      intro img himg
      refine pairsOfImg_nil (L := doc.images.length) (T := doc.textures.length)
        ?_ ?_ ?_ ?_
      · intro i hi
        have hmem := lookupId_some_mem hi
        rw [hids2] at hmem
        rcases List.mem_append.1 hmem with hmem | hmem
        · exfalso
          rw [image_idsOf, List.mem_map] at hmem
          obtain ⟨p, hp, hpe⟩ := hmem
          have hpimg : p.2 = img := congrArg Prod.fst hpe
          exact hfreshPaths img himg (mem_imagesListOf.2 ⟨p, hp, hpimg⟩)
        · rw [image_idsOf, List.mem_map] at hmem
          obtain ⟨p, hp, hpe⟩ := hmem
          have hge := (mem_regNews_fst hp).1
          have : p.1 = i := congrArg Prod.snd hpe
          omega
      · refine lookupId_isSome_of_mem ?_
        rw [hids2, List.map_append, hnewKeys]
        exact List.mem_append.2 (Or.inr himg)
      · intro id hid x hx
        rw [h2t] at hx
        exact find_ids_textures_second_high doc news hbt id hid x hx
      · intro tid htid
        exact find_ids_materials_second_high hrel2 hbm tid htid
    rw [flatMap_congr_of _ _ _ hold]
    rw [flatMap_nil_of _ _ hnew, List.append_nil]
  refine ⟨?_, ?_, ?_, ?_⟩
  · simp only [docPre]
    exact hsuffixes
  · simp only [docPre]
    rw [hdirs2]
  · simp only [docPre]
    exact hpairs
  · intro c
    simp only [docPre]
    rw [hdirs2, hsuffixes, himglist]
    rw [mem_discoverCandidates, mem_discoverCandidates]
    constructor
    · rintro ⟨d, hd, f, hf, hc, hsx, hni, hhn⟩
      have hni1 : FsPath.join d [f] ∉
          imagesListOf (registerImages docdir doc.images) :=
        fun hmem => hni (List.mem_append.2 (Or.inl hmem))
      have hni2 : FsPath.join d [f] ∉ news.map (·.hm) :=
        fun hmem => hni (List.mem_append.2 (Or.inr hmem))
      exact ⟨⟨d, hd, f, hf, hc, hsx, hni1, hhn⟩, hc ▸ hni2⟩
    · rintro ⟨⟨d, hd, f, hf, hc, hsx, hni, hhn⟩, hnnew⟩
      refine ⟨d, hd, f, hf, hc, hsx, ?_, hhn⟩
      intro hmem
      rcases List.mem_append.1 hmem with hmem | hmem
      · exact hni hmem
      · exact (hc ▸ hnnew) hmem

/-! ### Claim C1: with `--match-one-image` off, the assigner claims every
material of every tuple, and every claimed material ends up carrying the
extension or being handed to the mutator -/

theorem processMaterials_claims (cfg : Config) (hmoi : cfg.match_one_image = false)
    (ls : Option Int) (hm img : FsPath) :
    ∀ (ids : List Nat) (st st' : AState),
    processMaterials cfg ls hm img ids st = .ok st' →
    (∀ x ∈ st.unlinked_material_ids, x ∈ st'.unlinked_material_ids) ∧
    (∀ mid ∈ ids, mid ∈ st'.unlinked_material_ids)
  | [], st, st', h => by
    simp only [processMaterials, Except.ok.injEq] at h
    subst h
    exact ⟨fun x hx => hx, fun mid hmid => absurd hmid (by simp)⟩
  | mid :: rest, st, st', h => by
    simp only [processMaterials] at h
    have hmem0 : mid ∈ addNew st.unlinked_material_ids mid := mem_addNew.2 (Or.inr rfl)
    have hmono0 : ∀ x ∈ st.unlinked_material_ids, x ∈ addNew st.unlinked_material_ids mid :=
      fun x hx => mem_addNew.2 (Or.inl hx)
    split at h
    · have ih := processMaterials_claims cfg hmoi ls hm img rest _ st' h
      refine ⟨fun x hx => ih.1 x (hmono0 x hx), ?_⟩
      intro m hmmem
      rcases List.mem_cons.1 hmmem with rfl | hmmem
      · exact ih.1 m hmem0
      · exact ih.2 m hmmem
    · split at h
      next lsv heq => cases h
      next hdisp2 lsv s =>
        split at h
        · next hT => exact absurd hT (by simp [hmoi])
        · have ih := processMaterials_claims cfg hmoi (some s) hm img rest _ st' h
          refine ⟨fun x hx => ih.1 x (hmono0 x hx), ?_⟩
          intro m hmmem
          rcases List.mem_cons.1 hmmem with rfl | hmmem
          · exact ih.1 m hmem0
          · exact ih.2 m hmmem

theorem processTuples_claims (env : Env) (cfg : Config) (docdir : FsPath)
    (hmoi : cfg.match_one_image = false) (ls : Option Int) :
    ∀ (ts : List MatchTuple) (st st' : AState),
    processTuples env cfg docdir ls ts st = .ok st' →
    (∀ x ∈ st.unlinked_material_ids, x ∈ st'.unlinked_material_ids) ∧
    (∀ t ∈ ts, ∀ mid ∈ t.material_ids, mid ∈ st'.unlinked_material_ids)
  | [], st, st', h => by
    simp only [processTuples, Except.ok.injEq] at h
    subst h
    exact ⟨fun x hx => hx, fun t ht => absurd ht (by simp)⟩
  | t :: rest, st, st', h => by
    simp only [processTuples] at h
    split at h
    · next hsk =>
      exfalso
      rcases halk : alookup st.best_image t.candidate.nameOf with _ | img
      · rw [halk] at hsk
        simp at hsk
      · rw [halk] at hsk
        simp [hmoi] at hsk
    · rw [exceptBind_ok_iff] at h
      obtain ⟨ordered, hord, h2⟩ := h
      rw [exceptBind_ok_iff] at h2
      obtain ⟨st2, hpm, h3⟩ := h2
      set stw : AState :=
        (match alookup st.best_image t.candidate.nameOf with
          | some img =>
            if img ≠ t.image ∧ ¬st.warned then
              { st with warned := true, warnCount := st.warnCount + 1 }
            else st
          | none => st) with hstw
      have hw2 : stw.unlinked_material_ids = st.unlinked_material_ids := by
        rw [hstw]
        cases alookup st.best_image t.candidate.nameOf with
        | none => rfl
        | some img =>
          dsimp only
          by_cases hc : img ≠ t.image ∧ ¬st.warned = true
          · rw [if_pos hc]
          · rw [if_neg hc]
      have hpmc := processMaterials_claims cfg hmoi ls t.candidate t.image ordered stw st2 hpm
      have ihc := processTuples_claims env cfg docdir hmoi ls rest st2 st' h3
      have hmono : ∀ x ∈ st.unlinked_material_ids, x ∈ st'.unlinked_material_ids := by
        intro x hx
        exact ihc.1 x (hpmc.1 x (by rw [hw2]; exact hx))
      refine ⟨hmono, ?_⟩
      intro t2 ht2 mid hmid
      rcases List.mem_cons.1 ht2 with rfl | ht2
      · by_cases hin : mid ∈ st.unlinked_material_ids
        · exact hmono mid hin
        · have hrem : mid ∈ t2.material_ids.dedup.filter
              (fun m => m ∉ stw.unlinked_material_ids) := by
            rw [List.mem_filter]
            refine ⟨List.mem_dedup.2 hmid, ?_⟩
            rw [hw2]
            simpa using hin
          have hordmem : mid ∈ ordered := (orderMaterialSimilarity_ok_perm hord).mem_iff.2 hrem
          exact ihc.1 mid (hpmc.2 mid hordmem)
      · exact ihc.2 t2 ht2 mid hmid

/-- Every claimed material is already linked or handed to the mutator. -/
def DoneInv (st : AState) : Prop :=
  ∀ mid ∈ st.unlinked_material_ids, (dispOf st.materials mid).isSome ∨
    ∃ j ∈ st.unlinked_heightmaps, j.material_id = mid

theorem processMaterials_doneInv (cfg : Config) (ls : Option Int) (hm img : FsPath) :
    ∀ (ids : List Nat) (st st' : AState),
    processMaterials cfg ls hm img ids st = .ok st' → DoneInv st → DoneInv st'
  | [], st, st', h, hinv => by
    simp only [processMaterials, Except.ok.injEq] at h
    subst h
    exact hinv
  | mid :: rest, st, st', h, hinv => by
    simp only [processMaterials] at h
    split at h
    · next hdisp =>
      refine processMaterials_doneInv cfg ls hm img rest _ st' h ?_
      intro x hx
      rcases mem_addNew.1 hx with hx | rfl
      · rcases hinv x hx with hd | hj
        · left
          rw [dispOf_ensureExtensions]
          exact hd
        · exact Or.inr hj
      · left
        rw [← hasDisp_iff_dispOf]
        exact hdisp
    · split at h
      next lsv heq => cases h
      next hdisp2 lsv s =>
        have hinv2 : DoneInv { st with
            materials := ensureExtensions st.materials mid,
            unlinked_material_ids := addNew st.unlinked_material_ids mid,
            unlinked_heightmaps := st.unlinked_heightmaps ++
              [⟨mid, ((ensureExtensions st.materials mid).getD mid defaultMaterial).name,
                hm, img, s⟩],
            best_image := (hm.nameOf, img) :: st.best_image } := by
          intro x hx
          rcases mem_addNew.1 hx with hx | hxe
          · rcases hinv x hx with hd | ⟨j, hj, hjm⟩
            · left
              rw [dispOf_ensureExtensions]
              exact hd
            · exact Or.inr ⟨j, List.mem_append.2 (Or.inl hj), hjm⟩
          · refine Or.inr ⟨⟨mid,
              ((ensureExtensions st.materials mid).getD mid defaultMaterial).name,
              hm, img, s⟩, List.mem_append.2 (Or.inr (by simp)), ?_⟩
            exact hxe.symm
        split at h
        · injection h with hX
          rw [← hX]
          exact hinv2
        · exact processMaterials_doneInv cfg (some s) hm img rest _ st' h hinv2

theorem processTuples_doneInv (env : Env) (cfg : Config) (docdir : FsPath)
    (ls : Option Int) :
    ∀ (ts : List MatchTuple) (st st' : AState),
    processTuples env cfg docdir ls ts st = .ok st' → DoneInv st → DoneInv st'
  | [], st, st', h, hinv => by
    simp only [processTuples, Except.ok.injEq] at h
    subst h
    exact hinv
  | t :: rest, st, st', h, hinv => by
    simp only [processTuples] at h
    split at h
    · exact processTuples_doneInv env cfg docdir ls rest st st' h hinv
    · rw [exceptBind_ok_iff] at h
      obtain ⟨ordered, hord, h2⟩ := h
      rw [exceptBind_ok_iff] at h2
      obtain ⟨st2, hpm, h3⟩ := h2
      have hinvw : DoneInv (match alookup st.best_image t.candidate.nameOf with
          | some img =>
            if img ≠ t.image ∧ ¬st.warned then
              { st with warned := true, warnCount := st.warnCount + 1 }
            else st
          | none => st) := by
        cases alookup st.best_image t.candidate.nameOf with
        | none => exact hinv
        | some img =>
          dsimp only
          by_cases hc : img ≠ t.image ∧ ¬st.warned = true
          · rw [if_pos hc]
            exact hinv
          · rw [if_neg hc]
            exact hinv
      exact processTuples_doneInv env cfg docdir ls rest st2 st' h3
        (processMaterials_doneInv cfg ls t.candidate t.image ordered _ st2 hpm hinvw)

/-! ### Claim C1: job provenance and bounds -/

theorem processMaterials_jobs_prov (cfg : Config) (ls : Option Int) (hm img : FsPath) :
    ∀ (ids : List Nat) (st st' : AState),
    processMaterials cfg ls hm img ids st = .ok st' →
    ∀ j ∈ st'.unlinked_heightmaps, j ∈ st.unlinked_heightmaps ∨
      (j.heightmap = hm ∧ j.material_id ∈ ids)
  | [], st, st', h => by
    simp only [processMaterials, Except.ok.injEq] at h
    subst h
    exact fun j hj => Or.inl hj
  | mid :: rest, st, st', h => by
    simp only [processMaterials] at h
    split at h
    · intro j hj
      rcases processMaterials_jobs_prov cfg ls hm img rest _ st' h j hj with hc | ⟨h1, h2⟩
      · exact Or.inl hc
      · exact Or.inr ⟨h1, List.mem_cons_of_mem _ h2⟩
    · split at h
      next lsv heq => cases h
      next hdisp2 lsv s =>
        have hstep : ∀ j2, j2 ∈ st.unlinked_heightmaps ++
            [⟨mid, ((ensureExtensions st.materials mid).getD mid defaultMaterial).name,
              hm, img, s⟩] →
            j2 ∈ st.unlinked_heightmaps ∨ (j2.heightmap = hm ∧ j2.material_id ∈ mid :: rest) := by
          intro j2 hj2
          rcases List.mem_append.1 hj2 with hj2 | hj2
          · exact Or.inl hj2
          · simp only [List.mem_singleton] at hj2
            subst hj2
            exact Or.inr ⟨rfl, by simp⟩
        split at h
        · injection h with hX
          rw [← hX]
          exact hstep
        · intro j hj
          rcases processMaterials_jobs_prov cfg (some s) hm img rest _ st' h j hj with hc | ⟨h1, h2⟩
          · exact hstep j hc
          · exact Or.inr ⟨h1, List.mem_cons_of_mem _ h2⟩

theorem processTuples_jobs_prov (env : Env) (cfg : Config) (docdir : FsPath)
    (ls : Option Int) :
    ∀ (ts : List MatchTuple) (st st' : AState),
    processTuples env cfg docdir ls ts st = .ok st' →
    ∀ j ∈ st'.unlinked_heightmaps, j ∈ st.unlinked_heightmaps ∨
      ∃ t ∈ ts, j.heightmap = t.candidate ∧ j.material_id ∈ t.material_ids
  | [], st, st', h => by
    simp only [processTuples, Except.ok.injEq] at h
    subst h
    exact fun j hj => Or.inl hj
  | t :: rest, st, st', h => by
    simp only [processTuples] at h
    split at h
    · intro j hj
      rcases processTuples_jobs_prov env cfg docdir ls rest st st' h j hj with hc | ⟨t2, ht2, hp⟩
      · exact Or.inl hc
      · exact Or.inr ⟨t2, List.mem_cons_of_mem _ ht2, hp⟩
    · rw [exceptBind_ok_iff] at h
      obtain ⟨ordered, hord, h2⟩ := h
      rw [exceptBind_ok_iff] at h2
      obtain ⟨st2, hpm, h3⟩ := h2
      set stw : AState :=
        (match alookup st.best_image t.candidate.nameOf with
          | some img =>
            if img ≠ t.image ∧ ¬st.warned then
              { st with warned := true, warnCount := st.warnCount + 1 }
            else st
          | none => st) with hstw
      have hw1 : stw.unlinked_heightmaps = st.unlinked_heightmaps := by
        rw [hstw]
        cases alookup st.best_image t.candidate.nameOf with
        | none => rfl
        | some img =>
          dsimp only
          by_cases hc : img ≠ t.image ∧ ¬st.warned = true
          · rw [if_pos hc]
          · rw [if_neg hc]
      intro j hj
      rcases processTuples_jobs_prov env cfg docdir ls rest st2 st' h3 j hj with hc | ⟨t2, ht2, hp⟩
      · rcases processMaterials_jobs_prov cfg ls t.candidate t.image ordered stw st2 hpm j hc
          with hc2 | ⟨h1, h2⟩
        · rw [hw1] at hc2
          exact Or.inl hc2
        · have hmem : j.material_id ∈ t.material_ids := by
            have h4 := (orderMaterialSimilarity_ok_perm hord).mem_iff.1 h2
            have h5 := List.mem_dedup.1 (List.mem_of_mem_filter h4)
            exact h5
          exact Or.inr ⟨t, by simp, h1, hmem⟩
      · exact Or.inr ⟨t2, List.mem_cons_of_mem _ ht2, hp⟩

theorem mem_find_ids_materialsFrom_lt (tid : Int) :
    ∀ {mats : List Material} {k x : Nat},
    x ∈ find_ids_materialsFrom k tid mats → x < k + mats.length
  | [], _, _, h => by cases h
  | m :: rest, k, x, h => by
    rw [find_ids_materialsFrom] at h
    rcases List.mem_append.1 h with h | h
    · obtain ⟨_, _, hx⟩ := List.mem_map.1 h
      simp only [List.length_cons]
      omega
    · have := mem_find_ids_materialsFrom_lt tid h
      simp only [List.length_cons]
      omega

theorem graph_mids_lt (doc : Document) (images : List FsPath) (ids : List (FsPath × Nat)) :
    ∀ pr ∈ (buildGraph doc images ids).pairs, ∀ mid ∈ pr.2, mid < doc.materials.length := by
  intro pr hpr mid hmid
  rw [buildGraph_pairs_flat] at hpr
  obtain ⟨img, _, hin⟩ := List.mem_flatMap.1 hpr
  simp only [pairsOfImg] at hin
  split at hin
  · cases hin
  · split at hin
    · cases hin
    · simp only [List.mem_singleton] at hin
      subst hin
      simp only at hmid
      obtain ⟨tid, _, hmm⟩ := List.mem_flatMap.1 hmid
      have := mem_find_ids_materialsFrom_lt (tid : Int) hmm
      omega

theorem ensureExtensions_length (mats : List Material) (k : Nat) :
    (ensureExtensions mats k).length = mats.length := by
  rw [ensureExtensions]
  cases hk : mats.get? k with
  | none => rfl
  | some m =>
    dsimp only
    cases m.extensions with
    | some em => rfl
    | none => exact List.length_set mats k _

theorem dispOf_linkMaterial (cfg : Config) {mats : List Material} {mid : Nat} (t : Nat)
    (hlt : mid < mats.length) :
    dispOf (linkMaterial cfg mats mid t) mid = some ⟨cfg.scale, cfg.bias, (t : Int)⟩ := by
  cases hm : mats.get? mid with
  | none =>
    rw [List.get?_eq_none] at hm
    omega
  | some m =>
    rw [linkMaterial, dispOf, List.get?_set_eq, hm]
    rfl

theorem mutateJobs_jobs_disp {env : Env} {cfg : Config} {docdir : FsPath}
    (hfi : cfg.filter = []) (hfo : cfg.filter_out = []) :
    ∀ {jobs : List Job} {st st' : MState},
    mutateJobs env cfg docdir jobs st = .ok st' →
    (∀ j ∈ jobs, j.material_id < st.materials.length) →
    ∀ j ∈ jobs, (dispOf st'.materials j.material_id).isSome
  | [], st, st', h, _ => by
    intro j hj
    cases hj
  | j0 :: rest, st, st', h, hb => by
    simp only [mutateJobs, exceptBind_ok_iff] at h
    obtain ⟨st2, hj, h2⟩ := h
    have hlen2 : st2.materials.length = st.materials.length :=
      ((mutateJob_extOnly hj).length_eq).symm
    intro j hjm
    rcases List.mem_cons.1 hjm with rfl | hjm
    · have hb0 := hb j (by simp)
      rcases mutateJob_cases hfi hfo hj with ⟨hd, rfl⟩ | ⟨t, hd, hal, rfl⟩ |
        ⟨rel, hd, hal, hrel, rfl⟩
      · have hsome : (dispOf (ensureExtensions st.materials j.material_id)
            j.material_id).isSome := by
          rw [← hasDisp_iff_dispOf]
          exact hd
        obtain ⟨d, hdd⟩ := Option.isSome_iff_exists.1 hsome
        rw [Option.isSome_iff_exists]
        exact ⟨d, mutateJobs_dispOf_some h2 hdd⟩
      · have hdd := @dispOf_linkMaterial cfg (ensureExtensions st.materials
          j.material_id) j.material_id t (by rw [ensureExtensions_length]; exact hb0)
        rw [Option.isSome_iff_exists]
        exact ⟨_, mutateJobs_dispOf_some h2 hdd⟩
      · have hdd := @dispOf_linkMaterial cfg (ensureExtensions st.materials
          j.material_id) j.material_id st.textures.length
          (by rw [ensureExtensions_length]; exact hb0)
        rw [Option.isSome_iff_exists]
        exact ⟨_, mutateJobs_dispOf_some h2 hdd⟩
    · exact mutateJobs_jobs_disp hfi hfo h2
        (fun x hx => hlen2 ▸ hb x (List.mem_cons_of_mem _ hx)) j hjm

/-! ### Claim C1: the second run's scorer succeeds and its assigner is a no-op -/

theorem heightmapMatchMetric_rel_ok {env : Env} {cfg : Config} {docdir c img : FsPath}
    {names : List String} {s : Frac}
    (h : heightmapMatchMetric env cfg docdir c img names = .ok s) :
    ∃ rel, FsPath.relative_to c docdir = .ok rel := by
  simp only [heightmapMatchMetric, exceptBind_ok_iff] at h
  obtain ⟨rel, hrel, _⟩ := h
  exact ⟨rel, hrel⟩

theorem realMatchesFor_metric_ok {env : Env} {cfg : Config} {docdir c : FsPath}
    {mats : List Material} :
    ∀ {graph : List (FsPath × List Nat)} {ts : List MatchTuple},
    realMatchesFor env cfg docdir c mats graph = .ok ts →
    ∀ pr ∈ graph, ∃ s, heightmapMatchMetric env cfg docdir c pr.1
      (pr.2.map (fun mid => (mats.getD mid defaultMaterial).name)) = .ok s
  | [], _, _ => by
    intro pr hpr
    cases hpr
  | pr0 :: rest, ts, h => by
    simp only [realMatchesFor, exceptBind_ok_iff] at h
    obtain ⟨sc, hsc, tail, htail, _⟩ := h
    intro pr hpr
    rcases List.mem_cons.1 hpr with rfl | hpr
    · exact ⟨sc, hsc⟩
    · exact realMatchesFor_metric_ok htail pr hpr

theorem realMatchesFor_of_forall {env : Env} {cfg : Config} {docdir c : FsPath}
    {mats : List Material} :
    ∀ (graph : List (FsPath × List Nat)),
    (∀ pr ∈ graph, ∃ s, heightmapMatchMetric env cfg docdir c pr.1
      (pr.2.map (fun mid => (mats.getD mid defaultMaterial).name)) = .ok s) →
    ∃ ts, realMatchesFor env cfg docdir c mats graph = .ok ts
  | [], _ => ⟨[], rfl⟩
  | pr0 :: rest, hok => by
    obtain ⟨s, hs⟩ := hok pr0 (by simp)
    obtain ⟨tail, htail⟩ := realMatchesFor_of_forall rest
      (fun pr hpr => hok pr (List.mem_cons_of_mem _ hpr))
    refine ⟨⟨s, c, pr0.1, pr0.2⟩ :: tail, ?_⟩
    simp only [realMatchesFor, hs, htail, Bind.bind, Except.bind]

theorem matchesFor_eq_real {env : Env} {cfg : Config} {docdir c : FsPath}
    {graph : List (FsPath × List Nat)} {mats : List Material}
    (hmmo : cfg.match_materials_only = false) :
    matchesFor env cfg docdir c graph mats = realMatchesFor env cfg docdir c mats graph := by
  rw [matchesFor]
  cases hreal : realMatchesFor env cfg docdir c mats graph with
  | error e => simp [hreal, Bind.bind, Except.bind]
  | ok real => simp [hreal, Bind.bind, Except.bind, hmmo]

theorem hasDisp_ensure_noop {mats : List Material} {mid : Nat}
    (h : hasDisp mats mid = true) : ensureExtensions mats mid = mats := by
  rw [hasDisp] at h
  rw [ensureExtensions]
  cases hk : mats.get? mid with
  | none => rfl
  | some m =>
    rw [hk] at h
    dsimp only at h
    dsimp only
    cases he : m.extensions with
    | some em => rfl
    | none => simp [he] at h

theorem processMaterials_noop {cfg : Config} {ls : Option Int} {hm img : FsPath} :
    ∀ (ids : List Nat) (st : AState),
    (∀ mid ∈ ids, hasDisp st.materials mid = true) →
    ∃ claimed, processMaterials cfg ls hm img ids st =
      .ok { st with unlinked_material_ids := claimed }
  | [], st, _ => ⟨st.unlinked_material_ids, rfl⟩
  | mid :: rest, st, hd => by
    have hd0 := hd mid (by simp)
    have hens : ensureExtensions st.materials mid = st.materials := hasDisp_ensure_noop hd0
    obtain ⟨claimed, hrec⟩ := processMaterials_noop rest
      { st with unlinked_material_ids := addNew st.unlinked_material_ids mid }
      (fun x hx => hd x (List.mem_cons_of_mem _ hx))
    refine ⟨claimed, ?_⟩
    simp only [processMaterials, hens]
    rw [if_pos (show hasDisp st.materials mid = true from hd0)]
    exact hrec

theorem processTuples_noop {env : Env} {cfg : Config} {docdir : FsPath} {ls : Option Int} :
    ∀ (ts : List MatchTuple) (st : AState),
    st.best_image = [] →
    (∀ t ∈ ts, ∀ mid ∈ t.material_ids, hasDisp st.materials mid = true) →
    (∀ t ∈ ts, ∃ rel, FsPath.relative_to t.candidate docdir = .ok rel) →
    ∃ claimed, processTuples env cfg docdir ls ts st =
      .ok { st with unlinked_material_ids := claimed }
  | [], st, _, _, _ => ⟨st.unlinked_material_ids, rfl⟩
  | t :: rest, st, hbi, hd, hrel => by
    obtain ⟨rel, hrelt⟩ := hrel t (by simp)
    have hordeq : orderMaterialSimilarity env cfg docdir t.candidate st.materials
        (t.material_ids.dedup.filter (fun m => m ∉ st.unlinked_material_ids)) =
        .ok (((isort fracNatLeB
          ((t.material_ids.dedup.filter (fun m => m ∉ st.unlinked_material_ids)).map
            (fun i => (env.ratio (env.reSub cfg.heightmap_regex (joinPath rel))
              (st.materials.getD i defaultMaterial).name, i)))).reverse.map (·.2))) := by
      rw [orderMaterialSimilarity]
      simp only [hrelt, Bind.bind, Except.bind]
    set ordered := ((isort fracNatLeB
      ((t.material_ids.dedup.filter (fun m => m ∉ st.unlinked_material_ids)).map
        (fun i => (env.ratio (env.reSub cfg.heightmap_regex (joinPath rel))
          (st.materials.getD i defaultMaterial).name, i)))).reverse.map (·.2)) with hordset
    have hordd : ∀ mid ∈ ordered, hasDisp st.materials mid = true := by
      intro mid hmid
      have hperm := orderMaterialSimilarity_ok_perm hordeq
      have h2 := hperm.mem_iff.1 hmid
      exact hd t (by simp) mid (List.mem_dedup.1 (List.mem_of_mem_filter h2))
    obtain ⟨c1, hpm⟩ := processMaterials_noop ordered st hordd
    obtain ⟨c2, hrec⟩ := processTuples_noop rest { st with unlinked_material_ids := c1 }
      hbi (fun t2 ht2 => hd t2 (List.mem_cons_of_mem _ ht2))
      (fun t2 ht2 => hrel t2 (List.mem_cons_of_mem _ ht2))
    refine ⟨c2, ?_⟩
    simp only [processTuples, hbi, alookup]
    rw [if_neg (by simp)]
    rw [exceptBind_ok_iff]
    refine ⟨ordered, hordeq, ?_⟩
    rw [exceptBind_ok_iff]
    refine ⟨{ st with unlinked_material_ids := c1 }, hpm, ?_⟩
    rw [hbi]
    rw [hbi] at hrec
    exact hrec

/-! ### Claim C1: the template copy is idempotent when template names are
unique -/

theorem fEqB_refl (x : Frac) : fEqB x x = true := by simp [fEqB]

/-- The fold body of the `--copy-from` loop. -/
def copyFoldF (m : Material) (acc : DispExt × Bool) (om : TemplateMaterial) :
    DispExt × Bool :=
  match om.displacement with
  | some od =>
    if om.name = m.name then
      if ¬(fEqB acc.1.displacementGeometryFactor od.displacementGeometryFactor) ∨
         ¬(fEqB acc.1.displacementGeometryOffset od.displacementGeometryOffset) then
        ({ acc.1 with
            displacementGeometryFactor := od.displacementGeometryFactor,
            displacementGeometryOffset := od.displacementGeometryOffset }, true)
      else acc
    else acc
  | none => acc

def withDisp (m : Material) (em : ExtMap) (x : DispExt) : Material :=
  { m with extensions := some { em with displacement := some x } }

/-- The copy loop's effect on one extension-carrying material. -/
def copiedMaterial (tmpl : List TemplateMaterial) (m : Material) (em : ExtMap)
    (d : DispExt) : Material × Bool :=
  let folded := tmpl.foldl (copyFoldF m) (d, false)
  (withDisp m em folded.1, folded.2)

theorem copyMaterial_eq {env : Env} {cfg : Config} {tmpl : List TemplateMaterial}
    {m : Material} (hfi : cfg.filter = []) (hfo : cfg.filter_out = []) :
    copyMaterial env cfg tmpl m = .ok (match m.extensions with
      | none => (m, false)
      | some em => match em.displacement with
        | none => (m, false)
        | some d => copiedMaterial tmpl m em d) := by
  rw [copyMaterial]
  rw [filterMaterialName_pass hfi hfo]
  simp only [Bind.bind, Except.bind, Bool.not_true]
  rw [if_neg (by simp)]
  cases m.extensions with
  | none => rfl
  | some em =>
    dsimp only
    cases em.displacement with
    | none => rfl
    | some d => rfl

theorem copyFoldF_no_match {m : Material} {om : TemplateMaterial}
    (h : ¬om.name = m.name ∨ om.displacement = none) (acc : DispExt × Bool) :
    copyFoldF m acc om = acc := by
  rw [copyFoldF]
  cases hd : om.displacement with
  | none => rfl
  | some od =>
    dsimp only
    rcases h with h | h
    · rw [if_neg h]
    · rw [hd] at h
      cases h

theorem copyFold_skip (m : Material) :
    ∀ (tmpl : List TemplateMaterial) (acc : DispExt × Bool),
    (∀ om ∈ tmpl, ¬om.name = m.name ∨ om.displacement = none) →
    tmpl.foldl (copyFoldF m) acc = acc
  | [], _, _ => rfl
  | om :: rest, acc, h => by
    rw [List.foldl_cons, copyFoldF_no_match (h om (by simp))]
    exact copyFold_skip m rest acc (fun x hx => h x (List.mem_cons_of_mem _ hx))

theorem copyFold_idem (m : Material) :
    ∀ (tmpl : List TemplateMaterial) (d : DispExt),
    (tmpl.map (·.name)).Nodup →
    tmpl.foldl (copyFoldF m) ((tmpl.foldl (copyFoldF m) (d, false)).1, false) =
      ((tmpl.foldl (copyFoldF m) (d, false)).1, false)
  | [], d, _ => rfl
  | om :: rest, d, hnd => by
    obtain ⟨hfresh, hndr⟩ : (∀ x ∈ rest, ¬x.name = om.name) ∧ (rest.map (·.name)).Nodup :=
      by simpa using hnd
    by_cases hmatch : om.name = m.name ∧ om.displacement.isSome
    · obtain ⟨od, hod⟩ := Option.isSome_iff_exists.1 hmatch.2
      have hskip : ∀ acc, rest.foldl (copyFoldF m) acc = acc := by
        intro acc
        refine copyFold_skip m rest acc ?_
        intro x hx
        left
        rw [← hmatch.1]
        exact hfresh x hx
      have hstep : copyFoldF m (d, false) om =
          (if ¬fEqB d.displacementGeometryFactor od.displacementGeometryFactor = true ∨
              ¬fEqB d.displacementGeometryOffset od.displacementGeometryOffset = true then
            (⟨od.displacementGeometryFactor, od.displacementGeometryOffset,
              d.displacementGeometryTexture⟩, true)
          else (d, false)) := by
        rw [copyFoldF, hod]
        dsimp only
        rw [if_pos hmatch.1]
      rw [List.foldl_cons, List.foldl_cons, hskip, hskip, hstep]
      by_cases hcond : ¬fEqB d.displacementGeometryFactor
            od.displacementGeometryFactor = true ∨
          ¬fEqB d.displacementGeometryOffset od.displacementGeometryOffset = true
      · rw [if_pos hcond]
        dsimp only
        rw [copyFoldF, hod]
        dsimp only
        rw [if_pos hmatch.1]
        rw [if_neg (by simp [fEqB_refl])]
      · rw [if_neg hcond]
        dsimp only
        rw [copyFoldF, hod]
        dsimp only
        rw [if_pos hmatch.1]
        rw [if_neg hcond]
    · have hnm : ¬om.name = m.name ∨ om.displacement = none := by
        by_cases h1 : om.name = m.name
        · right
          cases hd : om.displacement with
          | none => rfl
          | some od => exact absurd ⟨h1, by simp [hd]⟩ hmatch
        · exact Or.inl h1
      rw [List.foldl_cons, List.foldl_cons, copyFoldF_no_match hnm,
        copyFoldF_no_match hnm]
      exact copyFold_idem m rest d hndr

theorem copyFoldF_name_congr {m m' : Material} (h : m'.name = m.name) :
    copyFoldF m' = copyFoldF m := by
  funext acc om
  rw [copyFoldF, copyFoldF, h]

theorem copyMaterial_idem_core {env : Env} {cfg : Config} {tmpl : List TemplateMaterial}
    (hfi : cfg.filter = []) (hfo : cfg.filter_out = [])
    (hnd : (tmpl.map (·.name)).Nodup) (m : Material) (em : ExtMap) (d : DispExt) :
    copyMaterial env cfg tmpl (copiedMaterial tmpl m em d).1 =
      .ok ((copiedMaterial tmpl m em d).1, false) := by
  have hname : (copiedMaterial tmpl m em d).1.name = m.name := rfl
  have hfold : tmpl.foldl (copyFoldF (copiedMaterial tmpl m em d).1)
      ((tmpl.foldl (copyFoldF m) (d, false)).1, false) =
      ((tmpl.foldl (copyFoldF m) (d, false)).1, false) := by
    rw [copyFoldF_name_congr hname]
    exact copyFold_idem m tmpl d hnd
  have hA : copiedMaterial tmpl (copiedMaterial tmpl m em d).1
      ⟨some (tmpl.foldl (copyFoldF m) (d, false)).1⟩
      (tmpl.foldl (copyFoldF m) (d, false)).1 =
      ((copiedMaterial tmpl m em d).1, false) := by
    rw [copiedMaterial]
    rw [hfold]
    rfl
  rw [copyMaterial_eq hfi hfo]
  have hext2 : (copiedMaterial tmpl m em d).1.extensions =
      some ⟨some (tmpl.foldl (copyFoldF m) (d, false)).1⟩ := rfl
  rw [hext2]
  exact congrArg Except.ok hA

theorem copyMaterial_idem {env : Env} {cfg : Config} {tmpl : List TemplateMaterial}
    {m : Material} {r : Material × Bool}
    (hfi : cfg.filter = []) (hfo : cfg.filter_out = [])
    (hnd : (tmpl.map (·.name)).Nodup)
    (h : copyMaterial env cfg tmpl m = .ok r) :
    copyMaterial env cfg tmpl r.1 = .ok (r.1, false) := by
  rw [copyMaterial_eq hfi hfo] at h
  injection h with h
  cases hext : m.extensions with
  | none =>
    rw [hext] at h
    dsimp only at h
    rw [copyMaterial_eq hfi hfo, ← h, hext]
  | some em =>
    rw [hext] at h
    dsimp only at h
    cases hd : em.displacement with
    | none =>
      rw [hd] at h
      dsimp only at h
      rw [copyMaterial_eq hfi hfo, ← h, hext]
      dsimp only
      rw [hd]
    | some d =>
      rw [hd] at h
      dsimp only at h
      rw [← h]
      exact copyMaterial_idem_core hfi hfo hnd m em d

theorem copyPass_idem {env : Env} {cfg : Config} {tmpl : List TemplateMaterial}
    (hfi : cfg.filter = []) (hfo : cfg.filter_out = [])
    (hnd : (tmpl.map (·.name)).Nodup) :
    ∀ {mats : List Material} {out : List Material × Bool},
    copyPass env cfg tmpl mats = .ok out →
    copyPass env cfg tmpl out.1 = .ok (out.1, false)
  | [], out, h => by
    simp only [copyPass, Except.ok.injEq] at h
    rw [← h]
    rfl
  | m :: rest, out, h => by
    simp only [copyPass, exceptBind_ok_iff] at h
    obtain ⟨r, hr, tail, htail, h3⟩ := h
    injection h3 with h3
    rw [← h3]
    dsimp only
    have hm := copyMaterial_idem hfi hfo hnd hr
    have ht := copyPass_idem hfi hfo hnd htail
    simp only [copyPass, hm, ht, Bind.bind, Except.bind]
    rfl

theorem realMatchesFor_covers {env : Env} {cfg : Config} {docdir c : FsPath}
    {mats : List Material} :
    ∀ {graph : List (FsPath × List Nat)} {ts : List MatchTuple},
    realMatchesFor env cfg docdir c mats graph = .ok ts →
    ∀ pr ∈ graph, ∃ t ∈ ts, t.candidate = c ∧ t.material_ids = pr.2
  | [], _, _ => by
    intro pr hpr
    cases hpr
  | pr0 :: rest, ts, h => by
    simp only [realMatchesFor, exceptBind_ok_iff] at h
    obtain ⟨sc, hsc, tail, htail, h3⟩ := h
    injection h3 with h3
    intro pr hpr
    rcases List.mem_cons.1 hpr with rfl | hpr
    · exact ⟨⟨sc, c, pr.1, pr.2⟩, by rw [← h3]; simp, rfl, rfl⟩
    · obtain ⟨t, ht, hp⟩ := realMatchesFor_covers htail pr hpr
      exact ⟨t, by rw [← h3]; exact List.mem_cons_of_mem _ ht, hp⟩

theorem mutateJobs_added_sub {env : Env} {cfg : Config} {docdir : FsPath} :
    ∀ {jobs : List Job} {st st' : MState},
    mutateJobs env cfg docdir jobs st = .ok st' →
    ∀ x ∈ st'.heightmaps_added, x ∈ st.heightmaps_added ∨ x ∈ jobs
  | [], st, st', h => by
    simp only [mutateJobs, Except.ok.injEq] at h
    subst h
    exact fun x hx => Or.inl hx
  | j :: rest, st, st', h => by
    simp only [mutateJobs, exceptBind_ok_iff] at h
    obtain ⟨st2, hj, h2⟩ := h
    intro x hx
    rcases mutateJobs_added_sub h2 x hx with hx2 | hx2
    · rcases mutateJob_shape hj with ⟨ha, _⟩ | ⟨ha, _⟩
      · rw [ha] at hx2
        rcases List.mem_append.1 hx2 with hx3 | hx3
        · exact Or.inl hx3
        · simp only [List.mem_singleton] at hx3
          exact Or.inr (by simp [hx3])
      · rw [ha] at hx2
        exact Or.inl hx2
    · exact Or.inr (List.mem_cons_of_mem _ hx2)

theorem copyMaterial_disp_isSome {env : Env} {cfg : Config} {tmpl : List TemplateMaterial}
    {m : Material} {r : Material × Bool}
    (hfi : cfg.filter = []) (hfo : cfg.filter_out = [])
    (h : copyMaterial env cfg tmpl m = .ok r) :
    ∀ em d, m.extensions = some em → em.displacement = some d →
    ∃ em2 d2, r.1.extensions = some em2 ∧ em2.displacement = some d2 := by
  intro em d hext hd
  rw [copyMaterial_eq hfi hfo] at h
  injection h with h
  rw [hext] at h
  dsimp only at h
  rw [hd] at h
  dsimp only at h
  rw [← h]
  exact ⟨_, _, rfl, rfl⟩

theorem copyPass_disp_isSome {env : Env} {cfg : Config} {tmpl : List TemplateMaterial}
    (hfi : cfg.filter = []) (hfo : cfg.filter_out = []) :
    ∀ {mats : List Material} {out : List Material × Bool},
    copyPass env cfg tmpl mats = .ok out →
    ∀ mid, (dispOf mats mid).isSome → (dispOf out.1 mid).isSome
  | [], out, h, mid => by
    simp only [copyPass, Except.ok.injEq] at h
    rw [← h]
    exact fun hx => hx
  | m :: rest, out, h, mid => by
    simp only [copyPass, exceptBind_ok_iff] at h
    obtain ⟨r, hr, tail, htail, h3⟩ := h
    injection h3 with h3
    rw [← h3]
    cases mid with
    | zero =>
      intro hs
      rw [dispOf] at hs
      simp only [List.get?_cons_zero] at hs
      rw [dispOf]
      simp only [List.get?_cons_zero]
      cases hext : m.extensions with
      | none =>
        rw [hext] at hs
        simp at hs
      | some em =>
        rw [hext] at hs
        dsimp only at hs
        cases hd : em.displacement with
        | none =>
          rw [hd] at hs
          simp at hs
        | some d =>
          obtain ⟨em2, d2, he2, hd2⟩ := copyMaterial_disp_isSome hfi hfo hr em d hext hd
          rw [he2]
          dsimp only
          rw [hd2]
          rfl
    | succ k =>
      intro hs
      rw [dispOf] at hs
      simp only [List.get?_cons_succ] at hs
      have := copyPass_disp_isSome hfi hfo htail k (by rw [dispOf]; exact hs)
      rw [dispOf] at this
      rw [dispOf]
      simpa using this

/-! ### Claim C1: assembling the amended idempotence theorem -/

theorem mem_sortMatchesDesc {ms : List MatchTuple} {t : MatchTuple} :
    t ∈ sortMatchesDesc ms ↔ t ∈ ms := by
  rw [sortMatchesDesc, List.mem_reverse, mem_isort]

theorem mem_imageDirsOf_nil {images : List FsPath} {d : FsPath} :
    d ∈ imageDirsOf [] images ↔ ∃ img ∈ images, img.parentOf = d := by
  rw [imageDirsOf]
  have h := mem_foldl_addNew (fun img : FsPath => img.parentOf) images
    (([] : List FsPath).foldl addNew []) d
  simpa using h

/-- Everything the second-run bookkeeping needs about a first-run candidate:
its components past the document directory are clean URI pieces, it is not a
registered image, its suffix is known and its parent directory is searched. -/
theorem candidate_clean (env : Env) (cfg : Config) (listdir : FsPath → List String)
    (docdir : FsPath) (base : List String) (doc : Document)
    (hextra : cfg.extra_paths = [])
    (himg : ∀ e ∈ doc.images, ∀ u, e.uri = some u → u ≠ "" → splitUri u ≠ [])
    (hclean : ∀ dir ∈ (docPre env cfg listdir docdir base doc).dirs,
      ∀ f ∈ listdir dir, cleanComp f = true)
    {c : FsPath} (hc : c ∈ (docPre env cfg listdir docdir base doc).candidates) :
    (∀ s ∈ c.drop docdir.length, cleanComp s = true) ∧
    c.drop docdir.length ≠ [] ∧
    docdir ++ c.drop docdir.length = c ∧
    c ∉ imagesListOf (registerImages docdir doc.images) ∧
    c.suffixOf ∈ suffixesAfter base (registerImages docdir doc.images) ∧
    c.parentOf ∈ imageDirsOf cfg.extra_paths
      (imagesListOf (registerImages docdir doc.images)) := by
  obtain ⟨d, hd, f, hf, hceq, hsuf, hfresh, -⟩ :=
    (mem_discoverCandidates env cfg listdir
      (docPre env cfg listdir docdir base doc).dirs
      (docPre env cfg listdir docdir base doc).suffixes
      (docPre env cfg listdir docdir base doc).images c).1 hc
  have hdirs : (docPre env cfg listdir docdir base doc).dirs =
      imageDirsOf cfg.extra_paths (imagesListOf (registerImages docdir doc.images)) := rfl
  have hd0 : d ∈ imageDirsOf ([] : List FsPath)
      (imagesListOf (registerImages docdir doc.images)) := by
    have := hd
    rw [hdirs, hextra] at this
    exact this
  obtain ⟨img, himgmem, hpar⟩ := mem_imageDirsOf_nil.1 hd0
  obtain ⟨p, hp, hp2⟩ := mem_imagesListOf.1 himgmem
  rw [registerImages, mem_registerImagesFrom] at hp
  obtain ⟨k, e, u, hget, hu, hne, hpr⟩ := hp
  have he : e ∈ doc.images := List.get?_mem hget
  have hsplit : splitUri u ≠ [] := himg e he u hu hne
  have himgeq : img = docdir ++ splitUri u := by
    rw [← hp2, hpr]
    rfl
  have hdeq : d = docdir ++ (splitUri u).dropLast := by
    rw [← hpar, himgeq, FsPath.parentOf, List.dropLast_append_of_ne_nil docdir hsplit]
  have hceq2 : c = docdir ++ ((splitUri u).dropLast ++ [f]) := by
    rw [hceq, hdeq, FsPath.join, List.append_assoc]
  have hdrop : c.drop docdir.length = (splitUri u).dropLast ++ [f] := by
    rw [hceq2, List.drop_left]
  refine ⟨?_, ?_, ?_, ?_, ?_, ?_⟩
  · intro s hs
    rw [hdrop] at hs
    rcases List.mem_append.1 hs with hs | hs
    · exact splitUri_clean u s (List.dropLast_sublist (splitUri u) |>.mem hs)
    · simp only [List.mem_singleton] at hs
      subst hs
      exact hclean d hd s hf
  · rw [hdrop]
    simp
  · rw [hdrop, ← hceq2]
  · exact hceq ▸ hfresh
  · exact hceq ▸ hsuf
  · have hpc : c.parentOf = d := by
      rw [hceq, FsPath.join, FsPath.parentOf, List.dropLast_concat]
    rw [hpc, ← hdirs]
    exact hd

/-- C1 (amended): with multi-image matching and materials-only matching off,
empty name filters, no extra search paths, template names unique, texture and
material references in bounds, and clean image URIs and directory listings, a
second run on the first run's output document is a no-op: it reproduces the
document byte-for-byte, reports `had_changes = false`, adds no heightmaps,
leaves no unlinked jobs, emits no warnings, every material linked by the first
run already carries the displacement extension, and the second run's candidate
set is contained in the first run's (the linked heightmaps are now registered
images and drop out of it). -/
theorem C1_idempotent_without_multi_image {env : Env} {cfg : Config}
    {listdir : FsPath → List String} {docdir : FsPath} {base : List String}
    {doc : Document} {out : RunOut}
    (h1 : runDoc env cfg listdir docdir base doc = .ok out)
    (hmoi : cfg.match_one_image = false)
    (hmmo : cfg.match_materials_only = false)
    (hfi : cfg.filter = []) (hfo : cfg.filter_out = [])
    (hextra : cfg.extra_paths = [])
    (htmpl : ∀ tmpl, cfg.copy_from = some tmpl → (tmpl.map (·.name)).Nodup)
    (hbt : ∀ te ∈ doc.textures, te.source < (doc.images.length : Int))
    (hbm : ∀ m ∈ doc.materials, ∀ tid : Int, (doc.textures.length : Int) ≤ tid →
      materialYields m tid = [])
    (himg : ∀ e ∈ doc.images, ∀ u, e.uri = some u → u ≠ "" → splitUri u ≠ [])
    (hclean : ∀ dir ∈ (docPre env cfg listdir docdir base doc).dirs,
      ∀ f ∈ listdir dir, cleanComp f = true) :
    runDoc env cfg listdir docdir base out.doc =
      .ok ⟨out.doc, false, [], [], 0, out.suffixes⟩ ∧
    (∀ j ∈ out.heightmaps_added, hasDisp out.doc.materials j.material_id = true) ∧
    ∀ c ∈ (docPre env cfg listdir docdir base out.doc).candidates,
      c ∈ (docPre env cfg listdir docdir base doc).candidates := by
  obtain ⟨ms, ast, mst, hms, hast, hmst, hout⟩ := runDoc_ok_inv h1
  have hEO : ExtOnlyRel doc.materials out.doc.materials := runDoc_extOnly h1
  have hastlen : ast.materials.length = doc.materials.length :=
    (extOnlyRel_of_matsRel (processTuples_matsRel env cfg docdir
      (docPre env cfg listdir docdir base doc).lastSampler _ _ _ hast)).length_eq.symm
  have hjb : ∀ j ∈ ast.unlinked_heightmaps, j.material_id < ast.materials.length := by
    intro j hj
    rcases processTuples_jobs_prov env cfg docdir
        (docPre env cfg listdir docdir base doc).lastSampler _ _ _ hast j hj with
      hj0 | ⟨t, ht, hjh, hjm⟩
    · exact absurd hj0 (by simp)
    · rcases (buildMatches_ok hms t (mem_sortMatchesDesc.1 ht)).2.1 with
        ⟨pr, hpr, -, hmids⟩ | ⟨hmmo2, -⟩
      · have hlt := graph_mids_lt doc
          (imagesListOf (registerImages docdir doc.images))
          (image_idsOf (registerImages docdir doc.images)) pr hpr j.material_id
          (by rw [← hmids]; exact hjm)
        rw [hastlen]
        exact hlt
      · rw [hmmo] at hmmo2
        cases hmmo2
  have hjobs_disp : ∀ j ∈ ast.unlinked_heightmaps,
      (dispOf mst.materials j.material_id).isSome :=
    mutateJobs_jobs_disp hfi hfo hmst hjb
  have hdisp_out : ∀ mid, (dispOf mst.materials mid).isSome →
      (dispOf out.doc.materials mid).isSome := by
    rcases hout with ⟨hcfn, rfl⟩ | ⟨tmpl, copied, hcfs, hcp, rfl⟩
    · intro mid h
      exact h
    · intro mid h
      exact copyPass_disp_isSome hfi hfo hcp mid h
  have hadded : ∀ j ∈ out.heightmaps_added, j ∈ ast.unlinked_heightmaps := by
    have hma : ∀ x ∈ mst.heightmaps_added, x ∈ ast.unlinked_heightmaps := by
      intro x hx
      rcases mutateJobs_added_sub hmst x hx with h | h
      · exact absurd h (by simp)
      · exact h
    rcases hout with ⟨hcfn, rfl⟩ | ⟨tmpl, copied, hcfs, hcp, rfl⟩ <;> exact hma
  have hconc2 : ∀ j ∈ out.heightmaps_added,
      hasDisp out.doc.materials j.material_id = true := by
    intro j hj
    rw [hasDisp_iff_dispOf]
    exact hdisp_out _ (hjobs_disp j (hadded j hj))
  have hshape : MutShape doc.images doc.textures ast.unlinked_heightmaps docdir mst :=
    mutateJobs_mutShape hfi hfo hmst (fun j hj => hj)
      ⟨[], by simp, by simp [newTexsFrom], fun n hn => absurd hn (by simp), by simp,
        List.nodup_nil⟩
  obtain ⟨news, hNi, hNt, hNprov, -, hNnd⟩ := hshape
  have hjcand : ∀ j ∈ ast.unlinked_heightmaps,
      j.heightmap ∈ (docPre env cfg listdir docdir base doc).candidates := by
    intro j hj
    rcases processTuples_jobs_prov env cfg docdir
        (docPre env cfg listdir docdir base doc).lastSampler _ _ _ hast j hj with
      hj0 | ⟨t, ht, hjh, hjm⟩
    · exact absurd hj0 (by simp)
    · rw [hjh]
      exact (buildMatches_ok hms t (mem_sortMatchesDesc.1 ht)).1
  have hnewsFacts : ∀ n ∈ news, CleanLink docdir n ∧
      n.hm ∉ imagesListOf (registerImages docdir doc.images) ∧
      n.hm.suffixOf ∈ suffixesAfter base (registerImages docdir doc.images) ∧
      n.hm.parentOf ∈ imageDirsOf cfg.extra_paths
        (imagesListOf (registerImages docdir doc.images)) := by
    intro n hn
    obtain ⟨j, hj, hnh, hrel⟩ := hNprov n hn
    have hcmem : n.hm ∈ (docPre env cfg listdir docdir base doc).candidates := by
      rw [hnh]
      exact hjcand j hj
    obtain ⟨hcl, hne, hjoin, hfresh, hsuf, hdirsm⟩ :=
      candidate_clean env cfg listdir docdir base doc hextra himg hclean hcmem
    have hrelok := relative_to_ok (show FsPath.relative_to n.hm docdir = .ok n.rel by
      rw [hnh]; exact hrel)
    have hreleq : n.rel = n.hm.drop docdir.length := hrelok.1
    refine ⟨⟨?_, ?_, ?_⟩, hfresh, hsuf, hdirsm⟩
    · rw [hreleq]; exact hcl
    · rw [hreleq]; exact hne
    · rw [hreleq]; exact hjoin
  have h2i : out.doc.images = doc.images ++ news.map newImgEntry := by
    rcases hout with ⟨hcfn, rfl⟩ | ⟨tmpl, copied, hcfs, hcp, rfl⟩ <;> exact hNi
  have h2t : out.doc.textures = doc.textures ++ newTexsFrom doc.images.length news := by
    rcases hout with ⟨hcfn, rfl⟩ | ⟨tmpl, copied, hcfs, hcp, rfl⟩ <;> exact hNt
  obtain ⟨hsfx, hdirs2, hgraph2, hcand2⟩ :=
    docPre_second_run env cfg listdir docdir base doc out.doc news h2i h2t hEO
      (fun n hn => (hnewsFacts n hn).1) hNnd
      (fun n hn => (hnewsFacts n hn).2.1)
      (fun n hn => (hnewsFacts n hn).2.2.1)
      (fun n hn => (hnewsFacts n hn).2.2.2)
      hbt hbm
  have hnames : ∀ l : List Nat,
      l.map (fun mid => ((out.doc.materials.getD mid defaultMaterial).name)) =
      l.map (fun mid => ((doc.materials.getD mid defaultMaterial).name)) :=
    fun l => List.map_congr_left (fun mid _ => extOnlyRel_getD_name hEO mid)
  have hok2 : ∀ c ∈ (docPre env cfg listdir docdir base out.doc).candidates,
      ∃ b, matchesFor env cfg docdir c (docPre env cfg listdir docdir base doc).graph
        out.doc.materials = .ok b := by
    intro c hc
    have hc1 : c ∈ (docPre env cfg listdir docdir base doc).candidates :=
      ((hcand2 c).1 hc).1
    obtain ⟨b1, hb1⟩ := buildMatches_elem_ok hms c hc1
    rw [matchesFor_eq_real hmmo] at hb1
    have hmet1 := realMatchesFor_metric_ok hb1
    have hmet2 : ∀ pr ∈ (docPre env cfg listdir docdir base doc).graph,
        ∃ s, heightmapMatchMetric env cfg docdir c pr.1
          (pr.2.map (fun mid => ((out.doc.materials.getD mid defaultMaterial).name))) =
          .ok s := by
      intro pr hpr
      rw [hnames pr.2]
      exact hmet1 pr hpr
    obtain ⟨ts, hts⟩ := realMatchesFor_of_forall _ hmet2
    exact ⟨ts, by rw [matchesFor_eq_real hmmo]; exact hts⟩
  set ms2 : List MatchTuple :=
    (docPre env cfg listdir docdir base out.doc).candidates.flatMap
      (blockOf env cfg docdir (docPre env cfg listdir docdir base doc).graph
        out.doc.materials) with hms2def
  have hms2 : buildMatches env cfg docdir
      (docPre env cfg listdir docdir base out.doc).candidates
      (docPre env cfg listdir docdir base doc).graph out.doc.materials = .ok ms2 :=
    buildMatches_of_forall_ok _ hok2
  have htdisp : ∀ t ∈ ms2, ∀ mid ∈ t.material_ids,
      hasDisp out.doc.materials mid = true := by
    intro t ht mid hmid
    obtain ⟨hc2, hOR, -⟩ := buildMatches_ok hms2 t ht
    rcases hOR with ⟨pr, hpr, -, hmids⟩ | ⟨hmmo2, -⟩
    · have hc1 : t.candidate ∈ (docPre env cfg listdir docdir base doc).candidates :=
        ((hcand2 t.candidate).1 hc2).1
      obtain ⟨b1, hb1⟩ := buildMatches_elem_ok hms t.candidate hc1
      have hb1r := hb1
      rw [matchesFor_eq_real hmmo] at hb1r
      obtain ⟨t1, ht1, -, ht1mids⟩ := realMatchesFor_covers hb1r pr hpr
      have ht1ms : t1 ∈ ms := by
        rw [buildMatches_flatMap hms]
        refine List.mem_flatMap.2 ⟨t.candidate, hc1, ?_⟩
        have hbo : blockOf env cfg docdir (docPre env cfg listdir docdir base doc).graph
            doc.materials t.candidate = b1 := by
          simp only [blockOf, hb1]
        rw [hbo]
        exact ht1
      have hclaimed := (processTuples_claims env cfg docdir hmoi
          (docPre env cfg listdir docdir base doc).lastSampler _ _ _ hast).2 t1
        (mem_sortMatchesDesc.2 ht1ms) mid (by rw [ht1mids, ← hmids]; exact hmid)
      have hdinv0 : DoneInv ⟨doc.materials, [], [], [], false, 0⟩ := by
        intro mid2 hmid2
        exact absurd hmid2 (by simp)
      have hdone := processTuples_doneInv env cfg docdir
        (docPre env cfg listdir docdir base doc).lastSampler _ _ _ hast hdinv0 mid hclaimed
      rw [hasDisp_iff_dispOf]
      refine hdisp_out mid ?_
      rcases hdone with hd | ⟨j, hj, hjm⟩
      · obtain ⟨d, hd2⟩ := Option.isSome_iff_exists.1 hd
        rw [Option.isSome_iff_exists]
        exact ⟨d, mutateJobs_dispOf_some hmst hd2⟩
      · rw [← hjm]
        exact hjobs_disp j hj
    · rw [hmmo] at hmmo2
      cases hmmo2
  have hrel2 : ∀ t ∈ ms2, ∃ rel, FsPath.relative_to t.candidate docdir = .ok rel :=
    fun t ht => heightmapMatchMetric_rel_ok (buildMatches_ok hms2 t ht).2.2
  obtain ⟨claimed2, hast2⟩ := @processTuples_noop env cfg docdir
    (docPre env cfg listdir docdir base out.doc).lastSampler (sortMatchesDesc ms2)
    ⟨out.doc.materials, [], [], [], false, 0⟩ rfl
    (fun t ht mid hmid => htdisp t (mem_sortMatchesDesc.1 ht) mid hmid)
    (fun t ht => hrel2 t (mem_sortMatchesDesc.1 ht))
  refine ⟨?_, hconc2, fun c hc => ((hcand2 c).1 hc).1⟩
  have hms2' : buildMatches env cfg docdir
      (docPre env cfg listdir docdir base out.doc).candidates
      (docPre env cfg listdir docdir base out.doc).graph out.doc.materials = .ok ms2 := by
    rw [hgraph2]
    exact hms2
  rcases hout with ⟨hcfn, rfl⟩ | ⟨tmpl, copied, hcfs, hcp, rfl⟩
  · rw [runDoc, runDocWithPre]
    simp only [hms2', Bind.bind, Except.bind, hast2, mutateJobs, hcfn]
    simp only [hsfx]
  · have hidem := copyPass_idem hfi hfo (htmpl tmpl hcfs) hcp
    rw [runDoc, runDocWithPre]
    simp only [hms2', Bind.bind, Except.bind, hast2, mutateJobs, hcfs, hidem,
      Bool.or_false]
    simp only [hsfx]

theorem C1_idempotent_without_multi_image_witness :
    runDoc envA cfgA listdirA ["root"] imageSuffixesInit outA.doc =
      .ok ⟨outA.doc, false, [], [], 0, outA.suffixes⟩ ∧
    (∀ j ∈ outA.heightmaps_added, hasDisp outA.doc.materials j.material_id = true) ∧
    ∀ c ∈ (docPre envA cfgA listdirA ["root"] imageSuffixesInit outA.doc).candidates,
      c ∈ (docPre envA cfgA listdirA ["root"] imageSuffixesInit docA).candidates := by
  refine C1_idempotent_without_multi_image runDocA_eq rfl rfl rfl rfl rfl
    (fun tmpl h => nomatch h) (by decide) ?_ ?_ (by decide)
  · intro m hm tid htid
    have hm2 : m = woodMat := by
      simpa [docA] using hm
    subst hm2
    have htid2 : (1 : Int) ≤ tid := by
      simpa [docA] using htid
    have h0 : ¬ ((0 : Int) = tid) := by omega
    simp [materialYields, texture_names, findInMaterial, firstGroupHit, alookup,
      jfieldMatches, woodMat, h0]
  · intro e he u hu hne
    have he2 : e = ⟨some "color.png", some "color.png"⟩ := by
      simpa [docA] using he
    subst he2
    have hu2 : u = "color.png" := by
      injection hu with h
      exact h.symm
    subst hu2
    decide
